import Mathlib

/-!
# CPU scheduler simulation (cpu_scheduler.c)

A shallow embedding of the tick-driven simulation engine of `cpu_scheduler.c`:
the process table, the circular ready queue, the three scheduling loops
(`fcfs`, `sjf`, `round_robin`) and the statistics derived from the table.

Conventions of the embedding.
* A C `int` is a Lean `Int`; the two agree as long as no value leaves the range
  of `int` (up to `INT_MAX`). The clock and the counters are the only values that
  the loops compute, and they are bounded by the number of ticks. The theorems on
  whole runs (termination, final counters, schedules) assume that the largest
  arrival time plus the sum of the burst times is at most `INT_MAX` and show, with
  `Algorithm.within_int`, that the clock and every counter then stay within `int`
  up to the end of the loop.
* The global array `processes[0 .. num_processes-1]` is a `List Process`;
  `num_processes` is its length.
* A `Process*` is the index of the process in the table; `NULL` is `none`.
* The global `ready_queue` is a `Queue`; its `items` array is a list of
  `MAX_PROCESSES` optional indices.
* A `while` loop is run with a fuel bound (`while_loop`); the state after
  `n` iterations of the body is `body^[n]`.
* `printf` of a per-tick line appends an `Event` to the output.
-/

namespace CpuScheduler

/-- Capacity of the process table and of the ready queue (`#define MAX_PROCESSES 100`). -/
def MAX_PROCESSES : Int := 100

/-- The `Process` struct. -/
structure Process where
  id : Int
  burst_time : Int
  remaining_burst : Int
  arrival_time : Int
  wait_time : Int
  turnaround_time : Int
  completion_time : Int
  in_queue : Int
  deriving DecidableEq

/-- The `Queue` struct: `items` holds process pointers (table indices). -/
structure Queue where
  items : List (Option Nat)
  front : Int
  rear : Int
  size : Int
  deriving DecidableEq

/-- The global variables `processes` (with `num_processes` its length) and `ready_queue`. -/
structure Globals where
  processes : List Process
  ready_queue : Queue
  deriving DecidableEq

/-- One line printed by a scheduling loop:
`T<tick> : P<id> - Burst left <b>, Wait time <w>, Turnaround time <tt>`. -/
structure Event where
  tick : Int
  process_id : Int
  burst_left : Int
  wait_time : Int
  turnaround_time : Int
  deriving DecidableEq

/-! ## Queue operations -/

/-- The function `init_queue`: the `items` array is left as it is. -/
def init_queue (q : Queue) : Queue :=
  { q with front := 0, rear := -1, size := 0 }

/-- The function `enqueue(Process* process)`. -/
def enqueue (process : Nat) (g : Globals) : Globals :=
  match g.processes[process]? with
  | none => g
  | some p =>
    if p.in_queue = 0 ∧ p.remaining_burst > 0 then
      let rear := (g.ready_queue.rear + 1).tmod MAX_PROCESSES
      { processes := g.processes.set process { p with in_queue := 1 },
        ready_queue :=
          { items := g.ready_queue.items.set rear.toNat (some process),
            front := g.ready_queue.front,
            rear := rear,
            size := g.ready_queue.size + 1 } }
    else g

/-- The function `dequeue()`: the returned pointer and the globals afterwards.
A `NULL` entry at `front` (which the C code would dereference) does not occur
in a queue filled by `enqueue`; the embedding then writes to no process. -/
def dequeue (g : Globals) : Option Nat × Globals :=
  if g.ready_queue.size ≤ 0 then (none, g)
  else
    let process := g.ready_queue.items.getD g.ready_queue.front.toNat none
    let q : Queue :=
      { items := g.ready_queue.items,
        front := (g.ready_queue.front + 1).tmod MAX_PROCESSES,
        rear := g.ready_queue.rear,
        size := g.ready_queue.size - 1 }
    match process with
    | none => (none, { processes := g.processes, ready_queue := q })
    | some i =>
      match g.processes[i]? with
      | none => (some i, { processes := g.processes, ready_queue := q })
      | some p =>
        (some i, { processes := g.processes.set i { p with in_queue := 0 },
                   ready_queue := q })

/-- One iteration of the `for` loop of `check_arrivals`, at index `i`. -/
def check_arrivals_step (current_time : Int) (g : Globals) (i : Nat) : Globals :=
  match g.processes[i]? with
  | none => g
  | some p => if p.arrival_time = current_time then enqueue i g else g

/-- The function `check_arrivals(int current_time)`. -/
def check_arrivals (current_time : Int) (g : Globals) : Globals :=
  (List.range g.processes.length).foldl (check_arrivals_step current_time) g

/-! ## Table helpers -/

/-- The function `reset_processes`. -/
def reset_processes (ps : List Process) : List Process :=
  ps.map fun p =>
    { p with remaining_burst := p.burst_time, wait_time := 0, turnaround_time := 0,
             completion_time := 0, in_queue := 0 }

/-- The function `all_processes_complete`. -/
def all_processes_complete : List Process → Bool
  | [] => true
  | p :: ps => if p.remaining_burst > 0 then false else all_processes_complete ps

/-- The scan of `get_next_arrived_process` from index `i` on. -/
def get_next_arrived_process_from (current_time : Int) : Nat → List Process → Option Nat
  | _, [] => none
  | i, p :: ps =>
    if p.arrival_time ≤ current_time ∧ p.remaining_burst > 0 then some i
    else get_next_arrived_process_from current_time (i + 1) ps

/-- The function `get_next_arrived_process(int current_time)`. -/
def get_next_arrived_process (current_time : Int) (ps : List Process) : Option Nat :=
  get_next_arrived_process_from current_time 0 ps

/-- The scan of `get_shortest_job` from index `i` on, carrying the locals
`shortest` and `shortest_burst`. -/
def get_shortest_job_from (current_time : Int) :
    Nat → List Process → Option Nat → Int → Option Nat
  | _, [], shortest, _ => shortest
  | i, p :: ps, shortest, shortest_burst =>
    if p.arrival_time ≤ current_time ∧ p.remaining_burst > 0 then
      if shortest = none ∨ p.remaining_burst < shortest_burst then
        get_shortest_job_from current_time (i + 1) ps (some i) p.remaining_burst
      else get_shortest_job_from current_time (i + 1) ps shortest shortest_burst
    else get_shortest_job_from current_time (i + 1) ps shortest shortest_burst

/-- The function `get_shortest_job(int current_time)`. -/
def get_shortest_job (current_time : Int) (ps : List Process) : Option Nat :=
  get_shortest_job_from current_time 0 ps none (-1)

/-- The body of the `for` loop of `update_wait_times` on the process at index `i`. -/
def update_wait_times_at (current_time : Int) (current_process : Option Nat)
    (i : Nat) (p : Process) : Process :=
  if p.arrival_time ≤ current_time ∧ p.remaining_burst > 0 then
    { p with
      wait_time := if some i ≠ current_process then p.wait_time + 1 else p.wait_time,
      turnaround_time := p.turnaround_time + 1 }
  else p

/-- The loop of `update_wait_times` from index `i` on. -/
def update_wait_times_from (current_time : Int) (current_process : Option Nat) :
    Nat → List Process → List Process
  | _, [] => []
  | i, p :: ps =>
    update_wait_times_at current_time current_process i p ::
      update_wait_times_from current_time current_process (i + 1) ps

/-- The function `update_wait_times(int current_time, Process* current_process)`. -/
def update_wait_times (current_time : Int) (current_process : Option Nat)
    (ps : List Process) : List Process :=
  update_wait_times_from current_time current_process 0 ps

/-- The statement `current->remaining_burst--`. -/
def decrement_burst (current : Nat) (ps : List Process) : List Process :=
  match ps[current]? with
  | none => ps
  | some p => ps.set current { p with remaining_burst := p.remaining_burst - 1 }

/-- The `printf` of a scheduling loop for the process `current`. -/
def print_event (current_time : Int) (current : Nat) (ps : List Process) : List Event :=
  match ps[current]? with
  | none => []
  | some p =>
    [{ tick := current_time, process_id := p.id, burst_left := p.remaining_burst,
       wait_time := p.wait_time, turnaround_time := p.turnaround_time }]

/-! ## The scheduling loops -/

/-- A `while (cond) body` loop with a fuel bound: `none` when the fuel runs out
before the condition fails. -/
def while_loop {σ : Type} (cond : σ → Bool) (body : σ → σ) : Nat → σ → Option σ
  | 0, _ => none
  | fuel + 1, s => if cond s then while_loop cond body fuel (body s) else some s

/-- The state of `fcfs` and of `sjf`: the table, the local `current_time` and the output. -/
structure SimState where
  processes : List Process
  current_time : Int
  output : List Event
  deriving DecidableEq

/-- The loop condition `!all_processes_complete()`. -/
def sim_running (s : SimState) : Bool := !all_processes_complete s.processes

/-- The part of a loop body shared by `fcfs` and `sjf`, given the selected pointer.
`current_time + 1` is the C `current_time++` as long as the clock is below `INT_MAX`. -/
def run_selected (s : SimState) (current : Option Nat) : SimState :=
  match current with
  | none => { s with current_time := s.current_time + 1 }
  | some c =>
    { processes := update_wait_times s.current_time (some c) (decrement_burst c s.processes),
      current_time := s.current_time + 1,
      output := s.output ++ print_event s.current_time c s.processes }

/-- The body of the `while` loop of `fcfs`. -/
def fcfs_body (s : SimState) : SimState :=
  run_selected s (get_next_arrived_process s.current_time s.processes)

/-- The body of the `while` loop of `sjf`. -/
def sjf_body (s : SimState) : SimState :=
  run_selected s (get_shortest_job s.current_time s.processes)

/-- The state in which `fcfs` and `sjf` enter their loop. -/
def sim_start (ps : List Process) : SimState :=
  { processes := ps, current_time := 0, output := [] }

/-- The function `fcfs`. -/
def fcfs (fuel : Nat) (ps : List Process) : Option SimState :=
  while_loop sim_running fcfs_body fuel (sim_start ps)

/-- The function `sjf`. -/
def sjf (fuel : Nat) (ps : List Process) : Option SimState :=
  while_loop sim_running sjf_body fuel (sim_start ps)

/-- The state of `round_robin`: the globals, the locals `current_time`, `current`
and `time_in_quantum`, and the output. -/
structure RRState where
  globals : Globals
  current_time : Int
  current : Option Nat
  time_in_quantum : Int
  output : List Event
  deriving DecidableEq

/-- The loop condition of `round_robin`. -/
def rr_running (s : RRState) : Bool := !all_processes_complete s.globals.processes

/-- The test `current->remaining_burst == 0` (false for `NULL`, where C does not get to it). -/
def current_finished (ps : List Process) (current : Option Nat) : Bool :=
  match current with
  | none => false
  | some c =>
    match ps[c]? with
    | none => false
    | some p => p.remaining_burst = 0

/-- The test `current != NULL && current->remaining_burst > 0`. -/
def current_unfinished (ps : List Process) (current : Option Nat) : Bool :=
  match current with
  | none => false
  | some c =>
    match ps[c]? with
    | none => false
    | some p => p.remaining_burst > 0

/-- The condition of the first `if` of the body of `round_robin`. -/
def rr_switch (quantum : Int) (s : RRState) : Bool :=
  s.current = none || s.time_in_quantum = quantum ||
    current_finished s.globals.processes s.current

/-- The call `check_arrivals(current_time)` in the body of `round_robin`. -/
def rr_arrive (s : RRState) : RRState :=
  { s with globals := check_arrivals s.current_time s.globals }

/-- The first `if` of the body of `round_robin`: put the current process back and
take the next one from the queue. -/
def rr_dispatch (quantum : Int) (s : RRState) : RRState :=
  if rr_switch quantum s then
    let g1 :=
      match s.current with
      | some c => if current_unfinished s.globals.processes s.current then enqueue c s.globals
                  else s.globals
      | none => s.globals
    let r := dequeue g1
    { s with globals := r.2, current := r.1, time_in_quantum := 0 }
  else s

/-- The second `if` of the body of `round_robin` and the increment of the clock.
`current_time + 1` is the C `current_time++` as long as the clock is below `INT_MAX`, and
`time_in_quantum + 1` never exceeds an admissible quantum, itself an `int`. -/
def rr_execute (s : RRState) : RRState :=
  match s.current with
  | none => { s with current_time := s.current_time + 1 }
  | some c =>
    let ps := update_wait_times s.current_time (some c) (decrement_burst c s.globals.processes)
    { globals := { processes := ps, ready_queue := s.globals.ready_queue },
      current_time := s.current_time + 1,
      current := if current_finished ps (some c) then none else some c,
      time_in_quantum := s.time_in_quantum + 1,
      output := s.output ++ print_event s.current_time c s.globals.processes }

/-- The body of the `while` loop of `round_robin`. -/
def rr_body (quantum : Int) (s : RRState) : RRState :=
  rr_execute (rr_dispatch quantum (rr_arrive s))

/-- The state in which `round_robin` enters its loop, after `init_queue()`. -/
def rr_start (g : Globals) : RRState :=
  { globals := { processes := g.processes, ready_queue := init_queue g.ready_queue },
    current_time := 0, current := none, time_in_quantum := 0, output := [] }

/-- The function `round_robin(int quantum)`. -/
def round_robin (quantum : Int) (fuel : Nat) (g : Globals) : Option RRState :=
  while_loop rr_running (rr_body quantum) fuel (rr_start g)

/-- The turnaround time that `print_final_stats` reports for a process: the `int` sum
`wait_time + burst_time`, which is the C value as long as it is at most `INT_MAX`
(`Algorithm.within_int` bounds it by the clock). -/
def reported_turnaround (p : Process) : Int := p.wait_time + p.burst_time

/-! ## Notions used to state the properties -/

/-- A process with every field zero, the value read outside the table. -/
def no_process : Process :=
  { id := 0, burst_time := 0, remaining_burst := 0, arrival_time := 0, wait_time := 0,
    turnaround_time := 0, completion_time := 0, in_queue := 0 }

/-- The process at index `i` of the table (`processes[i]`). -/
def proc (ps : List Process) (i : Nat) : Process := ps.getD i no_process

/-- Eligibility at tick `t`: arrived and not complete, the test that
`get_next_arrived_process`, `get_shortest_job` and `update_wait_times` all make. -/
def eligible (t : Int) (p : Process) : Prop :=
  p.arrival_time ≤ t ∧ p.remaining_burst > 0

instance eligible_decidable (t : Int) (p : Process) : Decidable (eligible t p) := by
  unfold eligible; infer_instance

/-- The statements `current->remaining_burst--; update_wait_times(current_time, current);`
that all three loops run on the selected process. -/
def execute_tick (t : Int) (c : Nat) (ps : List Process) : List Process :=
  update_wait_times t (some c) (decrement_burst c ps)

/-- What `execute_tick t c` does to the process at index `i`. -/
def tick_process (t : Int) (c i : Nat) (p : Process) : Process :=
  update_wait_times_at t (some c) i
    (if i = c then { p with remaining_burst := p.remaining_burst - 1 } else p)

/-- The table after a tick at which the pointer `sel` is selected. -/
def table_step (t : Int) (sel : Option Nat) (ps : List Process) : List Process :=
  match sel with
  | none => ps
  | some c => execute_tick t c ps

/-- A freshly loaded (or reset) process: nothing consumed, counters zero, not queued. -/
def fresh (p : Process) : Prop :=
  p.remaining_burst = p.burst_time ∧ p.wait_time = 0 ∧ p.turnaround_time = 0 ∧
    p.completion_time = 0 ∧ p.in_queue = 0

instance fresh_decidable (p : Process) : Decidable (fresh p) := by
  unfold fresh; infer_instance

/-- How one tick at time `t` changes the process at index `i`, when `sel` is the
pointer selected at that tick (`none` on an idle tick): the selected process has its
remaining burst decremented, and `update_wait_times`, run after the decrement and only
on a tick with a selection, charges every arrived process that still has burst left. -/
structure ProcStep (t : Int) (sel : Option Nat) (i : Nat) (p p' : Process) : Prop where
  id_eq : p'.id = p.id
  burst_eq : p'.burst_time = p.burst_time
  arrival_eq : p'.arrival_time = p.arrival_time
  completion_eq : p'.completion_time = p.completion_time
  remaining_eq : p'.remaining_burst =
    if sel = some i then p.remaining_burst - 1 else p.remaining_burst
  wait_eq : p'.wait_time =
    if sel ≠ none ∧ sel ≠ some i ∧ eligible t p then p.wait_time + 1 else p.wait_time
  turnaround_eq : p'.turnaround_time =
    if sel ≠ none ∧ p.arrival_time ≤ t ∧ p'.remaining_burst > 0 then p.turnaround_time + 1
    else p.turnaround_time

/-- One tick of a scheduling loop seen on the table: every process changes as in
`ProcStep`, the selected process is eligible, and a process is selected whenever
one is eligible. -/
structure StepOK (t : Int) (sel : Option Nat) (pre post : List Process) : Prop where
  length_eq : post.length = pre.length
  procs : ∀ i, i < pre.length → ProcStep t sel i (proc pre i) (proc post i)
  selected : ∀ c, sel = some c → c < pre.length ∧ eligible t (proc pre c)
  conserve : sel = none → ∀ i, i < pre.length → ¬ eligible t (proc pre i)

/-- The course of a simulation: the table at the start of tick `n` and the pointer
selected at tick `n`. -/
structure Course where
  table : Nat → List Process
  sel : Nat → Option Nat

/-- Every tick of the course is a tick of a scheduling loop. -/
def Course.Valid (r : Course) : Prop :=
  ∀ n : Nat, StepOK (n : Int) (r.sel n) (r.table n) (r.table (n + 1))

/-- Number of ticks before tick `n` at which the process at index `i` was executed. -/
def Course.executed (r : Course) (i n : Nat) : Nat :=
  (List.range n).countP (fun t => decide (r.sel t = some i))

/-- Number of ticks before tick `n` at which some process was executed. -/
def Course.busy (r : Course) (n : Nat) : Nat :=
  (List.range n).countP (fun t => (r.sel t).isSome)

/-- Number of ticks `t < n` with `a ≤ t` at which the process at index `i` was not the
executed process. -/
def Course.waited (r : Course) (i : Nat) (a : Int) (n : Nat) : Nat :=
  (List.range n).countP (fun (t : Nat) => decide (a ≤ (t : Int) ∧ r.sel t ≠ some i))

/-- Sum of the `burst_time` fields of a table. -/
def total_burst (ps : List Process) : Int := (ps.map (fun p => p.burst_time)).sum

/-- Sum of the `remaining_burst` fields of a table. -/
def total_remaining (ps : List Process) : Int := (ps.map (fun p => p.remaining_burst)).sum

/-- Largest `arrival_time` of a table, as a tick number (0 for the empty table). -/
def max_arrival (ps : List Process) : Nat :=
  (ps.map (fun p => p.arrival_time.toNat)).foldr max 0

/-- The three scheduling algorithms that `main` chooses from. -/
inductive Algorithm where
  | fcfs
  | sjf
  | round_robin (quantum : Int)
  deriving DecidableEq

/-- The state of `fcfs` at the start of tick `n`. -/
def fcfs_state (ps : List Process) (n : Nat) : SimState := fcfs_body^[n] (sim_start ps)

/-- The state of `sjf` at the start of tick `n`. -/
def sjf_state (ps : List Process) (n : Nat) : SimState := sjf_body^[n] (sim_start ps)

/-- The state of `round_robin` at the start of tick `n`. -/
def rr_state (quantum : Int) (g : Globals) (n : Nat) : RRState :=
  (rr_body quantum)^[n] (rr_start g)

/-- The pointer that `fcfs` selects at tick `n`. -/
def fcfs_selected (ps : List Process) (n : Nat) : Option Nat :=
  get_next_arrived_process (fcfs_state ps n).current_time (fcfs_state ps n).processes

/-- The pointer that `sjf` selects at tick `n`. -/
def sjf_selected (ps : List Process) (n : Nat) : Option Nat :=
  get_shortest_job (sjf_state ps n).current_time (sjf_state ps n).processes

/-- The value of `current` that `round_robin` executes at tick `n`. -/
def rr_selected (quantum : Int) (g : Globals) (n : Nat) : Option Nat :=
  (rr_dispatch quantum (rr_arrive (rr_state quantum g n))).current

/-- The table, clock and output of a state of `round_robin`. -/
def RRState.toSim (s : RRState) : SimState :=
  { processes := s.globals.processes, current_time := s.current_time, output := s.output }

/-- The course of an algorithm started on the globals `g`. -/
def Algorithm.course (a : Algorithm) (g : Globals) : Course :=
  match a with
  | .fcfs =>
    { table := fun n => (fcfs_state g.processes n).processes, sel := fcfs_selected g.processes }
  | .sjf =>
    { table := fun n => (sjf_state g.processes n).processes, sel := sjf_selected g.processes }
  | .round_robin quantum =>
    { table := fun n => (rr_state quantum g n).globals.processes, sel := rr_selected quantum g }

/-- The run of an algorithm on the globals `g`: the table, clock and output with which
its loop ends, or `none` when the fuel does not suffice. -/
def Algorithm.run (a : Algorithm) (fuel : Nat) (g : Globals) : Option SimState :=
  match a with
  | .fcfs => CpuScheduler.fcfs fuel g.processes
  | .sjf => CpuScheduler.sjf fuel g.processes
  | .round_robin quantum => (CpuScheduler.round_robin quantum fuel g).map RRState.toSim

/-- The state of an algorithm at the start of tick `n` (table, clock and output). -/
def Algorithm.state (a : Algorithm) (g : Globals) (n : Nat) : SimState :=
  match a with
  | .fcfs => fcfs_state g.processes n
  | .sjf => sjf_state g.processes n
  | .round_robin quantum => (rr_state quantum g n).toSim

/-- The live region of the circular queue, read from `front`: `size` entries of `items`,
the indices taken modulo `MAX_PROCESSES`. -/
def queue_contents (q : Queue) : List (Option Nat) :=
  (List.range q.size.toNat).map
    (fun k => q.items.getD ((q.front.toNat + k) % MAX_PROCESSES.toNat) none)

/-- The circular queue `q` holds the FIFO list `L` of process pointers, head first:
the indices are in range, `rear` is the slot before `front + size` (modulo
`MAX_PROCESSES`), and the live region reads `L`. -/
structure Represents (q : Queue) (L : List Nat) : Prop where
  items_length : q.items.length = MAX_PROCESSES.toNat
  front_lo : 0 ≤ q.front
  front_hi : q.front < MAX_PROCESSES
  rear_lo : -1 ≤ q.rear
  rear_hi : q.rear < MAX_PROCESSES
  size_eq : q.size = (L.length : Int)
  size_le : L.length ≤ MAX_PROCESSES.toNat
  rear_eq : (q.rear + 1) % MAX_PROCESSES = (q.front + q.size) % MAX_PROCESSES
  contents : queue_contents q = L.map some

/-- A process with its `in_queue` flag cleared: all the fields that the timing of a
run depends on. -/
def unqueued (p : Process) : Process := { p with in_queue := 0 }

/-- The two tables agree on every field other than `in_queue`. -/
def SameTiming (ps ps' : List Process) : Prop :=
  ps'.length = ps.length ∧ ∀ i, unqueued (proc ps' i) = unqueued (proc ps i)

/-- The ready queue of `round_robin` holds the list `L` of distinct processes of the
table, exactly those whose `in_queue` flag is set, each with burst left and arrived
before time `b`. -/
structure QueueInv (g : Globals) (L : List Nat) (b : Int) : Prop where
  repr : Represents g.ready_queue L
  table_le : g.processes.length ≤ MAX_PROCESSES.toNat
  nodup : L.Nodup
  mem_lt : ∀ i, i ∈ L → i < g.processes.length
  flag : ∀ i, i < g.processes.length → ((proc g.processes i).in_queue ≠ 0 ↔ i ∈ L)
  queued : ∀ i, i ∈ L →
    0 < (proc g.processes i).remaining_burst ∧ (proc g.processes i).arrival_time < b

/-- The current process of `round_robin` is in the table and not in the queue, has
burst left and arrived before time `b`. -/
def CurInv (g : Globals) (current : Option Nat) (L : List Nat) (b : Int) : Prop :=
  ∀ c, current = some c →
    c < g.processes.length ∧ c ∉ L ∧ 0 < (proc g.processes c).remaining_burst ∧
      (proc g.processes c).arrival_time < b

/-- Every process with burst left that arrived before time `b`, or at time `b` with
index below `k`, is in the queue or is the current process. -/
def Ready (g : Globals) (current : Option Nat) (L : List Nat) (b : Int) (k : Nat) : Prop :=
  ∀ i, i < g.processes.length → 0 < (proc g.processes i).remaining_burst →
    ((proc g.processes i).arrival_time < b ∨
      ((proc g.processes i).arrival_time = b ∧ i < k)) →
    i ∈ L ∨ current = some i

/-- The invariant of the loop of `round_robin`, at the head of the loop, for the
queue contents `L`. -/
structure RRHead (quantum : Int) (s : RRState) (L : List Nat) : Prop where
  time_nonneg : 0 ≤ s.current_time
  queue : QueueInv s.globals L s.current_time
  cur : CurInv s.globals s.current L s.current_time
  ready : Ready s.globals s.current L s.current_time 0
  quantum_lo : 0 ≤ s.time_in_quantum
  quantum_hi : s.time_in_quantum ≤ quantum

/-- The invariant of the loop of `round_robin` after `check_arrivals`, at tick
`s.current_time`: the arrivals of this tick are queued. -/
structure RRArrived (quantum : Int) (s : RRState) (L : List Nat) : Prop where
  time_nonneg : 0 ≤ s.current_time
  queue : QueueInv s.globals L (s.current_time + 1)
  cur : CurInv s.globals s.current L s.current_time
  ready : Ready s.globals s.current L (s.current_time + 1) 0
  quantum_lo : 0 ≤ s.time_in_quantum
  quantum_hi : s.time_in_quantum ≤ quantum

/-- The invariant of the loop of `round_robin` after the first `if` of the body: the
current process, if any, is about to be executed, within its quantum; there is a
current process unless the queue is empty. -/
structure RRDispatched (quantum : Int) (s : RRState) (L : List Nat) : Prop where
  time_nonneg : 0 ≤ s.current_time
  queue : QueueInv s.globals L (s.current_time + 1)
  cur : CurInv s.globals s.current L (s.current_time + 1)
  ready : Ready s.globals s.current L (s.current_time + 1) 0
  idle : s.current = none → L = []
  quantum_lo : 0 ≤ s.time_in_quantum
  quantum_hi : s.time_in_quantum < quantum

/-- The globals as the C program has them when a scheduling function is called: the
`items` array has `MAX_PROCESSES` slots and the table has at most `MAX_PROCESSES`
processes. -/
structure WellFormed (g : Globals) : Prop where
  items_length : g.ready_queue.items.length = MAX_PROCESSES.toNat
  table_le : g.processes.length ≤ MAX_PROCESSES.toNat

/-- The quantum that `main` accepts for `round_robin` (`quantum <= 0` is rejected);
no condition for `fcfs` and `sjf`. -/
def Algorithm.admissible (a : Algorithm) : Prop :=
  match a with
  | .fcfs => True
  | .sjf => True
  | .round_robin quantum => 1 ≤ quantum

/-- A process as `read_input_file` leaves it, for the given id, arrival time and burst
time (the counters of the zero-initialised global are 0). -/
def loaded_process (id arrival burst : Int) : Process :=
  { id := id, burst_time := burst, remaining_burst := burst, arrival_time := arrival,
    wait_time := 0, turnaround_time := 0, completion_time := 0, in_queue := 0 }

/-- The zero-initialised global `ready_queue`. -/
def zero_queue : Queue :=
  { items := List.replicate MAX_PROCESSES.toNat none, front := 0, rear := 0, size := 0 }

/-- The globals after loading the table `ps`. -/
def loaded (ps : List Process) : Globals := { processes := ps, ready_queue := zero_queue }

/-- The globals after loading the table `ps` and calling `init_queue()`. -/
def loaded_with_queue (ps : List Process) : Globals :=
  { processes := ps, ready_queue := init_queue zero_queue }

/-- The `(tick, process id)` pairs of the output lines of a run. -/
def schedule_of (s : Option SimState) : Option (List (Int × Int)) :=
  s.map (fun st => st.output.map (fun e => (e.tick, e.process_id)))

/-- The start tick that the specification gives for process `i` under FCFS:
`start_0 = arrival_time_0` and
`start_i = max(arrival_time_i, start_{i-1} + burst_time_{i-1})`. -/
def fcfs_start (ps : List Process) : Nat → Int
  | 0 => (proc ps 0).arrival_time
  | i + 1 => max (proc ps (i + 1)).arrival_time (fcfs_start ps i + (proc ps i).burst_time)

/-- One tick of a scheduling loop seen on the table, without the requirement that a
process is selected whenever one is eligible: every process changes as in `ProcStep`,
the selected process is eligible, and a process without burst left is not touched. -/
structure StepSound (t : Int) (sel : Option Nat) (pre post : List Process) : Prop where
  length_eq : post.length = pre.length
  procs : ∀ i, i < pre.length → ProcStep t sel i (proc pre i) (proc post i)
  selected : ∀ c, sel = some c → c < pre.length ∧ eligible t (proc pre c)
  untouched : ∀ i, i < pre.length → (proc pre i).remaining_burst ≤ 0 →
    proc post i = proc pre i

/-- Every tick of the course changes the table as a tick of a scheduling loop does. -/
def Course.Sound (r : Course) : Prop :=
  ∀ n : Nat, StepSound (n : Int) (r.sel n) (r.table n) (r.table (n + 1))

/-- The table `ps'` differs from `ps` only in `in_queue` flags, and only in those of
processes with burst left. -/
def FlagsOnly (ps ps' : List Process) : Prop :=
  ps'.length = ps.length ∧
    ∀ i, unqueued (proc ps' i) = unqueued (proc ps i) ∧
      ((proc ps i).remaining_burst ≤ 0 → proc ps' i = proc ps i)

/-- The part of the loop invariant of `round_robin` that needs no assumption on the
quantum or on the arrival times, at the head of the loop. -/
structure RRCore (s : RRState) (L : List Nat) : Prop where
  queue : QueueInv s.globals L s.current_time
  cur : CurInv s.globals s.current L s.current_time

/-- The globals after the statement `if (current != NULL && current->remaining_burst > 0)
enqueue(current);` of the body of `round_robin`. -/
def rr_requeue (s : RRState) : Globals :=
  match s.current with
  | some c => if current_unfinished s.globals.processes s.current then enqueue c s.globals
              else s.globals
  | none => s.globals

/-- The state of the ready queue that the `in_queue` flag is meant to keep: the live region
holds pointers into the table, each at most once, and exactly those of the processes whose
flag is set; so the size is at most `num_processes`, which is at most `MAX_PROCESSES`, and
an `enqueue` that passes its guard writes behind the live region, leaving its entries as
they are. -/
structure QueueExact (g : Globals) : Prop where
  nodup : (queue_contents g.ready_queue).Nodup
  pointers : ∀ x, x ∈ queue_contents g.ready_queue → ∃ i, i < g.processes.length ∧ x = some i
  flag : ∀ i, i < g.processes.length →
    ((proc g.processes i).in_queue ≠ 0 ↔ some i ∈ queue_contents g.ready_queue)
  size_count : g.ready_queue.size = ((queue_contents g.ready_queue).length : Int)
  size_le : g.ready_queue.size ≤ (g.processes.length : Int)
  table_le : (g.processes.length : Int) ≤ MAX_PROCESSES
  no_overwrite : ∀ i, i < g.processes.length → (proc g.processes i).in_queue = 0 →
    0 < (proc g.processes i).remaining_burst →
    queue_contents (enqueue i g).ready_queue = queue_contents g.ready_queue ++ [some i]

/-- The line that a scheduling loop prints at tick `t` for the process `p`, with the
values that `p` has when the `printf` runs. -/
def tick_event (t : Int) (p : Process) : Event :=
  { tick := t, process_id := p.id, burst_left := p.remaining_burst,
    wait_time := p.wait_time, turnaround_time := p.turnaround_time }

/-- The lines printed at a tick at which the pointer `sel` is selected, for the table
`ps` at the start of the tick. -/
def tick_output (t : Int) (sel : Option Nat) (ps : List Process) : List Event :=
  match sel with
  | none => []
  | some c => [tick_event t (proc ps c)]

/-- An operation on the ready queue: `enqueue(&processes[i])` or `dequeue()`. -/
inductive QueueOp where
  | enqueue (process : Nat)
  | dequeue
  deriving DecidableEq

/-- The operation passes a pointer into a table of `n` processes. -/
def QueueOp.inTable (n : Nat) : QueueOp → Prop
  | .enqueue i => i < n
  | .dequeue => True

instance QueueOp.inTable_decidable (n : Nat) (op : QueueOp) : Decidable (op.inTable n) := by
  cases op <;> unfold QueueOp.inTable <;> infer_instance

/-- A sequence of queue operations in progress: the globals, the processes inserted by
the successful calls of `enqueue` so far (those that made the queue grow), and the
processes returned by the successful calls of `dequeue` so far (those that did not
return `NULL`), both in the order of the calls. -/
structure QueueRun where
  globals : Globals
  enqueued : List Nat
  dequeued : List Nat
  deriving DecidableEq

/-- One queue operation on the C queue. -/
def QueueRun.step (r : QueueRun) : QueueOp → QueueRun
  | .enqueue i =>
    { globals := enqueue i r.globals,
      enqueued :=
        if (enqueue i r.globals).ready_queue.size = r.globals.ready_queue.size + 1 then
          r.enqueued ++ [i]
        else r.enqueued,
      dequeued := r.dequeued }
  | .dequeue =>
    { globals := (dequeue r.globals).2,
      enqueued := r.enqueued,
      dequeued := r.dequeued ++ (dequeue r.globals).1.toList }

/-- The sequence `ops` of queue operations on the C queue, after `init_queue()`. -/
def run_queue_ops (g : Globals) (ops : List QueueOp) : QueueRun :=
  ops.foldl QueueRun.step
    { globals := { processes := g.processes, ready_queue := init_queue g.ready_queue },
      enqueued := [], dequeued := [] }

/-- The ready queue as the specification describes it: an ordered FIFO sequence of
process references, next to the table that owns the processes, with the log of the
processes appended and of the processes removed. -/
structure Fifo where
  processes : List Process
  queue : List Nat
  enqueued : List Nat
  dequeued : List Nat
  deriving DecidableEq

/-- The specification's `enqueue(p)`: appends `p` to the tail iff `p.in_queue == false`
and `p.remaining_burst > 0`, and sets `in_queue = true`; a no-op otherwise. -/
def Fifo.enqueue (f : Fifo) (i : Nat) : Fifo :=
  match f.processes[i]? with
  | none => f
  | some p =>
    if p.in_queue = 0 ∧ p.remaining_burst > 0 then
      { processes := f.processes.set i { p with in_queue := 1 },
        queue := f.queue ++ [i],
        enqueued := f.enqueued ++ [i],
        dequeued := f.dequeued }
    else f

/-- The specification's `dequeue()`: removes and returns the head and clears its
`in_queue`; returns nothing if the queue has no elements. -/
def Fifo.dequeue (f : Fifo) : Fifo :=
  match f.queue with
  | [] => f
  | x :: rest =>
    { processes :=
        (match f.processes[x]? with
         | none => f.processes
         | some p => f.processes.set x { p with in_queue := 0 }),
      queue := rest,
      enqueued := f.enqueued,
      dequeued := f.dequeued ++ [x] }

/-- One queue operation on the specification's FIFO. -/
def Fifo.step (f : Fifo) : QueueOp → Fifo
  | .enqueue i => f.enqueue i
  | .dequeue => f.dequeue

/-- The sequence `ops` of queue operations on the specification's FIFO, from the empty
queue. -/
def run_fifo_ops (ps : List Process) (ops : List QueueOp) : Fifo :=
  ops.foldl Fifo.step { processes := ps, queue := [], enqueued := [], dequeued := [] }

/-- The circular queue of `g` holds the list `L` of distinct processes of the table, all
of them flagged as queued. -/
structure QueueSound (g : Globals) (L : List Nat) : Prop where
  repr : Represents g.ready_queue L
  table_le : g.processes.length ≤ MAX_PROCESSES.toNat
  nodup : L.Nodup
  mem_lt : ∀ i, i ∈ L → i < g.processes.length
  flagged : ∀ i, i ∈ L → (proc g.processes i).in_queue ≠ 0

/-- The C queue run `r` and the FIFO `f` are in the same state: same table, same logs,
and the circular queue holds the FIFO's list. -/
structure Refines (r : QueueRun) (f : Fifo) : Prop where
  processes_eq : r.globals.processes = f.processes
  sound : QueueSound r.globals f.queue
  enqueued_eq : r.enqueued = f.enqueued
  dequeued_eq : r.dequeued = f.dequeued
  fifo : f.enqueued = f.dequeued ++ f.queue

/-- A sequence of 101 `enqueue`/`dequeue` pairs on the process at index 0: more enqueues
than `MAX_PROCESSES`, so that `front` and `rear` wrap around. -/
def wrap_around_ops : List QueueOp :=
  (List.replicate 101 [QueueOp.enqueue 0, QueueOp.dequeue]).flatten

/-- The globals that an algorithm leaves behind: the table and the ready queue with which
its loop ends (`fcfs` and `sjf` do not touch the ready queue), or `none` when the fuel
does not suffice. -/
def Algorithm.run_globals (a : Algorithm) (fuel : Nat) (g : Globals) : Option Globals :=
  match a with
  | .fcfs =>
    (CpuScheduler.fcfs fuel g.processes).map
      (fun s => { processes := s.processes, ready_queue := g.ready_queue })
  | .sjf =>
    (CpuScheduler.sjf fuel g.processes).map
      (fun s => { processes := s.processes, ready_queue := g.ready_queue })
  | .round_robin quantum => (CpuScheduler.round_robin quantum fuel g).map (fun s => s.globals)

/-- The call `reset_processes()` on the globals. -/
def reset_globals (g : Globals) : Globals :=
  { processes := reset_processes g.processes, ready_queue := g.ready_queue }

/-- The two globals have the same table, and their ready queues hold the same list. -/
def SameQueue (g1 g2 : Globals) : Prop :=
  g1.processes = g2.processes ∧ ∃ L, QueueSound g1 L ∧ QueueSound g2 L

/-- The two states of `round_robin` agree on everything but the slots of the `items`
array outside the live region of the ready queue. -/
structure RRTwin (s1 s2 : RRState) : Prop where
  queue : SameQueue s1.globals s2.globals
  time_eq : s1.current_time = s2.current_time
  current_eq : s1.current = s2.current
  quantum_eq : s1.time_in_quantum = s2.time_in_quantum
  output_eq : s1.output = s2.output

/-- Largest value of a C `int` (`INT_MAX`, with `int` of 32 bits). -/
def INT_MAX : Int := 2147483647

/-- The run of `a` on `g` up to tick `T` stays within `int`: `T` is at most `INT_MAX`,
and at every tick `n ≤ T` the clock is `n`, the remaining burst of every process lies
between 0 and its burst time, which is at most `INT_MAX`, its `wait_time` and
`turnaround_time` lie between 0 and `n`, and once it is complete the sum
`wait_time + burst_time` of `print_final_stats` lies between 0 and `n`. -/
def Algorithm.within_int (a : Algorithm) (g : Globals) (T : Nat) : Prop :=
  (T : Int) ≤ INT_MAX ∧
  ∀ n, n ≤ T → (a.state g n).current_time = (n : Int) ∧
    ∀ i, i < g.processes.length →
      0 ≤ (proc (a.state g n).processes i).remaining_burst ∧
      (proc (a.state g n).processes i).remaining_burst ≤
        (proc (a.state g n).processes i).burst_time ∧
      (proc (a.state g n).processes i).burst_time ≤ INT_MAX ∧
      0 ≤ (proc (a.state g n).processes i).wait_time ∧
      (proc (a.state g n).processes i).wait_time ≤ (n : Int) ∧
      0 ≤ (proc (a.state g n).processes i).turnaround_time ∧
      (proc (a.state g n).processes i).turnaround_time ≤ (n : Int) ∧
      ((proc (a.state g n).processes i).remaining_burst = 0 →
        0 ≤ reported_turnaround (proc (a.state g n).processes i) ∧
        reported_turnaround (proc (a.state g n).processes i) ≤ (n : Int))

/-! ## Theorems -/

section basic

theorem proc_of_getElem? {ps : List Process} {i : Nat} {p : Process}
    (h : ps[i]? = some p) : proc ps i = p := by
  simp [proc, List.getD_eq_getElem?_getD, h]

theorem getElem?_eq_proc {ps : List Process} {i : Nat} (h : i < ps.length) :
    ps[i]? = some (proc ps i) := by
  simp [proc, List.getD_eq_getElem?_getD, List.getElem?_eq_getElem h]

theorem update_wait_times_from_length (t : Int) (cur : Option Nat) (k : Nat)
    (ps : List Process) : (update_wait_times_from t cur k ps).length = ps.length := by
  induction ps generalizing k with
  | nil => rfl
  | cons p ps ih => simp [update_wait_times_from, ih]

theorem update_wait_times_from_getElem? (t : Int) (cur : Option Nat) (k : Nat)
    (ps : List Process) (i : Nat) :
    (update_wait_times_from t cur k ps)[i]? =
      ps[i]?.map (update_wait_times_at t cur (k + i)) := by
  induction ps generalizing k i with
  | nil => simp [update_wait_times_from]
  | cons p ps ih =>
    cases i with
    | zero => simp [update_wait_times_from]
    | succ i =>
      have e : k + 1 + i = k + (i + 1) := by omega
      simp only [update_wait_times_from, List.getElem?_cons_succ, ih, e]

theorem decrement_burst_length (c : Nat) (ps : List Process) :
    (decrement_burst c ps).length = ps.length := by
  unfold decrement_burst
  split <;> simp

theorem decrement_burst_getElem? (c : Nat) (ps : List Process) (i : Nat) :
    (decrement_burst c ps)[i]? =
      ps[i]?.map (fun p =>
        if i = c then { p with remaining_burst := p.remaining_burst - 1 } else p) := by
  unfold decrement_burst
  split
  · next h =>
    by_cases hic : i = c
    · subst hic; simp [h]
    · have hci : c ≠ i := fun e => hic e.symm
      simp [hic, List.getElem?_set_ne hci]
  · next p h =>
    have hlt : c < ps.length := by
      rcases List.getElem?_eq_some.mp h with ⟨hlt, _⟩; exact hlt
    by_cases hic : i = c
    · subst hic; simp [h, List.getElem?_set, hlt]
    · have hci : c ≠ i := fun e => hic e.symm
      simp [hic, List.getElem?_set_ne hci]

theorem execute_tick_length (t : Int) (c : Nat) (ps : List Process) :
    (execute_tick t c ps).length = ps.length := by
  simp [execute_tick, update_wait_times, update_wait_times_from_length,
    decrement_burst_length]

theorem execute_tick_getElem? (t : Int) (c : Nat) (ps : List Process) (i : Nat) :
    (execute_tick t c ps)[i]? = ps[i]?.map (tick_process t c i) := by
  simp only [execute_tick, update_wait_times, update_wait_times_from_getElem?,
    decrement_burst_getElem?, Option.map_map, Nat.zero_add]
  rfl

theorem proc_execute_tick (t : Int) (c : Nat) (ps : List Process) (i : Nat)
    (h : i < ps.length) : proc (execute_tick t c ps) i = tick_process t c i (proc ps i) := by
  apply proc_of_getElem?
  rw [execute_tick_getElem?, getElem?_eq_proc h]; rfl

end basic

section course

variable {r : Course}

theorem Course.length_eq (hv : r.Valid) (n : Nat) :
    (r.table n).length = (r.table 0).length := by
  induction n with
  | zero => rfl
  | succ n ih => rw [(hv n).length_eq, ih]

theorem Course.step (hv : r.Valid) (n : Nat) {i : Nat} (hi : i < (r.table 0).length) :
    ProcStep (n : Int) (r.sel n) i (proc (r.table n) i) (proc (r.table (n + 1)) i) :=
  (hv n).procs i (by rw [Course.length_eq hv n]; exact hi)

theorem Course.static (hv : r.Valid) (n : Nat) {i : Nat} (hi : i < (r.table 0).length) :
    (proc (r.table n) i).id = (proc (r.table 0) i).id ∧
    (proc (r.table n) i).burst_time = (proc (r.table 0) i).burst_time ∧
    (proc (r.table n) i).arrival_time = (proc (r.table 0) i).arrival_time ∧
    (proc (r.table n) i).completion_time = (proc (r.table 0) i).completion_time := by
  induction n with
  | zero => exact ⟨rfl, rfl, rfl, rfl⟩
  | succ n ih =>
    have h := Course.step hv n hi
    exact ⟨h.id_eq.trans ih.1, h.burst_eq.trans ih.2.1, h.arrival_eq.trans ih.2.2.1,
      h.completion_eq.trans ih.2.2.2⟩

theorem Course.sel_lt (hv : r.Valid) {n c : Nat} (h : r.sel n = some c) :
    c < (r.table 0).length := by
  rw [← Course.length_eq hv n]; exact ((hv n).selected c h).1

theorem Course.sel_eligible (hv : r.Valid) {n c : Nat} (h : r.sel n = some c) :
    eligible (n : Int) (proc (r.table n) c) := ((hv n).selected c h).2

/-- The remaining burst never increases from one tick to the next. -/
theorem Course.remaining_succ_le (hv : r.Valid) (n : Nat) {i : Nat}
    (hi : i < (r.table 0).length) :
    (proc (r.table (n + 1)) i).remaining_burst ≤ (proc (r.table n) i).remaining_burst := by
  have h := (Course.step hv n hi).remaining_eq
  split at h <;> omega

theorem Course.remaining_antitone (hv : r.Valid) {n m : Nat} (hnm : n ≤ m) {i : Nat}
    (hi : i < (r.table 0).length) :
    (proc (r.table m) i).remaining_burst ≤ (proc (r.table n) i).remaining_burst := by
  induction m, hnm using Nat.le_induction with
  | base => exact le_refl _
  | succ m _ ih => exact le_trans (Course.remaining_succ_le hv m hi) ih

/-- A process whose remaining burst is not positive is left alone by a tick. -/
theorem Course.frozen_succ (hv : r.Valid) (n : Nat) {i : Nat}
    (hi : i < (r.table 0).length) (h0 : (proc (r.table n) i).remaining_burst ≤ 0) :
    (proc (r.table (n + 1)) i).remaining_burst = (proc (r.table n) i).remaining_burst ∧
    (proc (r.table (n + 1)) i).wait_time = (proc (r.table n) i).wait_time ∧
    (proc (r.table (n + 1)) i).turnaround_time = (proc (r.table n) i).turnaround_time := by
  have h := Course.step hv n hi
  have hns : r.sel n ≠ some i := by
    intro hs
    have := (Course.sel_eligible hv hs).2
    omega
  have hr : (proc (r.table (n + 1)) i).remaining_burst =
      (proc (r.table n) i).remaining_burst := by
    rw [h.remaining_eq, if_neg hns]
  refine ⟨hr, ?_, ?_⟩
  · rw [h.wait_eq, if_neg]
    rintro ⟨_, _, he⟩
    have := he.2
    omega
  · rw [h.turnaround_eq, if_neg]
    rintro ⟨_, _, he⟩
    omega

theorem Course.frozen (hv : r.Valid) {n m : Nat} (hnm : n ≤ m) {i : Nat}
    (hi : i < (r.table 0).length) (h0 : (proc (r.table n) i).remaining_burst ≤ 0) :
    (proc (r.table m) i).remaining_burst = (proc (r.table n) i).remaining_burst ∧
    (proc (r.table m) i).wait_time = (proc (r.table n) i).wait_time ∧
    (proc (r.table m) i).turnaround_time = (proc (r.table n) i).turnaround_time := by
  induction m, hnm using Nat.le_induction with
  | base => exact ⟨rfl, rfl, rfl⟩
  | succ m _ ih =>
    have h := Course.frozen_succ hv m hi (by rw [ih.1]; exact h0)
    exact ⟨h.1.trans ih.1, h.2.1.trans ih.2.1, h.2.2.trans ih.2.2⟩

/-- The remaining burst stays non-negative when it starts non-negative. -/
theorem Course.remaining_nonneg (hv : r.Valid) (n : Nat) {i : Nat}
    (hi : i < (r.table 0).length) (h0 : 0 ≤ (proc (r.table 0) i).remaining_burst) :
    0 ≤ (proc (r.table n) i).remaining_burst := by
  induction n with
  | zero => exact h0
  | succ n ih =>
    have h := (Course.step hv n hi).remaining_eq
    split at h
    · next hs =>
      have := (Course.sel_eligible hv hs).2
      omega
    · omega

/-- Executed ticks and remaining burst add up to the initial remaining burst. -/
theorem Course.executed_eq (hv : r.Valid) (n : Nat) {i : Nat}
    (hi : i < (r.table 0).length) :
    (r.executed i n : Int) =
      (proc (r.table 0) i).remaining_burst - (proc (r.table n) i).remaining_burst := by
  induction n with
  | zero => simp [Course.executed]
  | succ n ih =>
    have h := (Course.step hv n hi).remaining_eq
    have e : r.executed i (n + 1) = r.executed i n + if r.sel n = some i then 1 else 0 := by
      simp [Course.executed, List.range_succ, List.countP_append, List.countP_cons]
    rw [e]
    split at h <;> rename_i hs <;> simp [hs] <;> omega

end course

section course_timing

variable {r : Course}

/-- While a process has burst left, its wait time is the time since its arrival minus
the ticks on which it was executed. -/
theorem Course.wait_running (hv : r.Valid) (n : Nat) {i : Nat}
    (hi : i < (r.table 0).length) (hf : fresh (proc (r.table 0) i))
    (ha : 0 ≤ (proc (r.table 0) i).arrival_time)
    (hr : 0 < (proc (r.table n) i).remaining_burst) :
    (proc (r.table n) i).wait_time =
      max 0 ((n : Int) - (proc (r.table 0) i).arrival_time) -
        ((proc (r.table 0) i).burst_time - (proc (r.table n) i).remaining_burst) := by
  induction n with
  | zero =>
    rcases hf with ⟨h1, h2, _⟩
    rw [h2, h1]
    simp only [Nat.cast_zero, zero_sub, sub_self, sub_zero]
    omega
  | succ n ih =>
    have hs := Course.step hv n hi
    have hst := Course.static hv n hi
    have hle := Course.remaining_succ_le hv n hi
    have ih := ih (by omega)
    have hw := hs.wait_eq
    have hrem := hs.remaining_eq
    rw [hw]
    by_cases hsel : r.sel n = some i
    · rw [if_pos hsel] at hrem
      have hel := Course.sel_eligible hv hsel
      have ha := hel.1
      rw [hst.2.2.1] at ha
      rw [if_neg (by rintro ⟨_, h, _⟩; exact h hsel), ih, hrem]
      push_cast
      omega
    · rw [if_neg hsel] at hrem
      by_cases hel : eligible (n : Int) (proc (r.table n) i)
      · have hne : r.sel n ≠ none := fun h0 =>
          (hv n).conserve h0 i (by rw [Course.length_eq hv n]; exact hi) hel
        have ha := hel.1
        rw [hst.2.2.1] at ha
        rw [if_pos ⟨hne, hsel, hel⟩, ih, hrem]
        push_cast
        omega
      · rw [if_neg (by rintro ⟨_, _, h⟩; exact hel h), ih, hrem]
        have : ¬ (proc (r.table n) i).arrival_time ≤ (n : Int) := by
          intro h; exact hel ⟨h, by omega⟩
        rw [hst.2.2.1] at this
        push_cast
        omega

/-- The tick-accumulated turnaround time: executed ticks are counted except the
completing one. -/
theorem Course.turnaround_relation (hv : r.Valid) (n : Nat) {i : Nat}
    (hi : i < (r.table 0).length) (hf : fresh (proc (r.table 0) i))
    (hb : 1 ≤ (proc (r.table 0) i).burst_time) :
    (0 < (proc (r.table n) i).remaining_burst →
      (proc (r.table n) i).turnaround_time = (proc (r.table n) i).wait_time +
        ((proc (r.table 0) i).burst_time - (proc (r.table n) i).remaining_burst)) ∧
    ((proc (r.table n) i).remaining_burst = 0 →
      (proc (r.table n) i).turnaround_time =
        (proc (r.table n) i).wait_time + (proc (r.table 0) i).burst_time - 1) := by
  induction n with
  | zero =>
    rcases hf with ⟨h1, h2, h3, _⟩
    constructor
    · intro _; rw [h3, h2, h1]; simp
    · intro h; omega
  | succ n ih =>
    have hs := Course.step hv n hi
    have hw := hs.wait_eq
    have hrem := hs.remaining_eq
    have ht := hs.turnaround_eq
    have hnn := Course.remaining_nonneg hv n hi (by rw [hf.1]; omega)
    have hst := Course.static hv n hi
    have hr0 : (proc (r.table n) i).remaining_burst = 0 ∨
        0 < (proc (r.table n) i).remaining_burst := by omega
    rcases hr0 with h0 | hpos
    · have hfz := Course.frozen_succ hv n hi (by omega)
      have := ih.2 h0
      constructor
      · intro h; omega
      · intro _; rw [hfz.2.2, hfz.2.1]; exact this
    · have ih1 := ih.1 hpos
      by_cases hsel : r.sel n = some i
      · rw [if_pos hsel] at hrem
        have hel := Course.sel_eligible hv hsel
        have hne : r.sel n ≠ none := by rw [hsel]; simp
        rw [if_neg (by rintro ⟨_, h, _⟩; exact h hsel)] at hw
        constructor
        · intro h
          rw [if_pos ⟨hne, hel.1, h⟩] at ht
          omega
        · intro h
          rw [if_neg (by rintro ⟨_, _, h'⟩; omega)] at ht
          omega
      · rw [if_neg hsel] at hrem
        by_cases hel : eligible (n : Int) (proc (r.table n) i)
        · have hne : r.sel n ≠ none := fun h0 =>
            (hv n).conserve h0 i (by rw [Course.length_eq hv n]; exact hi) hel
          rw [if_pos ⟨hne, hsel, hel⟩] at hw
          rw [if_pos ⟨hne, hel.1, by omega⟩] at ht
          constructor
          · intro _; omega
          · intro h; omega
        · rw [if_neg (by rintro ⟨_, _, h⟩; exact hel h)] at hw
          rw [if_neg (by rintro ⟨_, h1, h2⟩; exact hel ⟨h1, by omega⟩)] at ht
          constructor
          · intro _; omega
          · intro h; omega

end course_timing

section course_counting

variable {r : Course}

/-- Ticks since arrival split into executed ticks and ticks spent waiting. -/
theorem Course.waiting_count (hv : r.Valid) (n : Nat) {i : Nat}
    (hi : i < (r.table 0).length) :
    (r.waited i (proc (r.table 0) i).arrival_time n : Int) + (r.executed i n : Int) =
      max 0 ((n : Int) - max 0 (proc (r.table 0) i).arrival_time) := by
  induction n with
  | zero => simp [Course.executed, Course.waited]
  | succ n ih =>
    have e : r.executed i (n + 1) = r.executed i n + if r.sel n = some i then 1 else 0 := by
      simp [Course.executed, List.range_succ, List.countP_append, List.countP_cons]
    have e2 : r.waited i (proc (r.table 0) i).arrival_time (n + 1) =
        r.waited i (proc (r.table 0) i).arrival_time n +
          if (proc (r.table 0) i).arrival_time ≤ (n : Int) ∧ r.sel n ≠ some i then 1 else 0 := by
      simp [Course.waited, List.range_succ, List.countP_append, List.countP_cons]
    rw [e, e2]
    by_cases hsel : r.sel n = some i
    · have hel := (Course.sel_eligible hv hsel).1
      rw [(Course.static hv n hi).2.2.1] at hel
      simp only [hsel, ne_eq, not_true_eq_false, and_false, if_true, if_false]
      push_cast
      omega
    · by_cases ha : (proc (r.table 0) i).arrival_time ≤ (n : Int)
      · simp only [hsel, ha, ne_eq, not_false_eq_true, and_self, if_true, if_false]
        push_cast
        omega
      · simp only [hsel, ha, false_and, if_false]
        push_cast
        omega

/-- The wait time of a process that completes at tick `f`. -/
theorem Course.wait_completed (hv : r.Valid) {f m : Nat} (hfm : f + 1 ≤ m) {i : Nat}
    (hi : i < (r.table 0).length) (hf : fresh (proc (r.table 0) i))
    (ha : 0 ≤ (proc (r.table 0) i).arrival_time)
    (h1 : 0 < (proc (r.table f) i).remaining_burst)
    (h2 : (proc (r.table (f + 1)) i).remaining_burst = 0) :
    r.sel f = some i ∧ (proc (r.table 0) i).arrival_time ≤ (f : Int) ∧
    (proc (r.table m) i).remaining_burst = 0 ∧
    (proc (r.table m) i).wait_time =
      (f : Int) + 1 - (proc (r.table 0) i).arrival_time - (proc (r.table 0) i).burst_time := by
  have hs := Course.step hv f hi
  have hsel : r.sel f = some i := by
    by_contra hne
    have := hs.remaining_eq
    rw [if_neg hne] at this
    omega
  have hel := (Course.sel_eligible hv hsel).1
  rw [(Course.static hv f hi).2.2.1] at hel
  have hrem := hs.remaining_eq
  rw [if_pos hsel] at hrem
  have hw := hs.wait_eq
  rw [if_neg (by rintro ⟨_, h, _⟩; exact h hsel)] at hw
  have hwr := Course.wait_running hv f hi hf ha h1
  have hfz := Course.frozen hv hfm hi (by omega)
  refine ⟨hsel, hel, by rw [hfz.1]; exact h2, ?_⟩
  rw [hfz.2.1, hw, hwr]
  omega

end course_counting

section totals

theorem proc_cons_zero (p : Process) (ps : List Process) : proc (p :: ps) 0 = p := rfl

theorem proc_cons_succ (p : Process) (ps : List Process) (i : Nat) :
    proc (p :: ps) (i + 1) = proc ps i := rfl

theorem proc_mem {ps : List Process} {i : Nat} (h : i < ps.length) : proc ps i ∈ ps := by
  have := getElem?_eq_proc h
  rcases List.getElem?_eq_some.mp this with ⟨h', e⟩
  rw [← e]; exact List.getElem_mem h'

theorem exists_proc_of_mem {ps : List Process} {p : Process} (h : p ∈ ps) :
    ∃ i, i < ps.length ∧ proc ps i = p := by
  rcases List.getElem_of_mem h with ⟨i, hi, e⟩
  exact ⟨i, hi, proc_of_getElem? (by rw [List.getElem?_eq_getElem hi, e])⟩

theorem sum_map_eq_sum_range (f : Process → Int) (ps : List Process) :
    (ps.map f).sum = ∑ i in Finset.range ps.length, f (proc ps i) := by
  induction ps with
  | nil => simp
  | cons p ps ih =>
    rw [List.map_cons, List.sum_cons, List.length_cons, Finset.sum_range_succ', ih]
    simp only [proc_cons_succ, proc_cons_zero]
    ring

theorem all_processes_complete_iff (ps : List Process) :
    all_processes_complete ps = true ↔
      ∀ i, i < ps.length → (proc ps i).remaining_burst ≤ 0 := by
  induction ps with
  | nil => simp [all_processes_complete]
  | cons p ps ih =>
    unfold all_processes_complete
    by_cases h : p.remaining_burst > 0
    · simp only [h, if_true, Bool.false_eq_true, false_iff, not_forall]
      exact ⟨0, by simp, by rw [proc_cons_zero]; omega⟩
    · rw [if_neg h, ih]
      constructor
      · intro hall i hi
        cases i with
        | zero => rw [proc_cons_zero]; omega
        | succ i => rw [proc_cons_succ]; exact hall i (by simpa using hi)
      · intro hall i hi
        have := hall (i + 1) (by simpa using hi)
        rwa [proc_cons_succ] at this

theorem arrival_le_max_arrival {ps : List Process} {i : Nat} (h : i < ps.length) :
    (proc ps i).arrival_time ≤ (max_arrival ps : Int) := by
  induction ps generalizing i with
  | nil => simp at h
  | cons p ps ih =>
    have e : max_arrival (p :: ps) = max p.arrival_time.toNat (max_arrival ps) := rfl
    cases i with
    | zero => rw [proc_cons_zero, e]; omega
    | succ i =>
      have := ih (i := i) (by simpa using h)
      rw [proc_cons_succ, e]; omega

theorem StepOK.total_remaining_step {t : Int} {sel : Option Nat} {pre post : List Process}
    (h : StepOK t sel pre post) :
    total_remaining post = total_remaining pre - if sel.isSome then 1 else 0 := by
  unfold total_remaining
  rw [sum_map_eq_sum_range, sum_map_eq_sum_range, h.length_eq]
  have e : ∀ i ∈ Finset.range pre.length, (proc post i).remaining_burst =
      (proc pre i).remaining_burst - if sel = some i then 1 else 0 := by
    intro i hi
    rw [(h.procs i (Finset.mem_range.mp hi)).remaining_eq]
    split <;> simp
  rw [Finset.sum_congr rfl e, Finset.sum_sub_distrib]
  congr 1
  cases sel with
  | none => simp
  | some c =>
    have hc := (h.selected c rfl).1
    simp only [Option.some.injEq, Option.isSome_some, if_true]
    rw [Finset.sum_ite_eq]
    simp [hc]

end totals

section termination

variable {r : Course}

theorem Course.busy_succ (r : Course) (n : Nat) :
    r.busy (n + 1) = r.busy n + if (r.sel n).isSome then 1 else 0 := by
  simp [Course.busy, List.range_succ, List.countP_append, List.countP_cons]

theorem Course.total_remaining_eq (hv : r.Valid) (n : Nat) :
    total_remaining (r.table n) = total_remaining (r.table 0) - (r.busy n : Int) := by
  induction n with
  | zero => simp [Course.busy]
  | succ n ih =>
    rw [(hv n).total_remaining_step, ih, Course.busy_succ]
    split <;> push_cast <;> omega

theorem Course.busy_mono (r : Course) {n m : Nat} (h : n ≤ m) : r.busy n ≤ r.busy m := by
  induction m, h using Nat.le_induction with
  | base => exact le_refl _
  | succ m _ ih => rw [Course.busy_succ]; omega

/-- Completion is persistent. -/
theorem Course.complete_mono (hv : r.Valid) {n m : Nat} (hnm : n ≤ m)
    (h : all_processes_complete (r.table n) = true) :
    all_processes_complete (r.table m) = true := by
  rw [all_processes_complete_iff] at h ⊢
  intro i hi
  rw [Course.length_eq hv m] at hi
  have := h i (by rw [Course.length_eq hv n]; exact hi)
  exact le_trans (Course.remaining_antitone hv hnm hi) this

/-- A tick at or after the last arrival on which some process is incomplete is busy. -/
theorem Course.busy_after_arrivals (hv : r.Valid) {n : Nat}
    (hn : max_arrival (r.table 0) ≤ n)
    (h : all_processes_complete (r.table n) = false) : (r.sel n).isSome = true := by
  by_contra hs
  have hnone : r.sel n = none := by
    cases hsel : r.sel n with
    | none => rfl
    | some c => rw [hsel] at hs; simp at hs
  have hc : all_processes_complete (r.table n) = true := by
    rw [all_processes_complete_iff]
    intro i hi
    have hi0 : i < (r.table 0).length := by rw [← Course.length_eq hv n]; exact hi
    by_contra hpos
    have ha := arrival_le_max_arrival hi0
    rw [← (Course.static hv n hi0).2.2.1] at ha
    exact (hv n).conserve hnone i hi ⟨by omega, by omega⟩
  rw [hc] at h
  exact Bool.noConfusion h

theorem Course.total_remaining_nonneg (hv : r.Valid)
    (h0 : ∀ i, i < (r.table 0).length → 0 ≤ (proc (r.table 0) i).remaining_burst) (n : Nat) :
    0 ≤ total_remaining (r.table n) := by
  unfold total_remaining
  rw [sum_map_eq_sum_range]
  apply Finset.sum_nonneg
  intro i hi
  have hi := Finset.mem_range.mp hi
  rw [Course.length_eq hv n] at hi
  exact Course.remaining_nonneg hv n hi (h0 i hi)

theorem Course.complete_of_total (hv : r.Valid)
    (h0 : ∀ i, i < (r.table 0).length → 0 ≤ (proc (r.table 0) i).remaining_burst) {n : Nat}
    (h : total_remaining (r.table n) ≤ 0) : all_processes_complete (r.table n) = true := by
  rw [all_processes_complete_iff]
  intro i hi
  unfold total_remaining at h
  rw [sum_map_eq_sum_range] at h
  have hnn : ∀ j ∈ Finset.range (r.table n).length, 0 ≤ (proc (r.table n) j).remaining_burst := by
    intro j hj
    have hj := Finset.mem_range.mp hj
    rw [Course.length_eq hv n] at hj
    exact Course.remaining_nonneg hv n hj (h0 j hj)
  have := Finset.single_le_sum hnn (Finset.mem_range.mpr hi)
  omega

/-- Every course that starts with non-negative remaining bursts is complete after
`max_arrival + total_remaining` ticks. -/
theorem Course.complete_at_bound (hv : r.Valid)
    (h0 : ∀ i, i < (r.table 0).length → 0 ≤ (proc (r.table 0) i).remaining_burst) :
    all_processes_complete
      (r.table (max_arrival (r.table 0) + (total_remaining (r.table 0)).toNat)) = true := by
  by_contra hc
  have hc : all_processes_complete
      (r.table (max_arrival (r.table 0) + (total_remaining (r.table 0)).toNat)) = false := by
    simpa using hc
  have hb : ∀ k, k ≤ (total_remaining (r.table 0)).toNat →
      k ≤ r.busy (max_arrival (r.table 0) + k) := by
    intro k
    induction k with
    | zero => intro _; exact Nat.zero_le _
    | succ k ih =>
      intro hk
      have hnc : all_processes_complete (r.table (max_arrival (r.table 0) + k)) = false := by
        by_contra hx
        have hx : all_processes_complete (r.table (max_arrival (r.table 0) + k)) = true := by
          simpa using hx
        have := Course.complete_mono hv (show max_arrival (r.table 0) + k ≤
          max_arrival (r.table 0) + (total_remaining (r.table 0)).toNat by omega) hx
        rw [this] at hc
        exact Bool.noConfusion hc
      have hs := Course.busy_after_arrivals hv (Nat.le_add_right _ k) hnc
      have := ih (by omega)
      rw [← Nat.add_assoc, Course.busy_succ, hs]
      simp only [if_true]
      omega
  have hB := hb _ (le_refl _)
  have ht := Course.total_remaining_eq hv
    (max_arrival (r.table 0) + (total_remaining (r.table 0)).toNat)
  have hnn := Course.total_remaining_nonneg hv h0 0
  have := Course.complete_of_total hv h0
    (n := max_arrival (r.table 0) + (total_remaining (r.table 0)).toNat) (by omega)
  rw [this] at hc
  exact Bool.noConfusion hc

end termination

section selection

theorem get_next_arrived_process_from_spec (t : Int) (k : Nat) (ps : List Process) :
    (get_next_arrived_process_from t k ps = none ∧
      ∀ j, j < ps.length → ¬ eligible t (proc ps j)) ∨
    (∃ j, j < ps.length ∧ get_next_arrived_process_from t k ps = some (k + j) ∧
      eligible t (proc ps j) ∧ ∀ j', j' < j → ¬ eligible t (proc ps j')) := by
  induction ps generalizing k with
  | nil => left; exact ⟨rfl, fun j hj => by simp at hj⟩
  | cons p ps ih =>
    unfold get_next_arrived_process_from
    by_cases h : p.arrival_time ≤ t ∧ p.remaining_burst > 0
    · right
      exact ⟨0, by simp, by rw [if_pos h]; rfl, h, fun j' hj' => by omega⟩
    · rw [if_neg h]
      rcases ih (k + 1) with ⟨h1, h2⟩ | ⟨j, hj, h1, h2, h3⟩
      · left
        refine ⟨h1, fun j hj => ?_⟩
        cases j with
        | zero => exact h
        | succ j => rw [proc_cons_succ]; exact h2 j (by simpa using hj)
      · right
        refine ⟨j + 1, by simpa using hj, by rw [h1]; congr 1; omega, h2, fun j' hj' => ?_⟩
        cases j' with
        | zero => exact h
        | succ j' => rw [proc_cons_succ]; exact h3 j' (by omega)

/-- What `get_next_arrived_process` returns: the first eligible process in load order,
or `NULL` when no process is eligible. -/
theorem get_next_arrived_process_spec (t : Int) (ps : List Process) :
    (get_next_arrived_process t ps = none ∧
      ∀ j, j < ps.length → ¬ eligible t (proc ps j)) ∨
    (∃ c, c < ps.length ∧ get_next_arrived_process t ps = some c ∧
      eligible t (proc ps c) ∧ ∀ j, j < c → ¬ eligible t (proc ps j)) := by
  rcases get_next_arrived_process_from_spec t 0 ps with h | ⟨j, hj, h1, h2, h3⟩
  · left; exact h
  · right; exact ⟨j, hj, by rw [get_next_arrived_process, h1, Nat.zero_add], h2, h3⟩

theorem get_shortest_job_from_spec (t : Int) (k : Nat) (ps : List Process)
    (shortest : Option Nat) (sb : Int) :
    (get_shortest_job_from t k ps shortest sb = shortest ∧
      ∀ j, j < ps.length → eligible t (proc ps j) →
        shortest ≠ none ∧ sb ≤ (proc ps j).remaining_burst) ∨
    (∃ j, j < ps.length ∧ get_shortest_job_from t k ps shortest sb = some (k + j) ∧
      eligible t (proc ps j) ∧
      (shortest ≠ none → (proc ps j).remaining_burst < sb) ∧
      (∀ j', j' < ps.length → eligible t (proc ps j') →
        (proc ps j).remaining_burst ≤ (proc ps j').remaining_burst) ∧
      (∀ j', j' < j → eligible t (proc ps j') →
        (proc ps j).remaining_burst < (proc ps j').remaining_burst)) := by
  induction ps generalizing k shortest sb with
  | nil => left; exact ⟨rfl, fun j hj => by simp at hj⟩
  | cons p ps ih =>
    unfold get_shortest_job_from
    by_cases h : p.arrival_time ≤ t ∧ p.remaining_burst > 0
    · rw [if_pos h]
      by_cases hc : shortest = none ∨ p.remaining_burst < sb
      · rw [if_pos hc]
        rcases ih (k + 1) (some k) p.remaining_burst with ⟨h1, h2⟩ | ⟨j, hj, h1, h2, h3, h4, h5⟩
        · right
          refine ⟨0, by simp, by rw [h1]; rfl, h, ?_, ?_, fun j' hj' => by omega⟩
          · intro hne
            rcases hc with hc | hc
            · exact absurd hc hne
            · exact hc
          · intro j' hj' he
            cases j' with
            | zero => exact le_refl _
            | succ j' =>
              rw [proc_cons_succ] at he ⊢
              exact (h2 j' (by simpa using hj') he).2
        · right
          have hlt := h3 (by simp)
          refine ⟨j + 1, by simpa using hj, by rw [h1]; congr 1; omega, h2, ?_, ?_, ?_⟩
          · intro hne
            rcases hc with hc | hc
            · exact absurd hc hne
            · rw [proc_cons_succ]; omega
          · intro j' hj' he
            cases j' with
            | zero => rw [proc_cons_succ, proc_cons_zero]; omega
            | succ j' =>
              rw [proc_cons_succ] at he ⊢
              rw [proc_cons_succ]
              exact h4 j' (by simpa using hj') he
          · intro j' hj' he
            cases j' with
            | zero => rw [proc_cons_succ, proc_cons_zero]; exact hlt
            | succ j' =>
              rw [proc_cons_succ] at he ⊢
              rw [proc_cons_succ]
              exact h5 j' (by omega) he
      · rw [if_neg hc]
        have hc1 : shortest ≠ none := fun e => hc (Or.inl e)
        have hc2 : sb ≤ p.remaining_burst := by
          by_contra hlt; exact hc (Or.inr (by omega))
        rcases ih (k + 1) shortest sb with ⟨h1, h2⟩ | ⟨j, hj, h1, h2, h3, h4, h5⟩
        · left
          refine ⟨h1, fun j hj he => ?_⟩
          cases j with
          | zero => exact ⟨hc1, hc2⟩
          | succ j => rw [proc_cons_succ] at he ⊢; exact h2 j (by simpa using hj) he
        · right
          have hlt := h3 hc1
          refine ⟨j + 1, by simpa using hj, by rw [h1]; congr 1; omega, h2, ?_, ?_, ?_⟩
          · intro _; rw [proc_cons_succ]; exact hlt
          · intro j' hj' he
            cases j' with
            | zero => rw [proc_cons_succ, proc_cons_zero]; omega
            | succ j' =>
              rw [proc_cons_succ] at he ⊢
              rw [proc_cons_succ]
              exact h4 j' (by simpa using hj') he
          · intro j' hj' he
            cases j' with
            | zero => rw [proc_cons_succ, proc_cons_zero]; omega
            | succ j' =>
              rw [proc_cons_succ] at he ⊢
              rw [proc_cons_succ]
              exact h5 j' (by omega) he
    · rw [if_neg h]
      rcases ih (k + 1) shortest sb with ⟨h1, h2⟩ | ⟨j, hj, h1, h2, h3, h4, h5⟩
      · left
        refine ⟨h1, fun j hj he => ?_⟩
        cases j with
        | zero => exact absurd he h
        | succ j => rw [proc_cons_succ] at he ⊢; exact h2 j (by simpa using hj) he
      · right
        refine ⟨j + 1, by simpa using hj, by rw [h1]; congr 1; omega, h2, ?_, ?_, ?_⟩
        · intro hne; rw [proc_cons_succ]; exact h3 hne
        · intro j' hj' he
          cases j' with
          | zero => exact absurd he h
          | succ j' =>
            rw [proc_cons_succ] at he ⊢
            rw [proc_cons_succ]
            exact h4 j' (by simpa using hj') he
        · intro j' hj' he
          cases j' with
          | zero => exact absurd he h
          | succ j' =>
            rw [proc_cons_succ] at he ⊢
            rw [proc_cons_succ]
            exact h5 j' (by omega) he

/-- What `get_shortest_job` returns: `NULL` when no process is eligible, and otherwise
an eligible process of minimal remaining burst, the first such in load order. -/
theorem get_shortest_job_spec (t : Int) (ps : List Process) :
    (get_shortest_job t ps = none ∧ ∀ j, j < ps.length → ¬ eligible t (proc ps j)) ∨
    (∃ c, c < ps.length ∧ get_shortest_job t ps = some c ∧ eligible t (proc ps c) ∧
      (∀ j, j < ps.length → eligible t (proc ps j) →
        (proc ps c).remaining_burst ≤ (proc ps j).remaining_burst) ∧
      (∀ j, j < c → eligible t (proc ps j) →
        (proc ps c).remaining_burst < (proc ps j).remaining_burst)) := by
  rcases get_shortest_job_from_spec t 0 ps none (-1) with ⟨h1, h2⟩ | ⟨j, hj, h1, h2, _, h4, h5⟩
  · left
    exact ⟨h1, fun j hj he => (h2 j hj he).1 rfl⟩
  · right
    exact ⟨j, hj, by rw [get_shortest_job, h1, Nat.zero_add], h2, h4, h5⟩

end selection

section loops

theorem while_loop_eq {σ : Type} (cond : σ → Bool) (body : σ → σ) (T : Nat) (s : σ)
    (h1 : ∀ n, n < T → cond (body^[n] s) = true) (h2 : cond (body^[T] s) = false)
    (fuel : Nat) (hf : T < fuel) : while_loop cond body fuel s = some (body^[T] s) := by
  induction T generalizing s fuel with
  | zero =>
    cases fuel with
    | zero => omega
    | succ fuel =>
      have h2 : cond s = false := h2
      simp [while_loop, h2]
  | succ T ih =>
    cases fuel with
    | zero => omega
    | succ fuel =>
      have h0 : cond s = true := h1 0 (by omega)
      rw [while_loop, if_pos h0, Function.iterate_succ_apply]
      apply ih
      · intro n hn
        have := h1 (n + 1) (by omega)
        rwa [Function.iterate_succ_apply] at this
      · rwa [Function.iterate_succ_apply] at h2
      · omega

theorem while_loop_none {σ : Type} (cond : σ → Bool) (body : σ → σ) (s : σ) (fuel : Nat)
    (h1 : ∀ n, n < fuel → cond (body^[n] s) = true) : while_loop cond body fuel s = none := by
  induction fuel generalizing s with
  | zero => rfl
  | succ fuel ih =>
    have h0 : cond s = true := h1 0 (by omega)
    rw [while_loop, if_pos h0]
    apply ih
    intro n hn
    have := h1 (n + 1) (by omega)
    rwa [Function.iterate_succ_apply] at this

theorem tick_process_step (t : Int) (c i : Nat) (p : Process) :
    ProcStep t (some c) i p (tick_process t c i p) := by
  unfold tick_process update_wait_times_at
  by_cases hic : i = c
  · subst hic
    simp only [if_true]
    split
    · next h =>
      refine ⟨rfl, rfl, rfl, rfl, by simp, by simp, ?_⟩
      simp only [ne_eq, not_false_eq_true, true_and, reduceCtorEq]
      rw [if_pos h]
    · next h =>
      refine ⟨rfl, rfl, rfl, rfl, by simp, by simp, ?_⟩
      simp only [ne_eq, not_false_eq_true, true_and, reduceCtorEq]
      rw [if_neg h]
  · have hci : ¬ (some c = some i) := fun e => hic (Option.some.inj e).symm
    have hic' : ¬ (some i = some c) := fun e => hic (Option.some.inj e)
    simp only [hic, if_false]
    split
    · next h =>
      refine ⟨rfl, rfl, rfl, rfl, by simp [hci], by simp [hci, hic', eligible, h], ?_⟩
      simp only [ne_eq, reduceCtorEq, not_false_eq_true, true_and]
      rw [if_pos h]
    · next h =>
      refine ⟨rfl, rfl, rfl, rfl, by simp [hci], ?_, ?_⟩
      · simp only [ne_eq, reduceCtorEq, not_false_eq_true, hci, true_and, eligible]
        rw [if_neg h]
      · simp only [ne_eq, reduceCtorEq, not_false_eq_true, true_and]
        rw [if_neg h]

theorem procStep_idle (t : Int) (i : Nat) (p : Process) : ProcStep t none i p p :=
  ⟨rfl, rfl, rfl, rfl, by simp, by simp, by simp⟩

/-- The table change of a loop body that selects `sel`, when `sel` is chosen among the
eligible processes and is `NULL` only if none is eligible. -/
theorem stepOK_of_selection (t : Int) (sel : Option Nat) (ps : List Process)
    (hsel : ∀ c, sel = some c → c < ps.length ∧ eligible t (proc ps c))
    (hnone : sel = none → ∀ i, i < ps.length → ¬ eligible t (proc ps i)) :
    StepOK t sel ps (table_step t sel ps) := by
  cases sel with
  | none =>
    exact ⟨rfl, fun i _ => procStep_idle t i _, hsel, hnone⟩
  | some c =>
    refine ⟨execute_tick_length t c ps, fun i hi => ?_, hsel, hnone⟩
    show ProcStep t (some c) i (proc ps i) (proc (execute_tick t c ps) i)
    rw [proc_execute_tick t c ps i hi]
    exact tick_process_step t c i _

theorem run_selected_processes (s : SimState) (sel : Option Nat) :
    (run_selected s sel).processes = table_step s.current_time sel s.processes := by
  cases sel <;> rfl

theorem run_selected_time (s : SimState) (sel : Option Nat) :
    (run_selected s sel).current_time = s.current_time + 1 := by
  cases sel <;> rfl

theorem fcfs_state_time (ps : List Process) (n : Nat) :
    (fcfs_state ps n).current_time = (n : Int) := by
  induction n with
  | zero => rfl
  | succ n ih =>
    rw [fcfs_state, Function.iterate_succ_apply', ← fcfs_state, fcfs_body, run_selected_time, ih]
    push_cast; rfl

theorem sjf_state_time (ps : List Process) (n : Nat) :
    (sjf_state ps n).current_time = (n : Int) := by
  induction n with
  | zero => rfl
  | succ n ih =>
    rw [sjf_state, Function.iterate_succ_apply', ← sjf_state, sjf_body, run_selected_time, ih]
    push_cast; rfl

theorem fcfs_course_valid (g : Globals) : (Algorithm.fcfs.course g).Valid := by
  intro n
  show StepOK (n : Int) (fcfs_selected g.processes n) (fcfs_state g.processes n).processes
    (fcfs_state g.processes (n + 1)).processes
  have e : (fcfs_state g.processes (n + 1)).processes =
      (run_selected (fcfs_state g.processes n) (fcfs_selected g.processes n)).processes := by
    rw [fcfs_state, Function.iterate_succ_apply']; rfl
  rw [e, run_selected_processes, fcfs_state_time]
  apply stepOK_of_selection
  · intro c hc
    unfold fcfs_selected at hc
    rw [fcfs_state_time] at hc
    rcases get_next_arrived_process_spec (n : Int) (fcfs_state g.processes n).processes with
      ⟨h1, _⟩ | ⟨c', hc', h1, h2, _⟩
    · rw [h1] at hc; exact Option.noConfusion hc
    · rw [h1] at hc; cases hc; exact ⟨hc', h2⟩
  · intro hc
    unfold fcfs_selected at hc
    rw [fcfs_state_time] at hc
    rcases get_next_arrived_process_spec (n : Int) (fcfs_state g.processes n).processes with
      ⟨_, h2⟩ | ⟨c', _, h1, _, _⟩
    · exact h2
    · rw [h1] at hc; exact Option.noConfusion hc

theorem sjf_course_valid (g : Globals) : (Algorithm.sjf.course g).Valid := by
  intro n
  show StepOK (n : Int) (sjf_selected g.processes n) (sjf_state g.processes n).processes
    (sjf_state g.processes (n + 1)).processes
  have e : (sjf_state g.processes (n + 1)).processes =
      (run_selected (sjf_state g.processes n) (sjf_selected g.processes n)).processes := by
    rw [sjf_state, Function.iterate_succ_apply']; rfl
  rw [e, run_selected_processes, sjf_state_time]
  apply stepOK_of_selection
  · intro c hc
    unfold sjf_selected at hc
    rw [sjf_state_time] at hc
    rcases get_shortest_job_spec (n : Int) (sjf_state g.processes n).processes with
      ⟨h1, _⟩ | ⟨c', hc', h1, h2, _⟩
    · rw [h1] at hc; exact Option.noConfusion hc
    · rw [h1] at hc; cases hc; exact ⟨hc', h2⟩
  · intro hc
    unfold sjf_selected at hc
    rw [sjf_state_time] at hc
    rcases get_shortest_job_spec (n : Int) (sjf_state g.processes n).processes with
      ⟨_, h2⟩ | ⟨c', _, h1, _, _⟩
    · exact h2
    · rw [h1] at hc; exact Option.noConfusion hc

end loops

section queue

theorem proc_set (ps : List Process) (i j : Nat) (x : Process) (hi : i < ps.length) :
    proc (ps.set i x) j = if i = j then x else proc ps j := by
  unfold proc
  rw [List.getD_eq_getElem?_getD, List.getD_eq_getElem?_getD, List.getElem?_set]
  by_cases h : i = j
  · subst h; simp [hi]
  · simp [h]

theorem MAX_PROCESSES_toNat : MAX_PROCESSES.toNat = 100 := rfl

theorem init_queue_represents (q : Queue) (h : q.items.length = MAX_PROCESSES.toNat) :
    Represents (init_queue q) [] := by
  refine ⟨h, le_refl _, ?_, ?_, ?_, rfl, Nat.zero_le _, ?_, rfl⟩
  · show (0 : Int) < MAX_PROCESSES
    simp only [MAX_PROCESSES]; omega
  · show (-1 : Int) ≤ -1
    omega
  · show (-1 : Int) < MAX_PROCESSES
    simp only [MAX_PROCESSES]; omega
  · show ((-1 : Int) + 1) % MAX_PROCESSES = (0 + 0) % MAX_PROCESSES
    simp only [MAX_PROCESSES]; omega

theorem represents_size {q : Queue} {L : List Nat} (h : Represents q L) :
    q.size.toNat = L.length := by
  rw [h.size_eq]; simp

/-- The effect of `enqueue` when its guard holds. -/
theorem enqueue_eq {g : Globals} {i : Nat} {p : Process} (hp : g.processes[i]? = some p)
    (h1 : p.in_queue = 0) (h2 : 0 < p.remaining_burst) :
    enqueue i g =
      { processes := g.processes.set i { p with in_queue := 1 },
        ready_queue :=
          { items := g.ready_queue.items.set
              ((g.ready_queue.rear + 1).tmod MAX_PROCESSES).toNat (some i),
            front := g.ready_queue.front,
            rear := (g.ready_queue.rear + 1).tmod MAX_PROCESSES,
            size := g.ready_queue.size + 1 } } := by
  unfold enqueue
  rw [hp]
  simp only [h1, h2, gt_iff_lt, and_self, if_true]

/-- The effect of `enqueue` when its guard fails. -/
theorem enqueue_noop {g : Globals} {i : Nat}
    (h : ∀ p, g.processes[i]? = some p → ¬ (p.in_queue = 0 ∧ p.remaining_burst > 0)) :
    enqueue i g = g := by
  unfold enqueue
  cases hp : g.processes[i]? with
  | none => rfl
  | some p => simp only [if_neg (h p hp)]

theorem enqueue_represents {q : Queue} {L : List Nat} (h : Represents q L)
    (hlen : L.length < MAX_PROCESSES.toNat) (i : Nat) :
    Represents
      { items := q.items.set ((q.rear + 1).tmod MAX_PROCESSES).toNat (some i),
        front := q.front,
        rear := (q.rear + 1).tmod MAX_PROCESSES,
        size := q.size + 1 } (L ++ [i]) := by
  have hlen' : L.length < 100 := hlen
  have hil := h.items_length
  have hfl := h.front_lo
  have hfh := h.front_hi
  have hrl := h.rear_lo
  have hrh := h.rear_hi
  have hse := h.size_eq
  have hre := h.rear_eq
  simp only [MAX_PROCESSES, MAX_PROCESSES_toNat] at hil hfh hrh hre
  have htm : (q.rear + 1).tmod MAX_PROCESSES = (q.rear + 1) % 100 :=
    Int.tmod_eq_emod (by omega) (by simp [MAX_PROCESSES])
  have hidx : ((q.rear + 1) % 100).toNat = (q.front.toNat + L.length) % 100 := by omega
  refine ⟨?_, hfl, hfh, ?_, ?_, ?_, ?_, ?_, ?_⟩
  · simp [hil, MAX_PROCESSES_toNat]
  · show -1 ≤ (q.rear + 1).tmod MAX_PROCESSES
    rw [htm]; omega
  · show (q.rear + 1).tmod MAX_PROCESSES < MAX_PROCESSES
    rw [htm]; simp only [MAX_PROCESSES]; omega
  · show q.size + 1 = ((L ++ [i]).length : Int)
    simp [hse]
  · simp [MAX_PROCESSES_toNat]; omega
  · show ((q.rear + 1).tmod MAX_PROCESSES + 1) % MAX_PROCESSES =
      (q.front + (q.size + 1)) % MAX_PROCESSES
    rw [htm]; simp only [MAX_PROCESSES]; omega
  · have hc := h.contents
    unfold queue_contents at hc ⊢
    simp only [MAX_PROCESSES_toNat] at hc ⊢
    rw [htm, hidx]
    have hs1 : (q.size + 1).toNat = L.length + 1 := by omega
    have hs0 : q.size.toNat = L.length := by omega
    rw [hs0] at hc
    rw [hs1, List.range_succ, List.map_append, List.map_append]
    congr 1
    · rw [← hc]
      apply List.map_congr_left
      intro k hk
      have hk : k < L.length := List.mem_range.mp hk
      rw [List.getD_eq_getElem?_getD, List.getD_eq_getElem?_getD, List.getElem?_set_ne]
      omega
    · simp only [List.map_cons, List.map_nil]
      rw [List.getD_eq_getElem?_getD, List.getElem?_set_self (by omega)]
      rfl

theorem dequeue_nil {g : Globals} (h : Represents g.ready_queue []) :
    dequeue g = (none, g) := by
  have := h.size_eq
  unfold dequeue
  rw [if_pos (by simp at this; omega)]

theorem dequeue_cons {g : Globals} {x : Nat} {L : List Nat}
    (h : Represents g.ready_queue (x :: L)) :
    (dequeue g).1 = some x ∧
    (dequeue g).2.processes =
      (match g.processes[x]? with
       | none => g.processes
       | some p => g.processes.set x { p with in_queue := 0 }) ∧
    Represents (dequeue g).2.ready_queue L := by
  have hil := h.items_length
  have hfl := h.front_lo
  have hfh := h.front_hi
  have hrl := h.rear_lo
  have hrh := h.rear_hi
  have hse := h.size_eq
  have hsl := h.size_le
  have hre := h.rear_eq
  have hc := h.contents
  simp only [MAX_PROCESSES, MAX_PROCESSES_toNat, List.length_cons] at hil hfh hrh hre hse hsl
  push_cast at hse
  have htm : (g.ready_queue.front + 1).tmod MAX_PROCESSES = (g.ready_queue.front + 1) % 100 :=
    Int.tmod_eq_emod (by omega) (by simp [MAX_PROCESSES])
  unfold queue_contents at hc
  have hs1 : g.ready_queue.size.toNat = L.length + 1 := by omega
  rw [hs1, List.range_succ_eq_map, List.map_cons, List.map_cons, List.map_map] at hc
  simp only [MAX_PROCESSES_toNat] at hc
  have hhead := (List.cons.inj hc).1
  have htail := (List.cons.inj hc).2
  have hf0 : (g.ready_queue.front.toNat + 0) % 100 = g.ready_queue.front.toNat := by omega
  rw [hf0] at hhead
  have hq : Represents
      { items := g.ready_queue.items,
        front := (g.ready_queue.front + 1).tmod MAX_PROCESSES,
        rear := g.ready_queue.rear,
        size := g.ready_queue.size - 1 } L := by
    refine ⟨h.items_length, ?_, ?_, hrl, h.rear_hi, ?_, ?_, ?_, ?_⟩
    · show 0 ≤ (g.ready_queue.front + 1).tmod MAX_PROCESSES
      rw [htm]; omega
    · show (g.ready_queue.front + 1).tmod MAX_PROCESSES < MAX_PROCESSES
      rw [htm]; simp only [MAX_PROCESSES]; omega
    · show g.ready_queue.size - 1 = (L.length : Int)
      omega
    · simp only [MAX_PROCESSES_toNat]; omega
    · show (g.ready_queue.rear + 1) % MAX_PROCESSES =
        ((g.ready_queue.front + 1).tmod MAX_PROCESSES + (g.ready_queue.size - 1)) % MAX_PROCESSES
      rw [htm]; simp only [MAX_PROCESSES]; omega
    · unfold queue_contents
      simp only [MAX_PROCESSES_toNat]
      rw [htm, ← htail]
      have hs0 : (g.ready_queue.size - 1).toNat = L.length := by omega
      rw [hs0]
      apply List.map_congr_left
      intro k _
      simp only [Function.comp]
      congr 1
      omega
  unfold dequeue
  rw [if_neg (by omega)]
  simp only [hhead]
  cases hp : g.processes[x]? with
  | none => exact ⟨rfl, rfl, hq⟩
  | some p => exact ⟨rfl, rfl, hq⟩

end queue

section queue_inv

theorem nodup_length_le {L : List Nat} {n : Nat} (hnd : L.Nodup) (hlt : ∀ i, i ∈ L → i < n) :
    L.length ≤ n := by
  have h1 : L.toFinset ⊆ Finset.range n := by
    intro i hi
    exact Finset.mem_range.mpr (hlt i (List.mem_toFinset.mp hi))
  have h2 := Finset.card_le_card h1
  rw [List.toFinset_card_of_nodup hnd, Finset.card_range] at h2
  exact h2

theorem unqueued_fields {p p' : Process} (h : unqueued p' = unqueued p) :
    p'.id = p.id ∧ p'.burst_time = p.burst_time ∧ p'.remaining_burst = p.remaining_burst ∧
    p'.arrival_time = p.arrival_time ∧ p'.wait_time = p.wait_time ∧
    p'.turnaround_time = p.turnaround_time ∧ p'.completion_time = p.completion_time := by
  have h1 : (unqueued p').id = (unqueued p).id := by rw [h]
  have h2 : (unqueued p').burst_time = (unqueued p).burst_time := by rw [h]
  have h3 : (unqueued p').remaining_burst = (unqueued p).remaining_burst := by rw [h]
  have h4 : (unqueued p').arrival_time = (unqueued p).arrival_time := by rw [h]
  have h5 : (unqueued p').wait_time = (unqueued p).wait_time := by rw [h]
  have h6 : (unqueued p').turnaround_time = (unqueued p).turnaround_time := by rw [h]
  have h7 : (unqueued p').completion_time = (unqueued p).completion_time := by rw [h]
  exact ⟨h1, h2, h3, h4, h5, h6, h7⟩

theorem SameTiming.refl (ps : List Process) : SameTiming ps ps := ⟨rfl, fun _ => rfl⟩

theorem SameTiming.trans {ps ps' ps'' : List Process} (h1 : SameTiming ps ps')
    (h2 : SameTiming ps' ps'') : SameTiming ps ps'' :=
  ⟨h2.1.trans h1.1, fun i => (h2.2 i).trans (h1.2 i)⟩

theorem sameTiming_set_flag (ps : List Process) (i : Nat) (v : Int) (hi : i < ps.length) :
    SameTiming ps (ps.set i { proc ps i with in_queue := v }) := by
  refine ⟨List.length_set _ _ _, fun j => ?_⟩
  rw [proc_set ps i j _ hi]
  by_cases h : i = j
  · subst h; simp [unqueued]
  · simp [h]

theorem QueueInv.mono {g : Globals} {L : List Nat} {b b' : Int} (h : QueueInv g L b)
    (hb : b ≤ b') : QueueInv g L b' :=
  ⟨h.repr, h.table_le, h.nodup, h.mem_lt, h.flag,
    fun i hi => ⟨(h.queued i hi).1, lt_of_lt_of_le (h.queued i hi).2 hb⟩⟩

/-- Under the queue invariant, `enqueue` of a process that is not queued and has burst
left appends it to the queue and sets its flag. -/
theorem QueueInv.after_enqueue {g : Globals} {L : List Nat} {b : Int} (h : QueueInv g L b)
    {i : Nat} (hi : i < g.processes.length) (h1 : (proc g.processes i).in_queue = 0)
    (h2 : 0 < (proc g.processes i).remaining_burst)
    (h3 : (proc g.processes i).arrival_time < b) :
    QueueInv (enqueue i g) (L ++ [i]) b ∧ SameTiming g.processes (enqueue i g).processes ∧
    (enqueue i g).processes = g.processes.set i { proc g.processes i with in_queue := 1 } := by
  have hni : i ∉ L := fun hm => ((h.flag i hi).mpr hm) h1
  have hnd : (L ++ [i]).Nodup := by
    rw [List.nodup_append]
    refine ⟨h.nodup, List.nodup_singleton i, ?_⟩
    intro a ha hb
    rw [List.mem_singleton] at hb
    subst hb
    exact hni ha
  have hlt : ∀ j, j ∈ L ++ [i] → j < g.processes.length := by
    intro j hj
    rcases List.mem_append.mp hj with hj | hj
    · exact h.mem_lt j hj
    · rw [List.mem_singleton] at hj; subst hj; exact hi
  have hlen := nodup_length_le hnd hlt
  have hlen' : L.length < MAX_PROCESSES.toNat := by
    have := h.table_le
    simp only [List.length_append, List.length_singleton] at hlen
    omega
  have he := enqueue_eq (getElem?_eq_proc hi) h1 h2
  have hst := sameTiming_set_flag g.processes i 1 hi
  rw [he]
  refine ⟨⟨enqueue_represents h.repr hlen' i, ?_, hnd, ?_, ?_, ?_⟩, hst, rfl⟩
  · show (g.processes.set i _).length ≤ _
    rw [List.length_set]; exact h.table_le
  · intro j hj
    show j < (g.processes.set i _).length
    rw [List.length_set]; exact hlt j hj
  · intro j hj
    show (proc (g.processes.set i _) j).in_queue ≠ 0 ↔ j ∈ L ++ [i]
    have hj : j < g.processes.length := by
      rw [← List.length_set g.processes i { proc g.processes i with in_queue := 1 }]; exact hj
    rw [proc_set _ _ _ _ hi]
    by_cases hij : i = j
    · subst hij; simp
    · have hji : j ≠ i := fun e => hij e.symm
      simp only [hij, if_false, List.mem_append, List.mem_singleton, hji, or_false]
      exact h.flag j hj
  · intro j hj
    show 0 < (proc (g.processes.set i _) j).remaining_burst ∧
      (proc (g.processes.set i _) j).arrival_time < b
    have hf := unqueued_fields (hst.2 j)
    rw [hf.2.2.1, hf.2.2.2.1]
    rcases List.mem_append.mp hj with hj | hj
    · exact h.queued j hj
    · rw [List.mem_singleton] at hj; subst hj; exact ⟨h2, h3⟩

/-- Under the queue invariant, `dequeue` on a non-empty queue returns the head and
clears its flag. -/
theorem QueueInv.after_dequeue {g : Globals} {x : Nat} {L : List Nat} {b : Int}
    (h : QueueInv g (x :: L) b) :
    (dequeue g).1 = some x ∧ QueueInv (dequeue g).2 L b ∧
    SameTiming g.processes (dequeue g).2.processes ∧
    (dequeue g).2.processes = g.processes.set x { proc g.processes x with in_queue := 0 } := by
  have hx : x < g.processes.length := h.mem_lt x (List.mem_cons_self x L)
  rcases dequeue_cons h.repr with ⟨d1, d2, d3⟩
  rw [getElem?_eq_proc hx] at d2
  simp only at d2
  have hst := sameTiming_set_flag g.processes x 0 hx
  have hnd := List.nodup_cons.mp h.nodup
  refine ⟨d1, ⟨d3, ?_, hnd.2, ?_, ?_, ?_⟩, ?_, d2⟩
  · rw [d2, List.length_set]; exact h.table_le
  · intro j hj
    rw [d2, List.length_set]; exact h.mem_lt j (List.mem_cons_of_mem x hj)
  · intro j hj
    rw [d2] at hj ⊢
    rw [List.length_set] at hj
    rw [proc_set _ _ _ _ hx]
    by_cases hxj : x = j
    · subst hxj
      simp only [if_true, ne_eq, not_true_eq_false, false_iff]
      exact hnd.1
    · simp only [hxj, if_false]
      rw [h.flag j hj, List.mem_cons]
      constructor
      · rintro (e | e)
        · exact absurd e.symm hxj
        · exact e
      · exact Or.inr
  · intro j hj
    rw [d2]
    have hf := unqueued_fields (hst.2 j)
    rw [hf.2.2.1, hf.2.2.2.1]
    exact h.queued j (List.mem_cons_of_mem x hj)
  · rw [d2]; exact hst

end queue_inv

section arrivals

theorem check_arrivals_step_eq (t : Int) (g : Globals) (k : Nat) (hk : k < g.processes.length) :
    check_arrivals_step t g k =
      if (proc g.processes k).arrival_time = t then enqueue k g else g := by
  unfold check_arrivals_step
  rw [getElem?_eq_proc hk]

/-- The invariant of the loop of `check_arrivals` after the indices below `k`. -/
theorem check_arrivals_fold {g : Globals} {L : List Nat} {t : Int} {current : Option Nat}
    (hq : QueueInv g L t) (hc : CurInv g current L t) (hr : Ready g current L t 0)
    (k : Nat) (hk : k ≤ g.processes.length) :
    ∃ A, QueueInv ((List.range k).foldl (check_arrivals_step t) g) (L ++ A) (t + 1) ∧
      CurInv ((List.range k).foldl (check_arrivals_step t) g) current (L ++ A) t ∧
      Ready ((List.range k).foldl (check_arrivals_step t) g) current (L ++ A) t k ∧
      SameTiming g.processes ((List.range k).foldl (check_arrivals_step t) g).processes := by
  induction k with
  | zero =>
    refine ⟨[], ?_, ?_, ?_, SameTiming.refl _⟩
    · rw [List.append_nil]; exact hq.mono (by omega)
    · rw [List.append_nil]; exact hc
    · rw [List.append_nil]; exact hr
  | succ k ih =>
    rcases ih (by omega) with ⟨A, iq, ic, ir, ist⟩
    rw [List.range_succ, List.foldl_append]
    simp only [List.foldl_cons, List.foldl_nil]
    generalize (List.range k).foldl (check_arrivals_step t) g = gk at iq ic ir ist
    have hlen : gk.processes.length = g.processes.length := ist.1
    have hkk : k < gk.processes.length := by omega
    rw [check_arrivals_step_eq t gk k hkk]
    by_cases ha : (proc gk.processes k).arrival_time = t
    · rw [if_pos ha]
      by_cases hg : (proc gk.processes k).in_queue = 0 ∧ 0 < (proc gk.processes k).remaining_burst
      · rcases iq.after_enqueue hkk hg.1 hg.2 (by omega) with ⟨eq1, est, _⟩
        refine ⟨A ++ [k], ?_, ?_, ?_, ist.trans est⟩
        · rw [← List.append_assoc]; exact eq1
        · intro c hcur
          rcases ic c hcur with ⟨c1, c2, c3, c4⟩
          have hf := unqueued_fields (est.2 c)
          refine ⟨by rw [est.1]; exact c1, ?_, by rw [hf.2.2.1]; exact c3,
            by rw [hf.2.2.2.1]; exact c4⟩
          rw [← List.append_assoc, List.mem_append, List.mem_singleton]
          rintro (h | h)
          · exact c2 h
          · subst h; omega
        · intro i hi hrem harr
          rw [est.1] at hi
          have hf := unqueued_fields (est.2 i)
          rw [hf.2.2.1] at hrem
          rw [hf.2.2.2.1] at harr
          rw [← List.append_assoc, List.mem_append, List.mem_singleton]
          by_cases hik : i = k
          · left; right; exact hik
          · rcases ir i hi hrem (by omega) with h | h
            · left; left; exact h
            · right; exact h
      · rw [enqueue_noop (fun p hp => by rw [← proc_of_getElem? hp]; exact hg)]
        refine ⟨A, iq, ic, ?_, ist⟩
        intro i hi hrem harr
        by_cases hik : i = k
        · subst hik
          left
          apply (iq.flag i hi).mp
          intro h0
          exact hg ⟨h0, hrem⟩
        · exact ir i hi hrem (by omega)
    · rw [if_neg ha]
      refine ⟨A, iq, ic, ?_, ist⟩
      intro i hi hrem harr
      by_cases hik : i = k
      · subst hik
        rcases harr with h | h
        · exact ir i hi hrem (Or.inl h)
        · exact absurd h.1 ha
      · exact ir i hi hrem (by omega)

/-- What `check_arrivals` does under the invariant of `round_robin`: the processes that
arrive at time `t` with burst left are appended to the queue. -/
theorem check_arrivals_inv {g : Globals} {L : List Nat} {t : Int} {current : Option Nat}
    (hq : QueueInv g L t) (hc : CurInv g current L t) (hr : Ready g current L t 0) :
    ∃ A, QueueInv (check_arrivals t g) (L ++ A) (t + 1) ∧
      CurInv (check_arrivals t g) current (L ++ A) t ∧
      Ready (check_arrivals t g) current (L ++ A) (t + 1) 0 ∧
      SameTiming g.processes (check_arrivals t g).processes := by
  unfold check_arrivals
  rcases check_arrivals_fold hq hc hr g.processes.length (le_refl _) with ⟨A, h1, h2, h3, h4⟩
  refine ⟨A, h1, h2, ?_, h4⟩
  intro i hi hrem harr
  have hi' : i < g.processes.length := by
    have := h4.1
    omega
  exact h3 i hi hrem (by omega)

end arrivals

section rr_phases

theorem rr_arrive_inv {quantum : Int} {s : RRState} {L : List Nat} (h : RRHead quantum s L) :
    ∃ A, RRArrived quantum (rr_arrive s) (L ++ A) ∧
      SameTiming s.globals.processes (rr_arrive s).globals.processes := by
  rcases check_arrivals_inv h.queue h.cur h.ready with ⟨A, h1, h2, h3, h4⟩
  exact ⟨A, ⟨h.time_nonneg, h1, h2, h3, h.quantum_lo, h.quantum_hi⟩, h4⟩

theorem current_unfinished_of_curInv {g : Globals} {c : Nat} {L : List Nat} {b : Int}
    (h : CurInv g (some c) L b) : current_unfinished g.processes (some c) = true := by
  rcases h c rfl with ⟨h1, _, h3, _⟩
  unfold current_unfinished
  simp only [getElem?_eq_proc h1]
  exact decide_eq_true h3

theorem current_finished_of_curInv {g : Globals} {current : Option Nat} {L : List Nat} {b : Int}
    (h : CurInv g current L b) : current_finished g.processes current = false := by
  cases current with
  | none => rfl
  | some c =>
    rcases h c rfl with ⟨h1, _, h3, _⟩
    unfold current_finished
    simp only [getElem?_eq_proc h1]
    exact decide_eq_false (by omega)

theorem rr_dispatch_keep {quantum : Int} {s : RRState} (h : rr_switch quantum s = false) :
    rr_dispatch quantum s = s := by
  unfold rr_dispatch
  rw [if_neg (by rw [h]; exact Bool.false_ne_true)]

theorem rr_dispatch_none {quantum : Int} {s : RRState} (h : rr_switch quantum s = true)
    (hc : s.current = none) :
    rr_dispatch quantum s =
      { s with globals := (dequeue s.globals).2, current := (dequeue s.globals).1,
               time_in_quantum := 0 } := by
  unfold rr_dispatch
  rw [if_pos h]
  simp only [hc]

theorem rr_dispatch_some {quantum : Int} {s : RRState} (h : rr_switch quantum s = true)
    {c : Nat} (hc : s.current = some c)
    (hu : current_unfinished s.globals.processes (some c) = true) :
    rr_dispatch quantum s =
      { s with globals := (dequeue (enqueue c s.globals)).2,
               current := (dequeue (enqueue c s.globals)).1,
               time_in_quantum := 0 } := by
  unfold rr_dispatch
  rw [if_pos h]
  simp only [hc, hu, if_true]

/-- The first `if` of the body of `round_robin` under the invariant: on a switch the
current process goes to the tail of the queue and the head becomes current. -/
theorem rr_dispatch_inv {quantum : Int} (hq : 1 ≤ quantum) {s : RRState} {L : List Nat}
    (h : RRArrived quantum s L) :
    ∃ L', RRDispatched quantum (rr_dispatch quantum s) L' ∧
      SameTiming s.globals.processes (rr_dispatch quantum s).globals.processes ∧
      (rr_dispatch quantum s).current_time = s.current_time ∧
      (rr_dispatch quantum s).output = s.output ∧
      (rr_switch quantum s = false → rr_dispatch quantum s = s ∧ L' = L) ∧
      (rr_switch quantum s = true →
        (rr_dispatch quantum s).time_in_quantum = 0 ∧
        (rr_dispatch quantum s).current = (L ++ s.current.toList).head? ∧
        L' = (L ++ s.current.toList).tail) := by
  have hcur1 : CurInv s.globals s.current L (s.current_time + 1) := by
    intro c hc
    rcases h.cur c hc with ⟨a, b, c', d⟩
    exact ⟨a, b, c', by omega⟩
  cases hsw : rr_switch quantum s with
  | false =>
    rw [rr_dispatch_keep hsw]
    have hne : s.current ≠ none ∧ s.time_in_quantum ≠ quantum := by
      unfold rr_switch at hsw
      simp only [Bool.or_eq_false_iff, decide_eq_false_iff_not] at hsw
      exact ⟨hsw.1.1, hsw.1.2⟩
    have hlt : s.time_in_quantum < quantum := lt_of_le_of_ne h.quantum_hi hne.2
    refine ⟨L, ⟨h.time_nonneg, h.queue, hcur1, h.ready, fun e => absurd e hne.1,
      h.quantum_lo, hlt⟩, SameTiming.refl _, rfl, rfl, fun _ => ⟨rfl, rfl⟩, fun e => ?_⟩
    exact absurd e Bool.false_ne_true
  | true =>
    cases hc : s.current with
    | none =>
      rw [rr_dispatch_none hsw hc]
      cases L with
      | nil =>
        rw [dequeue_nil h.queue.repr]
        refine ⟨[], ⟨h.time_nonneg, h.queue, ?_, ?_, fun _ => rfl, le_refl _, (by show (0 : Int) < quantum; omega)⟩,
          SameTiming.refl _, rfl, rfl, fun e => absurd e Bool.noConfusion, fun _ => ⟨rfl, by simp [hc], by simp [hc]⟩⟩
        · intro c hc'; exact Option.noConfusion hc'
        · intro i hi hrem harr
          rcases h.ready i hi hrem harr with h1 | h1
          · exact Or.inl h1
          · rw [hc] at h1; exact Option.noConfusion h1
      | cons x L =>
        rcases h.queue.after_dequeue with ⟨d1, d2, d3, d4⟩
        have hf := fun i => unqueued_fields (d3.2 i)
        have hnd := List.nodup_cons.mp h.queue.nodup
        refine ⟨L, ⟨h.time_nonneg, d2, ?_, ?_, ?_, le_refl _, (by show (0 : Int) < quantum; omega)⟩, d3, rfl, rfl,
          fun e => absurd e Bool.noConfusion, fun _ => ⟨rfl, ?_, by simp [hc]⟩⟩
        · intro c hc'
          have hc' : (dequeue s.globals).1 = some c := hc'
          rw [d1] at hc'
          cases hc'
          have hx := h.queue.queued x (List.mem_cons_self x L)
          refine ⟨?_, hnd.1, ?_, ?_⟩
          · show x < (dequeue s.globals).2.processes.length
            rw [d3.1]; exact h.queue.mem_lt x (List.mem_cons_self x L)
          · show 0 < (proc (dequeue s.globals).2.processes x).remaining_burst
            rw [(hf x).2.2.1]; exact hx.1
          · show (proc (dequeue s.globals).2.processes x).arrival_time < s.current_time + 1
            rw [(hf x).2.2.2.1]; exact hx.2
        · intro i hi hrem harr
          have hi : i < (dequeue s.globals).2.processes.length := hi
          have hrem : 0 < (proc (dequeue s.globals).2.processes i).remaining_burst := hrem
          have harr : (proc (dequeue s.globals).2.processes i).arrival_time < s.current_time + 1 ∨
              ((proc (dequeue s.globals).2.processes i).arrival_time = s.current_time + 1 ∧ i < 0) :=
            harr
          rw [d3.1] at hi
          rw [(hf i).2.2.1] at hrem
          rw [(hf i).2.2.2.1] at harr
          rcases h.ready i hi hrem harr with h1 | h1
          · rcases List.mem_cons.mp h1 with e | e
            · right; show (dequeue s.globals).1 = some i; rw [d1, e]
            · left; exact e
          · rw [hc] at h1; exact Option.noConfusion h1
        · intro e
          have e : (dequeue s.globals).1 = none := e
          exact Option.noConfusion (d1.symm.trans e)
        · show (dequeue s.globals).1 = _
          rw [d1]; simp
    | some c =>
      rw [hc] at hcur1
      have hcu := h.cur
      rw [hc] at hcu
      rw [rr_dispatch_some hsw hc (current_unfinished_of_curInv hcu)]
      rcases hcur1 c rfl with ⟨c1, c2, c3, c4⟩
      have hflag : (proc s.globals.processes c).in_queue = 0 := by
        by_contra hne
        exact c2 ((h.queue.flag c c1).mp hne)
      rcases h.queue.after_enqueue c1 hflag c3 c4 with ⟨e1, e2, _⟩
      have hfe := fun i => unqueued_fields (e2.2 i)
      cases L with
      | nil =>
        rw [List.nil_append] at e1
        rcases e1.after_dequeue with ⟨d1, d2, d3, d4⟩
        have hf := fun i => unqueued_fields (d3.2 i)
        refine ⟨[], ⟨h.time_nonneg, d2, ?_, ?_, ?_, le_refl _, (by show (0 : Int) < quantum; omega)⟩, e2.trans d3, rfl, rfl,
          fun e => absurd e Bool.noConfusion, fun _ => ⟨rfl, ?_, by simp [hc]⟩⟩
        · intro c' hc'
          have hc' : (dequeue (enqueue c s.globals)).1 = some c' := hc'
          rw [d1] at hc'
          cases hc'
          refine ⟨?_, List.not_mem_nil _, ?_, ?_⟩
          · show c < (dequeue (enqueue c s.globals)).2.processes.length
            rw [d3.1, e2.1]; exact c1
          · show 0 < (proc (dequeue (enqueue c s.globals)).2.processes c).remaining_burst
            rw [(hf c).2.2.1, (hfe c).2.2.1]; exact c3
          · show (proc (dequeue (enqueue c s.globals)).2.processes c).arrival_time <
              s.current_time + 1
            rw [(hf c).2.2.2.1, (hfe c).2.2.2.1]; exact c4
        · intro i hi hrem harr
          have hi : i < (dequeue (enqueue c s.globals)).2.processes.length := hi
          have hrem : 0 < (proc (dequeue (enqueue c s.globals)).2.processes i).remaining_burst :=
            hrem
          have harr : (proc (dequeue (enqueue c s.globals)).2.processes i).arrival_time <
                s.current_time + 1 ∨
              ((proc (dequeue (enqueue c s.globals)).2.processes i).arrival_time =
                s.current_time + 1 ∧ i < 0) := harr
          rw [d3.1, e2.1] at hi
          rw [(hf i).2.2.1, (hfe i).2.2.1] at hrem
          rw [(hf i).2.2.2.1, (hfe i).2.2.2.1] at harr
          rcases h.ready i hi hrem harr with h1 | h1
          · exact absurd h1 (List.not_mem_nil _)
          · rw [hc] at h1
            have e := Option.some.inj h1
            right; show (dequeue (enqueue c s.globals)).1 = some i; rw [d1, e]
        · intro e
          have e : (dequeue (enqueue c s.globals)).1 = none := e
          exact Option.noConfusion (d1.symm.trans e)
        · show (dequeue (enqueue c s.globals)).1 = _
          rw [d1]; simp
      | cons x L =>
        rw [List.cons_append] at e1
        rcases e1.after_dequeue with ⟨d1, d2, d3, d4⟩
        have hf := fun i => unqueued_fields (d3.2 i)
        have hnd := List.nodup_cons.mp e1.nodup
        have hx := h.queue.queued x (List.mem_cons_self x L)
        refine ⟨L ++ [c], ⟨h.time_nonneg, d2, ?_, ?_, ?_, le_refl _, (by show (0 : Int) < quantum; omega)⟩, e2.trans d3,
          rfl, rfl, fun e => absurd e Bool.noConfusion, fun _ => ⟨rfl, ?_, by simp [hc]⟩⟩
        · intro c' hc'
          have hc' : (dequeue (enqueue c s.globals)).1 = some c' := hc'
          rw [d1] at hc'
          cases hc'
          refine ⟨?_, hnd.1, ?_, ?_⟩
          · show x < (dequeue (enqueue c s.globals)).2.processes.length
            rw [d3.1, e2.1]; exact h.queue.mem_lt x (List.mem_cons_self x L)
          · show 0 < (proc (dequeue (enqueue c s.globals)).2.processes x).remaining_burst
            rw [(hf x).2.2.1, (hfe x).2.2.1]; exact hx.1
          · show (proc (dequeue (enqueue c s.globals)).2.processes x).arrival_time <
              s.current_time + 1
            rw [(hf x).2.2.2.1, (hfe x).2.2.2.1]; exact hx.2
        · intro i hi hrem harr
          have hi : i < (dequeue (enqueue c s.globals)).2.processes.length := hi
          have hrem : 0 < (proc (dequeue (enqueue c s.globals)).2.processes i).remaining_burst :=
            hrem
          have harr : (proc (dequeue (enqueue c s.globals)).2.processes i).arrival_time <
                s.current_time + 1 ∨
              ((proc (dequeue (enqueue c s.globals)).2.processes i).arrival_time =
                s.current_time + 1 ∧ i < 0) := harr
          rw [d3.1, e2.1] at hi
          rw [(hf i).2.2.1, (hfe i).2.2.1] at hrem
          rw [(hf i).2.2.2.1, (hfe i).2.2.2.1] at harr
          rcases h.ready i hi hrem harr with h1 | h1
          · rcases List.mem_cons.mp h1 with e | e
            · right; show (dequeue (enqueue c s.globals)).1 = some i; rw [d1, e]
            · left; exact List.mem_append_left _ e
          · rw [hc] at h1
            have e := Option.some.inj h1
            left; rw [← e]; exact List.mem_append_right _ (List.mem_singleton_self _)
        · intro e
          have e : (dequeue (enqueue c s.globals)).1 = none := e
          exact Option.noConfusion (d1.symm.trans e)
        · show (dequeue (enqueue c s.globals)).1 = _
          rw [d1]; simp

end rr_phases

section rr_execute

theorem tick_process_in_queue (t : Int) (c i : Nat) (p : Process) :
    (tick_process t c i p).in_queue = p.in_queue := by
  unfold tick_process update_wait_times_at
  split <;> split <;> rfl

theorem rr_execute_none {s : RRState} (h : s.current = none) :
    rr_execute s = { s with current_time := s.current_time + 1 } := by
  unfold rr_execute
  simp only [h]

theorem rr_execute_some {s : RRState} {c : Nat} (h : s.current = some c) :
    rr_execute s =
      { globals := { processes := execute_tick s.current_time c s.globals.processes,
                     ready_queue := s.globals.ready_queue },
        current_time := s.current_time + 1,
        current := if current_finished (execute_tick s.current_time c s.globals.processes)
                      (some c) then none else some c,
        time_in_quantum := s.time_in_quantum + 1,
        output := s.output ++ print_event s.current_time c s.globals.processes } := by
  unfold rr_execute
  simp only [h]
  rfl

theorem rr_execute_processes (s : RRState) :
    (rr_execute s).globals.processes =
      table_step s.current_time s.current s.globals.processes := by
  cases h : s.current with
  | none => rw [rr_execute_none h]; rfl
  | some c => rw [rr_execute_some h]; rfl

theorem rr_execute_time (s : RRState) :
    (rr_execute s).current_time = s.current_time + 1 := by
  cases h : s.current with
  | none => rw [rr_execute_none h]
  | some c => rw [rr_execute_some h]

/-- The second `if` of the body of `round_robin` re-establishes the loop invariant. -/
theorem rr_execute_inv {quantum : Int} {s : RRState} {L : List Nat}
    (h : RRDispatched quantum s L) : RRHead quantum (rr_execute s) L := by
  cases hc : s.current with
  | none =>
    rw [rr_execute_none hc]
    have hL := h.idle hc
    refine ⟨?_, h.queue, ?_, ?_, h.quantum_lo, le_of_lt h.quantum_hi⟩
    · show 0 ≤ s.current_time + 1
      have := h.time_nonneg
      omega
    · intro c hc'
      have hc' : s.current = some c := hc'
      rw [hc] at hc'; exact Option.noConfusion hc'
    · exact h.ready
  | some c =>
    rw [rr_execute_some hc]
    rcases h.cur c hc with ⟨c1, c2, c3, c4⟩
    have hlen := execute_tick_length s.current_time c s.globals.processes
    have hstep : ∀ i, i < s.globals.processes.length →
        ProcStep s.current_time (some c) i (proc s.globals.processes i)
          (proc (execute_tick s.current_time c s.globals.processes) i) := by
      intro i hi
      rw [proc_execute_tick _ _ _ _ hi]
      exact tick_process_step _ _ _ _
    have hrem : ∀ i, i < s.globals.processes.length → i ≠ c →
        (proc (execute_tick s.current_time c s.globals.processes) i).remaining_burst =
          (proc s.globals.processes i).remaining_burst := by
      intro i hi hic
      rw [(hstep i hi).remaining_eq, if_neg (fun e => hic (Option.some.inj e).symm)]
    have hremc : (proc (execute_tick s.current_time c s.globals.processes) c).remaining_burst =
        (proc s.globals.processes c).remaining_burst - 1 := by
      rw [(hstep c c1).remaining_eq, if_pos rfl]
    have hfin : current_finished (execute_tick s.current_time c s.globals.processes) (some c) =
        decide ((proc (execute_tick s.current_time c s.globals.processes) c).remaining_burst
          = 0) := by
      unfold current_finished
      simp only [getElem?_eq_proc (show c < (execute_tick s.current_time c
        s.globals.processes).length by rw [hlen]; exact c1)]
    refine ⟨?_, ⟨h.queue.repr, ?_, h.queue.nodup, ?_, ?_, ?_⟩, ?_, ?_, ?_, ?_⟩
    · show 0 ≤ s.current_time + 1
      have := h.time_nonneg
      omega
    · show (execute_tick s.current_time c s.globals.processes).length ≤ _
      rw [hlen]; exact h.queue.table_le
    · intro i hi
      show i < (execute_tick s.current_time c s.globals.processes).length
      rw [hlen]; exact h.queue.mem_lt i hi
    · intro i hi
      have hi : i < (execute_tick s.current_time c s.globals.processes).length := hi
      rw [hlen] at hi
      show (proc (execute_tick s.current_time c s.globals.processes) i).in_queue ≠ 0 ↔ i ∈ L
      rw [proc_execute_tick _ _ _ _ hi, tick_process_in_queue]
      exact h.queue.flag i hi
    · intro i hi
      have hil := h.queue.mem_lt i hi
      have hic : i ≠ c := fun e => c2 (e ▸ hi)
      show 0 < (proc (execute_tick s.current_time c s.globals.processes) i).remaining_burst ∧
        (proc (execute_tick s.current_time c s.globals.processes) i).arrival_time <
          s.current_time + 1
      rw [hrem i hil hic, (hstep i hil).arrival_eq]
      exact h.queue.queued i hi
    · intro c' hc'
      have hc' : (if current_finished (execute_tick s.current_time c s.globals.processes)
          (some c) then none else some c) = some c' := hc'
      rw [hfin] at hc'
      by_cases h0 : (proc (execute_tick s.current_time c s.globals.processes) c).remaining_burst
          = 0
      · simp only [h0, decide_True, if_true] at hc'
        exact Option.noConfusion hc'
      · simp only [h0, decide_False, Bool.false_eq_true, if_false] at hc'
        have e := Option.some.inj hc'
        subst e
        refine ⟨?_, c2, ?_, ?_⟩
        · show c < (execute_tick s.current_time c s.globals.processes).length
          rw [hlen]; exact c1
        · show 0 < (proc (execute_tick s.current_time c s.globals.processes) c).remaining_burst
          omega
        · show (proc (execute_tick s.current_time c s.globals.processes) c).arrival_time <
            s.current_time + 1
          rw [(hstep c c1).arrival_eq]; exact c4
    · intro i hi hr ha
      have hi : i < (execute_tick s.current_time c s.globals.processes).length := hi
      rw [hlen] at hi
      have hr : 0 < (proc (execute_tick s.current_time c s.globals.processes) i).remaining_burst :=
        hr
      have ha : (proc (execute_tick s.current_time c s.globals.processes) i).arrival_time <
            s.current_time + 1 ∨
          ((proc (execute_tick s.current_time c s.globals.processes) i).arrival_time =
            s.current_time + 1 ∧ i < 0) := ha
      rw [(hstep i hi).arrival_eq] at ha
      show i ∈ L ∨ (if current_finished (execute_tick s.current_time c s.globals.processes)
          (some c) then none else some c) = some i
      by_cases hic : i = c
      · subst hic
        right
        rw [hfin]
        have : ¬ (proc (execute_tick s.current_time i s.globals.processes) i).remaining_burst
            = 0 := by omega
        simp only [this, decide_False, Bool.false_eq_true, if_false]
      · rw [hrem i hi hic] at hr
        rcases h.ready i hi hr (by omega) with h1 | h1
        · exact Or.inl h1
        · rw [hc] at h1; exact absurd (Option.some.inj h1).symm hic
    · show 0 ≤ s.time_in_quantum + 1
      have := h.quantum_lo
      omega
    · show s.time_in_quantum + 1 ≤ quantum
      have := h.quantum_hi
      omega

end rr_execute

section rr_course

theorem ProcStep.of_unqueued {t : Int} {sel : Option Nat} {i : Nat} {p0 p p' : Process}
    (h : ProcStep t sel i p p') (e : unqueued p = unqueued p0) : ProcStep t sel i p0 p' := by
  have hf := unqueued_fields e
  have he : eligible t p ↔ eligible t p0 := by
    unfold eligible; rw [hf.2.2.1, hf.2.2.2.1]
  refine ⟨h.id_eq.trans hf.1, h.burst_eq.trans hf.2.1, h.arrival_eq.trans hf.2.2.2.1,
    h.completion_eq.trans hf.2.2.2.2.2.2, ?_, ?_, ?_⟩
  · rw [h.remaining_eq, hf.2.2.1]
  · rw [h.wait_eq, hf.2.2.2.2.1]
    simp only [he]
  · rw [h.turnaround_eq, hf.2.2.2.2.2.1, hf.2.2.2.1]

theorem StepOK.of_sameTiming {t : Int} {sel : Option Nat} {ps0 ps post : List Process}
    (h : StepOK t sel ps post) (e : SameTiming ps0 ps) : StepOK t sel ps0 post := by
  have hel : ∀ i, eligible t (proc ps i) ↔ eligible t (proc ps0 i) := by
    intro i
    have hf := unqueued_fields (e.2 i)
    unfold eligible; rw [hf.2.2.1, hf.2.2.2.1]
  refine ⟨h.length_eq.trans e.1, fun i hi => ?_, fun c hc => ?_, fun hn i hi => ?_⟩
  · exact (h.procs i (by rw [e.1]; exact hi)).of_unqueued (e.2 i)
  · rcases h.selected c hc with ⟨h1, h2⟩
    exact ⟨by rw [← e.1]; exact h1, (hel c).mp h2⟩
  · intro he
    exact h.conserve hn i (by rw [e.1]; exact hi) ((hel i).mpr he)

/-- One iteration of the loop of `round_robin` keeps the loop invariant and is a tick of
a scheduling loop for the process that is current after the first `if`. -/
theorem rr_body_inv {quantum : Int} (hq : 1 ≤ quantum) {s : RRState} {L : List Nat}
    (h : RRHead quantum s L) :
    ∃ L', RRHead quantum (rr_body quantum s) L' ∧
      StepOK s.current_time (rr_dispatch quantum (rr_arrive s)).current s.globals.processes
        (rr_body quantum s).globals.processes := by
  rcases rr_arrive_inv h with ⟨A, ha, hst1⟩
  rcases rr_dispatch_inv hq ha with ⟨L', hd, hst2, htime, _, _, _⟩
  have htime : (rr_dispatch quantum (rr_arrive s)).current_time = s.current_time := htime
  refine ⟨L', rr_execute_inv hd, ?_⟩
  show StepOK s.current_time (rr_dispatch quantum (rr_arrive s)).current s.globals.processes
    (rr_execute (rr_dispatch quantum (rr_arrive s))).globals.processes
  rw [rr_execute_processes, htime]
  apply StepOK.of_sameTiming _ (hst1.trans hst2)
  apply stepOK_of_selection
  · intro c hc
    rcases hd.cur c hc with ⟨c1, _, c3, c4⟩
    rw [htime] at c4
    exact ⟨c1, by omega, c3⟩
  · intro hn i hi he
    have hL := hd.idle hn
    rcases hd.ready i hi he.2 (Or.inl (by rw [htime]; have := he.1; omega)) with h1 | h1
    · rw [hL] at h1; exact absurd h1 (List.not_mem_nil _)
    · rw [hn] at h1; exact Option.noConfusion h1

theorem rr_start_inv {quantum : Int} (hq : 1 ≤ quantum) {g : Globals} (hw : WellFormed g)
    (hflag : ∀ p, p ∈ g.processes → p.in_queue = 0)
    (harr : ∀ p, p ∈ g.processes → 0 ≤ p.arrival_time) :
    RRHead quantum (rr_start g) [] := by
  refine ⟨le_refl _, ⟨init_queue_represents _ hw.items_length, hw.table_le, List.nodup_nil,
    ?_, ?_, ?_⟩, ?_, ?_, le_refl _, ?_⟩
  · intro i hi; exact absurd hi (List.not_mem_nil _)
  · intro i hi
    have hi : i < g.processes.length := hi
    show (proc g.processes i).in_queue ≠ 0 ↔ i ∈ []
    have := hflag _ (proc_mem hi)
    simp [this]
  · intro i hi; exact absurd hi (List.not_mem_nil _)
  · intro c hc; exact Option.noConfusion hc
  · intro i hi _ ha
    have hi : i < g.processes.length := hi
    have h0 := harr _ (proc_mem hi)
    have ha : (proc g.processes i).arrival_time < 0 ∨
        ((proc g.processes i).arrival_time = 0 ∧ i < 0) := ha
    omega
  · show (0 : Int) ≤ quantum
    omega

theorem rr_state_succ (quantum : Int) (g : Globals) (n : Nat) :
    rr_state quantum g (n + 1) = rr_body quantum (rr_state quantum g n) := by
  rw [rr_state, Function.iterate_succ_apply']; rfl

theorem rr_body_time (quantum : Int) (s : RRState) :
    (rr_body quantum s).current_time = s.current_time + 1 := by
  unfold rr_body
  rw [rr_execute_time]
  unfold rr_dispatch
  split <;> rfl

theorem rr_state_time (quantum : Int) (g : Globals) (n : Nat) :
    (rr_state quantum g n).current_time = (n : Int) := by
  induction n with
  | zero => rfl
  | succ n ih => rw [rr_state_succ, rr_body_time, ih]; push_cast; rfl

/-- The loop invariant of `round_robin` holds at the head of every iteration. -/
theorem rr_state_inv {quantum : Int} (hq : 1 ≤ quantum) {g : Globals} (hw : WellFormed g)
    (hflag : ∀ p, p ∈ g.processes → p.in_queue = 0)
    (harr : ∀ p, p ∈ g.processes → 0 ≤ p.arrival_time) (n : Nat) :
    ∃ L, RRHead quantum (rr_state quantum g n) L := by
  induction n with
  | zero => exact ⟨[], rr_start_inv hq hw hflag harr⟩
  | succ n ih =>
    rcases ih with ⟨L, hL⟩
    rcases rr_body_inv hq hL with ⟨L', h1, _⟩
    rw [rr_state_succ]
    exact ⟨L', h1⟩

theorem rr_course_valid {quantum : Int} (hq : 1 ≤ quantum) {g : Globals} (hw : WellFormed g)
    (hflag : ∀ p, p ∈ g.processes → p.in_queue = 0)
    (harr : ∀ p, p ∈ g.processes → 0 ≤ p.arrival_time) :
    ((Algorithm.round_robin quantum).course g).Valid := by
  intro n
  rcases rr_state_inv hq hw hflag harr n with ⟨L, hL⟩
  rcases rr_body_inv hq hL with ⟨_, _, h2⟩
  rw [rr_state_time] at h2
  show StepOK (n : Int) (rr_selected quantum g n) (rr_state quantum g n).globals.processes
    (rr_state quantum g (n + 1)).globals.processes
  rw [rr_state_succ]
  exact h2

/-- Every admissible algorithm, started on well-formed globals with no process queued
and no negative arrival time, runs a valid course. -/
theorem Algorithm.course_valid (a : Algorithm) (ha : a.admissible) {g : Globals}
    (hw : WellFormed g) (hflag : ∀ p, p ∈ g.processes → p.in_queue = 0)
    (harr : ∀ p, p ∈ g.processes → 0 ≤ p.arrival_time) : (a.course g).Valid := by
  cases a with
  | fcfs => exact fcfs_course_valid g
  | sjf => exact sjf_course_valid g
  | round_robin quantum => exact rr_course_valid ha hw hflag harr

end rr_course

section runs

theorem Algorithm.state_processes (a : Algorithm) (g : Globals) (n : Nat) :
    (a.state g n).processes = (a.course g).table n := by
  cases a <;> rfl

theorem Algorithm.state_time (a : Algorithm) (g : Globals) (n : Nat) :
    (a.state g n).current_time = (n : Int) := by
  cases a with
  | fcfs => exact fcfs_state_time g.processes n
  | sjf => exact sjf_state_time g.processes n
  | round_robin quantum => exact rr_state_time quantum g n

theorem Algorithm.table_zero (a : Algorithm) (g : Globals) :
    (a.course g).table 0 = g.processes := by
  cases a <;> rfl

/-- The loop of an algorithm stops at the first tick at which every process is
complete, with the state reached at that tick. -/
theorem Algorithm.run_eq (a : Algorithm) (g : Globals) (T : Nat)
    (h1 : ∀ n, n < T → all_processes_complete ((a.course g).table n) = false)
    (h2 : all_processes_complete ((a.course g).table T) = true) (fuel : Nat) (hf : T < fuel) :
    a.run fuel g = some (a.state g T) := by
  cases a with
  | fcfs =>
    apply while_loop_eq sim_running fcfs_body T (sim_start g.processes) _ _ fuel hf
    · intro n hn
      have := h1 n hn
      show (!all_processes_complete (fcfs_state g.processes n).processes) = true
      simpa using this
    · show (!all_processes_complete (fcfs_state g.processes T).processes) = false
      simpa using h2
  | sjf =>
    apply while_loop_eq sim_running sjf_body T (sim_start g.processes) _ _ fuel hf
    · intro n hn
      have := h1 n hn
      show (!all_processes_complete (sjf_state g.processes n).processes) = true
      simpa using this
    · show (!all_processes_complete (sjf_state g.processes T).processes) = false
      simpa using h2
  | round_robin quantum =>
    show (CpuScheduler.round_robin quantum fuel g).map RRState.toSim = _
    have : CpuScheduler.round_robin quantum fuel g = some (rr_state quantum g T) := by
      apply while_loop_eq rr_running (rr_body quantum) T (rr_start g) _ _ fuel hf
      · intro n hn
        have := h1 n hn
        show (!all_processes_complete (rr_state quantum g n).globals.processes) = true
        simpa using this
      · show (!all_processes_complete (rr_state quantum g T).globals.processes) = false
        simpa using h2
    rw [this]; rfl

/-- With too little fuel the loop of an algorithm does not get to its end. -/
theorem Algorithm.run_none (a : Algorithm) (g : Globals) (fuel : Nat)
    (h1 : ∀ n, n < fuel → all_processes_complete ((a.course g).table n) = false) :
    a.run fuel g = none := by
  cases a with
  | fcfs =>
    apply while_loop_none sim_running fcfs_body (sim_start g.processes) fuel
    intro n hn
    have := h1 n hn
    show (!all_processes_complete (fcfs_state g.processes n).processes) = true
    simpa using this
  | sjf =>
    apply while_loop_none sim_running sjf_body (sim_start g.processes) fuel
    intro n hn
    have := h1 n hn
    show (!all_processes_complete (sjf_state g.processes n).processes) = true
    simpa using this
  | round_robin quantum =>
    show (CpuScheduler.round_robin quantum fuel g).map RRState.toSim = _
    have : CpuScheduler.round_robin quantum fuel g = none := by
      apply while_loop_none rr_running (rr_body quantum) (rr_start g) fuel
      intro n hn
      have := h1 n hn
      show (!all_processes_complete (rr_state quantum g n).globals.processes) = true
      simpa using this
    rw [this]; rfl

/-- A valid course that starts with non-negative remaining bursts has a first tick `T`
at which every process is complete; `T` is at most the last arrival plus the total
remaining burst, and exactly that many ticks before `T` execute a process. -/
theorem Course.first_complete {r : Course} (hv : r.Valid)
    (h0 : ∀ i, i < (r.table 0).length → 0 ≤ (proc (r.table 0) i).remaining_burst) :
    ∃ T, T ≤ max_arrival (r.table 0) + (total_remaining (r.table 0)).toNat ∧
      all_processes_complete (r.table T) = true ∧
      (∀ n, n < T → all_processes_complete (r.table n) = false) ∧
      (r.busy T : Int) = total_remaining (r.table 0) := by
  have hex : ∃ n, all_processes_complete (r.table n) = true :=
    ⟨_, Course.complete_at_bound hv h0⟩
  classical
  refine ⟨Nat.find hex, Nat.find_min' hex (Course.complete_at_bound hv h0),
    Nat.find_spec hex, ?_, ?_⟩
  · intro n hn
    have := Nat.find_min hex hn
    simpa using this
  · have hc := Nat.find_spec hex
    have ht := Course.total_remaining_eq hv (Nat.find hex)
    have hnn := Course.total_remaining_nonneg hv h0 (Nat.find hex)
    have hle : total_remaining (r.table (Nat.find hex)) ≤ 0 := by
      unfold total_remaining
      rw [sum_map_eq_sum_range]
      apply Finset.sum_nonpos
      intro i hi
      exact (all_processes_complete_iff _).mp hc i (Finset.mem_range.mp hi)
    omega

end runs

section completion

variable {r : Course}

/-- A process that starts with burst left and ends without has exactly one tick at
which its remaining burst reaches 0. -/
theorem Course.completion_tick (hv : r.Valid) {i T : Nat} (hi : i < (r.table 0).length)
    (h0 : 0 < (proc (r.table 0) i).remaining_burst)
    (hT : (proc (r.table T) i).remaining_burst ≤ 0) :
    ∃ f, f < T ∧ 0 < (proc (r.table f) i).remaining_burst ∧
      (proc (r.table (f + 1)) i).remaining_burst = 0 ∧
      ∀ f', 0 < (proc (r.table f') i).remaining_burst →
        (proc (r.table (f' + 1)) i).remaining_burst = 0 → f' = f := by
  have hex : ∃ m, (proc (r.table m) i).remaining_burst ≤ 0 := ⟨T, hT⟩
  classical
  have hm := Nat.find_spec hex
  have hmin : ∀ k, k < Nat.find hex → 0 < (proc (r.table k) i).remaining_burst := by
    intro k hk
    have := Nat.find_min hex hk
    omega
  have hpos : 0 < Nat.find hex := by
    rcases Nat.eq_zero_or_pos (Nat.find hex) with h | h
    · rw [h] at hm; omega
    · exact h
  obtain ⟨f, hf⟩ : ∃ f, Nat.find hex = f + 1 := ⟨Nat.find hex - 1, by omega⟩
  rw [hf] at hm
  have hfpos := hmin f (by omega)
  have hnn := Course.remaining_nonneg hv (f + 1) hi (le_of_lt h0)
  have hle : Nat.find hex ≤ T := Nat.find_min' hex hT
  refine ⟨f, by omega, hfpos, by omega, ?_⟩
  intro f' h1 h2
  by_contra hne
  rcases Nat.lt_or_gt_of_ne hne with hlt | hgt
  · have := Course.remaining_antitone hv (show f' + 1 ≤ f by omega) hi
    omega
  · have := Course.remaining_antitone hv (show f + 1 ≤ f' by omega) hi
    omega

theorem total_remaining_of_fresh {ps : List Process} (h : ∀ p, p ∈ ps → fresh p) :
    total_remaining ps = total_burst ps := by
  unfold total_remaining total_burst
  congr 1
  apply List.map_congr_left
  intro p hp
  exact (h p hp).1

end completion

section int_range

/-- From a fresh process on, the counters of a process are bounded by the clock: the
ticks waited plus the ticks executed are at most the ticks elapsed. -/
theorem Course.counters_le_tick {r : Course} (hv : r.Valid) (n : Nat) {i : Nat}
    (hi : i < (r.table 0).length) (hf : fresh (proc (r.table 0) i)) :
    0 ≤ (proc (r.table n) i).wait_time ∧
    0 ≤ (proc (r.table n) i).turnaround_time ∧
    (proc (r.table n) i).turnaround_time ≤
      (proc (r.table n) i).wait_time +
        ((proc (r.table 0) i).burst_time - (proc (r.table n) i).remaining_burst) ∧
    (proc (r.table n) i).wait_time +
      ((proc (r.table 0) i).burst_time - (proc (r.table n) i).remaining_burst) ≤ (n : Int) := by
  induction n with
  | zero =>
    rcases hf with ⟨f1, f2, f3, _, _⟩
    rw [f1, f2, f3]
    simp
  | succ n ih =>
    have h := Course.step hv n hi
    have hr := h.remaining_eq
    have hw := h.wait_eq
    have ht := h.turnaround_eq
    rcases ih with ⟨i1, i2, i3, i4⟩
    by_cases hsel : r.sel n = some i
    · rw [if_pos hsel] at hr
      have hne : ¬ (r.sel n ≠ none ∧ r.sel n ≠ some i ∧
          eligible (n : Int) (proc (r.table n) i)) := fun hh => hh.2.1 hsel
      rw [if_neg hne] at hw
      push_cast
      split at ht <;> omega
    · rw [if_neg hsel] at hr
      by_cases hwc : r.sel n ≠ none ∧ r.sel n ≠ some i ∧
          eligible (n : Int) (proc (r.table n) i)
      · rw [if_pos hwc] at hw
        push_cast
        split at ht <;> omega
      · rw [if_neg hwc] at hw
        have htc : ¬ (r.sel n ≠ none ∧ (proc (r.table n) i).arrival_time ≤ (n : Int) ∧
            (proc (r.table (n + 1)) i).remaining_burst > 0) := by
          rintro ⟨t1, t2, t3⟩
          exact hwc ⟨t1, hsel, t2, by rw [hr] at t3; exact t3⟩
        rw [if_neg htc] at ht
        push_cast
        omega

theorem total_burst_cons (p : Process) (ps : List Process) :
    total_burst (p :: ps) = p.burst_time + total_burst ps := by
  unfold total_burst
  rw [List.map_cons, List.sum_cons]

theorem total_burst_nonneg {ps : List Process} (hb : ∀ p, p ∈ ps → 0 ≤ p.burst_time) :
    0 ≤ total_burst ps := by
  induction ps with
  | nil => exact le_refl _
  | cons p ps ih =>
    rw [total_burst_cons]
    have h1 := hb p (List.mem_cons_self p ps)
    have h2 := ih (fun q hq => hb q (List.mem_cons_of_mem p hq))
    omega

theorem burst_le_total_burst {ps : List Process} (hb : ∀ p, p ∈ ps → 0 ≤ p.burst_time)
    {i : Nat} (hi : i < ps.length) : (proc ps i).burst_time ≤ total_burst ps := by
  induction ps generalizing i with
  | nil => simp at hi
  | cons p ps ih =>
    rw [total_burst_cons]
    have h1 := hb p (List.mem_cons_self p ps)
    have hb2 : ∀ q, q ∈ ps → 0 ≤ q.burst_time := fun q hq => hb q (List.mem_cons_of_mem p hq)
    have h2 := total_burst_nonneg hb2
    cases i with
    | zero => rw [proc_cons_zero]; omega
    | succ i =>
      have := ih hb2 (i := i) (by simpa using hi)
      rw [proc_cons_succ]; omega

/-- A run from a freshly loaded table of non-negative bursts whose largest arrival time
plus sum of burst times is at most `INT_MAX` stays within `int` up to every tick that is at
most this sum. -/
theorem Algorithm.within_int_of_valid (a : Algorithm) {g : Globals}
    (hv : (a.course g).Valid) (hfresh : ∀ p, p ∈ g.processes → fresh p)
    (hb : ∀ p, p ∈ g.processes → 0 ≤ p.burst_time)
    (hrange : (max_arrival g.processes : Int) + total_burst g.processes ≤ INT_MAX)
    (T : Nat) (hT : (T : Int) ≤ (max_arrival g.processes : Int) + total_burst g.processes) :
    a.within_int g T := by
  refine ⟨le_trans hT hrange, fun n hn => ⟨a.state_time g n, fun i hi => ?_⟩⟩
  have hi0 : i < ((a.course g).table 0).length := by rw [a.table_zero]; exact hi
  have hp := proc_mem hi
  have hfr : fresh (proc ((a.course g).table 0) i) := by
    rw [a.table_zero]; exact hfresh _ hp
  have hst := Course.static hv n hi0
  have hc := Course.counters_le_tick hv n hi0 hfr
  have hnn := Course.remaining_nonneg hv n hi0 (by rw [hfr.1, a.table_zero]; exact hb _ hp)
  have hle := Course.remaining_antitone hv (Nat.zero_le n) hi0
  have hbt := burst_le_total_burst hb hi
  have hma : (0 : Int) ≤ (max_arrival g.processes : Int) := Int.ofNat_nonneg _
  rw [hfr.1] at hle
  simp only [a.state_processes]
  rw [a.table_zero] at hst hc hle
  rcases hc with ⟨c1, c2, c3, c4⟩
  refine ⟨hnn, by rw [hst.2.1]; exact hle, by rw [hst.2.1]; omega, c1, by omega, c2,
    by omega, fun h0 => ?_⟩
  unfold reported_turnaround
  rw [hst.2.1]
  rw [h0] at c4
  have hb0 := hb _ hp
  omega

end int_range

section claims_1_3

/-- C1 (the code departs from the claim): on the one-process table `P0` with arrival 0 and
burst 1, each of `fcfs`, `sjf` and `round_robin` (quantum 1) ends after one tick with
`remaining_burst = 0`, while the tick-accumulated `turnaround_time` field is 0 and
`wait_time + burst_time` is 1: `update_wait_times` runs after the decrement and skips the
process that has just completed. -/
theorem turnaround_field_misses_completing_tick :
    (Algorithm.fcfs.run 2 (loaded [loaded_process 0 0 1])).map
        (fun s => (s.current_time, s.processes.map (fun p =>
          (p.remaining_burst, p.turnaround_time, p.wait_time + p.burst_time)))) =
      some (1, [(0, 0, 1)]) ∧
    (Algorithm.sjf.run 2 (loaded [loaded_process 0 0 1])).map
        (fun s => (s.current_time, s.processes.map (fun p =>
          (p.remaining_burst, p.turnaround_time, p.wait_time + p.burst_time)))) =
      some (1, [(0, 0, 1)]) ∧
    ((Algorithm.round_robin 1).run 2 (loaded [loaded_process 0 0 1])).map
        (fun s => (s.current_time, s.processes.map (fun p =>
          (p.remaining_burst, p.turnaround_time, p.wait_time + p.burst_time)))) =
      some (1, [(0, 0, 1)]) := by
  decide

/-- C2: for each algorithm (quantum at least 1) and every freshly loaded table with bursts
at least 1 and no negative arrival time, whose largest arrival time plus sum of burst times
is at most `INT_MAX` (so that the clock and the sums stay within `int`), the loop ends, the
run stays within `int`, and for every process there is exactly one tick `f` at which its
remaining burst reaches 0; its final `wait_time` is the number of ticks `t` with
`arrival_time ≤ t ≤ f` at which it was not the executed process, which is
`f + 1 - arrival_time - burst_time`, and the turnaround time that `print_final_stats`
reports is `f + 1 - arrival_time`, a value between 0 and `INT_MAX`. -/
theorem wait_time_counts_ticks_not_executed (a : Algorithm) (ha : a.admissible)
    (g : Globals) (hw : WellFormed g) (hfresh : ∀ p, p ∈ g.processes → fresh p)
    (hin : ∀ p, p ∈ g.processes → 1 ≤ p.burst_time ∧ 0 ≤ p.arrival_time)
    (hrange : (max_arrival g.processes : Int) + total_burst g.processes ≤ INT_MAX) :
    ∃ T, (∀ fuel, T < fuel → a.run fuel g = some (a.state g T)) ∧
      a.within_int g T ∧
      ∀ i, i < g.processes.length →
        ∃ f, f < T ∧
          0 < (proc (a.state g f).processes i).remaining_burst ∧
          (proc (a.state g (f + 1)).processes i).remaining_burst = 0 ∧
          (∀ f', 0 < (proc (a.state g f').processes i).remaining_burst →
            (proc (a.state g (f' + 1)).processes i).remaining_burst = 0 → f' = f) ∧
          (proc (a.state g T).processes i).wait_time =
            ((a.course g).waited i (proc g.processes i).arrival_time (f + 1) : Int) ∧
          (proc (a.state g T).processes i).wait_time =
            (f : Int) + 1 - (proc g.processes i).arrival_time -
              (proc g.processes i).burst_time ∧
          reported_turnaround (proc (a.state g T).processes i) =
            (f : Int) + 1 - (proc g.processes i).arrival_time ∧
          0 ≤ reported_turnaround (proc (a.state g T).processes i) ∧
          reported_turnaround (proc (a.state g T).processes i) ≤ INT_MAX := by
  have hv := a.course_valid ha hw (fun p hp => (hfresh p hp).2.2.2.2)
    (fun p hp => (hin p hp).2)
  have hb0 : ∀ p, p ∈ g.processes → 0 ≤ p.burst_time := fun p hp => by
    have := (hin p hp).1
    omega
  have h0 : ∀ i, i < ((a.course g).table 0).length →
      0 ≤ (proc ((a.course g).table 0) i).remaining_burst := by
    intro i hi
    rw [a.table_zero] at hi ⊢
    have hp := proc_mem hi
    rw [(hfresh _ hp).1]
    exact hb0 _ hp
  rcases Course.first_complete hv h0 with ⟨T, hle, hT, hlt, _⟩
  rw [a.table_zero, total_remaining_of_fresh hfresh] at hle
  have hnn := total_burst_nonneg hb0
  have hTle : (T : Int) ≤ (max_arrival g.processes : Int) + total_burst g.processes := by
    omega
  have hint := a.within_int_of_valid hv hfresh hb0 hrange T hTle
  refine ⟨T, fun fuel hf => a.run_eq g T hlt hT fuel hf, hint, fun i hi => ?_⟩
  have hi0 : i < ((a.course g).table 0).length := by rw [a.table_zero]; exact hi
  have hp := proc_mem hi
  have hfr : fresh (proc ((a.course g).table 0) i) := by
    rw [a.table_zero]; exact hfresh _ hp
  have hb : 1 ≤ (proc ((a.course g).table 0) i).burst_time := by
    rw [a.table_zero]; exact (hin _ hp).1
  have harr : 0 ≤ (proc ((a.course g).table 0) i).arrival_time := by
    rw [a.table_zero]; exact (hin _ hp).2
  have hr0 : 0 < (proc ((a.course g).table 0) i).remaining_burst := by
    rw [hfr.1]; omega
  have hrT : (proc ((a.course g).table T) i).remaining_burst ≤ 0 :=
    (all_processes_complete_iff _).mp hT i (by rw [Course.length_eq hv T]; exact hi0)
  rcases Course.completion_tick hv hi0 hr0 hrT with ⟨f, hfT, f1, f2, f3⟩
  rcases Course.wait_completed hv (show f + 1 ≤ T by omega) hi0 hfr harr f1 f2 with
    ⟨_, haf, _, hwait⟩
  have hcount := Course.waiting_count hv (f + 1) hi0
  have hexec := Course.executed_eq hv (f + 1) hi0
  have hst := Course.static hv T hi0
  rw [f2, hfr.1] at hexec
  simp only [a.state_processes]
  rw [a.table_zero] at hwait harr haf hcount hexec hst
  have hTmax : (T : Int) ≤ INT_MAX := hint.1
  have hrep : reported_turnaround (proc ((a.course g).table T) i) =
      (f : Int) + 1 - (proc g.processes i).arrival_time := by
    unfold reported_turnaround
    rw [hwait, hst.2.1]
    omega
  refine ⟨f, hfT, f1, f2, f3, ?_, hwait, hrep, ?_, ?_⟩
  · rw [hwait]
    push_cast at hcount
    omega
  · rw [hrep]; omega
  · rw [hrep]; omega

theorem wait_time_counts_ticks_not_executed_witness :
    ∃ T, (∀ fuel, T < fuel →
        (Algorithm.round_robin 2).run fuel
            (loaded [loaded_process 1 0 5, loaded_process 2 1 3]) =
          some ((Algorithm.round_robin 2).state
            (loaded [loaded_process 1 0 5, loaded_process 2 1 3]) T)) ∧
      (Algorithm.round_robin 2).within_int
        (loaded [loaded_process 1 0 5, loaded_process 2 1 3]) T ∧
      ∀ i, i < (loaded [loaded_process 1 0 5, loaded_process 2 1 3]).processes.length →
        ∃ f, f < T ∧
          0 < (proc ((Algorithm.round_robin 2).state
            (loaded [loaded_process 1 0 5, loaded_process 2 1 3]) f).processes
              i).remaining_burst ∧
          (proc ((Algorithm.round_robin 2).state
            (loaded [loaded_process 1 0 5, loaded_process 2 1 3]) (f + 1)).processes
              i).remaining_burst = 0 ∧
          (∀ f', 0 < (proc ((Algorithm.round_robin 2).state
              (loaded [loaded_process 1 0 5, loaded_process 2 1 3]) f').processes
                i).remaining_burst →
            (proc ((Algorithm.round_robin 2).state
              (loaded [loaded_process 1 0 5, loaded_process 2 1 3]) (f' + 1)).processes
                i).remaining_burst = 0 → f' = f) ∧
          (proc ((Algorithm.round_robin 2).state
            (loaded [loaded_process 1 0 5, loaded_process 2 1 3]) T).processes i).wait_time =
            (((Algorithm.round_robin 2).course
              (loaded [loaded_process 1 0 5, loaded_process 2 1 3])).waited i
                (proc (loaded [loaded_process 1 0 5, loaded_process 2 1 3]).processes
                  i).arrival_time (f + 1) : Int) ∧
          (proc ((Algorithm.round_robin 2).state
            (loaded [loaded_process 1 0 5, loaded_process 2 1 3]) T).processes i).wait_time =
            (f : Int) + 1 -
              (proc (loaded [loaded_process 1 0 5, loaded_process 2 1 3]).processes
                i).arrival_time -
              (proc (loaded [loaded_process 1 0 5, loaded_process 2 1 3]).processes
                i).burst_time ∧
          reported_turnaround (proc ((Algorithm.round_robin 2).state
            (loaded [loaded_process 1 0 5, loaded_process 2 1 3]) T).processes i) =
            (f : Int) + 1 -
              (proc (loaded [loaded_process 1 0 5, loaded_process 2 1 3]).processes
                i).arrival_time ∧
          0 ≤ reported_turnaround (proc ((Algorithm.round_robin 2).state
            (loaded [loaded_process 1 0 5, loaded_process 2 1 3]) T).processes i) ∧
          reported_turnaround (proc ((Algorithm.round_robin 2).state
            (loaded [loaded_process 1 0 5, loaded_process 2 1 3]) T).processes i) ≤
              INT_MAX :=
  wait_time_counts_ticks_not_executed (Algorithm.round_robin 2)
    (by show (1 : Int) ≤ 2; decide)
    (loaded [loaded_process 1 0 5, loaded_process 2 1 3]) ⟨by decide, by decide⟩
    (by decide) (by decide) (by decide)

/-- C3: for each algorithm (quantum at least 1) and every freshly loaded table of at most
`MAX_PROCESSES` processes with no negative burst and no negative arrival time, late
arrivals and idle gaps included, whose largest arrival time plus sum of burst times is at
most `INT_MAX` (so that the clock stays within `int`), the loop ends: it reaches
`all_processes_complete` for the first time after `T` ticks, where `T` is at most the
largest arrival time plus the sum of the burst times, and exactly the sum of the burst
times many of these ticks execute a process; up to tick `T` the run stays within `int`. -/
theorem loop_ends_within_bound (a : Algorithm) (ha : a.admissible)
    (g : Globals) (hw : WellFormed g) (hfresh : ∀ p, p ∈ g.processes → fresh p)
    (hin : ∀ p, p ∈ g.processes → 0 ≤ p.burst_time ∧ 0 ≤ p.arrival_time)
    (hrange : (max_arrival g.processes : Int) + total_burst g.processes ≤ INT_MAX) :
    ∃ T : Nat, (T : Int) ≤ (max_arrival g.processes : Int) + total_burst g.processes ∧
      (∀ fuel, T < fuel → a.run fuel g = some (a.state g T)) ∧
      (∀ fuel, fuel ≤ T → a.run fuel g = none) ∧
      (a.state g T).current_time = (T : Int) ∧
      all_processes_complete (a.state g T).processes = true ∧
      (∀ n, n < T → all_processes_complete (a.state g n).processes = false) ∧
      ((a.course g).busy T : Int) = total_burst g.processes ∧
      a.within_int g T := by
  have hv := a.course_valid ha hw (fun p hp => (hfresh p hp).2.2.2.2)
    (fun p hp => (hin p hp).2)
  have h0 : ∀ i, i < ((a.course g).table 0).length →
      0 ≤ (proc ((a.course g).table 0) i).remaining_burst := by
    intro i hi
    rw [a.table_zero] at hi ⊢
    have hp := proc_mem hi
    rw [(hfresh _ hp).1]
    exact (hin _ hp).1
  rcases Course.first_complete hv h0 with ⟨T, hle, hT, hlt, hbusy⟩
  rw [a.table_zero, total_remaining_of_fresh hfresh] at hle hbusy
  have hnn : 0 ≤ total_burst g.processes := by rw [← hbusy]; exact Int.ofNat_nonneg _
  have hTle : (T : Int) ≤ (max_arrival g.processes : Int) + total_burst g.processes := by
    omega
  refine ⟨T, hTle, fun fuel hf => a.run_eq g T hlt hT fuel hf,
    fun fuel hf => a.run_none g fuel (fun n hn => hlt n (by omega)), a.state_time g T,
    by rw [a.state_processes]; exact hT,
    fun n hn => by rw [a.state_processes]; exact hlt n hn, hbusy,
    a.within_int_of_valid hv hfresh (fun p hp => (hin p hp).1) hrange T hTle⟩

theorem loop_ends_within_bound_witness :
    ∃ T : Nat,
      (T : Int) ≤ (max_arrival
          (loaded [loaded_process 1 0 0, loaded_process 2 4 3]).processes : Int) +
        total_burst (loaded [loaded_process 1 0 0, loaded_process 2 4 3]).processes ∧
      (∀ fuel, T < fuel →
        (Algorithm.round_robin 2).run fuel
            (loaded [loaded_process 1 0 0, loaded_process 2 4 3]) =
          some ((Algorithm.round_robin 2).state
            (loaded [loaded_process 1 0 0, loaded_process 2 4 3]) T)) ∧
      (∀ fuel, fuel ≤ T →
        (Algorithm.round_robin 2).run fuel
          (loaded [loaded_process 1 0 0, loaded_process 2 4 3]) = none) ∧
      ((Algorithm.round_robin 2).state
        (loaded [loaded_process 1 0 0, loaded_process 2 4 3]) T).current_time = (T : Int) ∧
      all_processes_complete ((Algorithm.round_robin 2).state
        (loaded [loaded_process 1 0 0, loaded_process 2 4 3]) T).processes = true ∧
      (∀ n, n < T → all_processes_complete ((Algorithm.round_robin 2).state
        (loaded [loaded_process 1 0 0, loaded_process 2 4 3]) n).processes = false) ∧
      (((Algorithm.round_robin 2).course
        (loaded [loaded_process 1 0 0, loaded_process 2 4 3])).busy T : Int) =
        total_burst (loaded [loaded_process 1 0 0, loaded_process 2 4 3]).processes ∧
      (Algorithm.round_robin 2).within_int
        (loaded [loaded_process 1 0 0, loaded_process 2 4 3]) T :=
  loop_ends_within_bound (Algorithm.round_robin 2) (by show (1 : Int) ≤ 2; decide)
    (loaded [loaded_process 1 0 0, loaded_process 2 4 3]) ⟨by decide, by decide⟩
    (by decide) (by decide) (by decide)

end claims_1_3

section fcfs_order

theorem fcfs_course_table (ps : List Process) (n : Nat) :
    (Algorithm.fcfs.course (loaded ps)).table n = (fcfs_state ps n).processes := rfl

theorem fcfs_course_sel (ps : List Process) (n : Nat) :
    (Algorithm.fcfs.course (loaded ps)).sel n = fcfs_selected ps n := rfl

/-- The pointer that `fcfs` selects at tick `n`, in terms of the table at that tick. -/
theorem fcfs_selected_iff (ps : List Process) (n i : Nat) :
    fcfs_selected ps n = some i ↔
      i < ps.length ∧ eligible (n : Int) (proc (fcfs_state ps n).processes i) ∧
        ∀ j, j < i → ¬ eligible (n : Int) (proc (fcfs_state ps n).processes j) := by
  have hv := fcfs_course_valid (loaded ps)
  have hlen : (fcfs_state ps n).processes.length = ps.length := Course.length_eq hv n
  unfold fcfs_selected
  rw [fcfs_state_time]
  rcases get_next_arrived_process_spec (n : Int) (fcfs_state ps n).processes with
    ⟨h1, h2⟩ | ⟨c, hc, h1, h2, h3⟩
  · rw [h1]
    constructor
    · intro h; exact Option.noConfusion h
    · rintro ⟨a, b, _⟩
      exact absurd b (h2 i (by rw [hlen]; exact a))
  · rw [h1]
    constructor
    · intro h
      have e := Option.some.inj h
      subst e
      exact ⟨by rw [← hlen]; exact hc, h2, h3⟩
    · rintro ⟨_, b, d⟩
      congr 1
      rcases Nat.lt_trichotomy c i with h | h | h
      · exact absurd h2 (d c h)
      · exact h
      · exact absurd b (h3 i h)

theorem fcfs_reselects (ps : List Process) (t k i : Nat)
    (hsel : fcfs_selected ps t = some i)
    (hord : ∀ j, j < i → (proc ps j).arrival_time ≤ (proc ps i).arrival_time)
    (hrem : 0 < (proc (fcfs_state ps (t + k)).processes i).remaining_burst) :
    fcfs_selected ps (t + k) = some i := by
  have hv := fcfs_course_valid (loaded ps)
  rcases (fcfs_selected_iff ps t i).mp hsel with ⟨hi, he, hbefore⟩
  have hi0 : i < ((Algorithm.fcfs.course (loaded ps)).table 0).length := hi
  rw [fcfs_selected_iff]
  have hsi := Course.static hv t hi0
  have hsi' := Course.static hv (t + k) hi0
  simp only [fcfs_course_table] at hsi hsi'
  refine ⟨hi, ⟨?_, hrem⟩, ?_⟩
  · have := he.1
    rw [hsi'.2.2.1, ← hsi.2.2.1]
    push_cast
    omega
  · intro j hj hej
    have hj0 : j < ((Algorithm.fcfs.course (loaded ps)).table 0).length :=
      lt_trans hj hi
    have hsj := Course.static hv t hj0
    have hanti := Course.remaining_antitone hv (Nat.le_add_right t k) hj0
    simp only [fcfs_course_table] at hsj hanti
    have hord' := hord j hj
    have hz : (fcfs_state ps 0).processes = ps := rfl
    rw [hz] at hsj hsi
    apply hbefore j hj
    refine ⟨?_, ?_⟩
    · have := he.1
      rw [hsj.2.2.1]
      rw [hsi.2.2.1] at this
      omega
    · have := hej.2
      omega

end fcfs_order

section claim_4

/-- C4 (counterexample): on the table `P1` (arrival 1, burst 1), `P0` (arrival 0, burst 2),
loaded in that order, `fcfs` selects the second process at tick 0 and, although that
process still has remaining burst 1, selects the first process at tick 1. -/
theorem fcfs_preempts_for_earlier_loaded_late_arrival :
    fcfs_selected [loaded_process 1 1 1, loaded_process 0 0 2] 0 = some 1 ∧
    (proc (fcfs_state [loaded_process 1 1 1, loaded_process 0 0 2] 1).processes
      1).remaining_burst = 1 ∧
    fcfs_selected [loaded_process 1 1 1, loaded_process 0 0 2] 1 = some 0 := by
  decide

/-- C4 (amended): once `fcfs` has selected the process at index `i` at tick `t`, and no
process earlier in load order has a later arrival time than it (as is the case when
arrival times are non-decreasing in load order), `fcfs` selects that same process at
every later tick `t + k` at which its remaining burst is still positive. -/
theorem fcfs_keeps_selected_process (ps : List Process) (t k i : Nat)
    (hsel : fcfs_selected ps t = some i)
    (hord : ∀ j, j < i → (proc ps j).arrival_time ≤ (proc ps i).arrival_time)
    (hrem : 0 < (proc (fcfs_state ps (t + k)).processes i).remaining_burst) :
    fcfs_selected ps (t + k) = some i :=
  fcfs_reselects ps t k i hsel hord hrem

theorem fcfs_keeps_selected_process_witness :
    fcfs_selected [loaded_process 1 1 5, loaded_process 2 2 3] (1 + 3) = some 0 :=
  fcfs_keeps_selected_process [loaded_process 1 1 5, loaded_process 2 2 3] 1 3 0
    (by decide) (by decide) (by decide)

end claim_4

section fcfs_start

variable {ps : List Process}

theorem fcfs_start_ge_arrival (ps : List Process) (i : Nat) :
    (proc ps i).arrival_time ≤ fcfs_start ps i := by
  cases i with
  | zero => exact le_refl _
  | succ i => unfold fcfs_start; exact le_max_left _ _

theorem fcfs_start_succ_ge (ps : List Process) (i : Nat) :
    fcfs_start ps i + (proc ps i).burst_time ≤ fcfs_start ps (i + 1) := by
  show _ ≤ max _ _
  exact le_max_right _ _

theorem fcfs_start_mono (hb : ∀ p, p ∈ ps → 1 ≤ p.burst_time) {j i : Nat} (hji : j < i)
    (hi : i < ps.length) : fcfs_start ps j + (proc ps j).burst_time ≤ fcfs_start ps i := by
  induction i with
  | zero => omega
  | succ i ih =>
    rcases Nat.lt_succ_iff_lt_or_eq.mp hji with h | h
    · have h1 := ih h (by omega)
      have h2 := fcfs_start_succ_ge ps i
      have h3 := hb _ (proc_mem (show i < ps.length by omega))
      omega
    · subst h; exact fcfs_start_succ_ge ps j

/-- Under FCFS on a table with arrival times in load order, the remaining burst of each
process at tick `n` is its burst time minus the part of `[start_i, n)` that lies within
its `burst_time` ticks. -/
theorem fcfs_remaining_formula (hf : ∀ p, p ∈ ps → fresh p)
    (hb : ∀ p, p ∈ ps → 1 ≤ p.burst_time) (ha : ∀ p, p ∈ ps → 0 ≤ p.arrival_time)
    (hs : ∀ i j, i ≤ j → j < ps.length → (proc ps i).arrival_time ≤ (proc ps j).arrival_time)
    (n : Nat) :
    ∀ i, i < ps.length →
      (proc (fcfs_state ps n).processes i).remaining_burst =
        (proc ps i).burst_time -
          min (proc ps i).burst_time (max 0 ((n : Int) - fcfs_start ps i)) ∧
      (fcfs_selected ps n = some i ↔
        fcfs_start ps i ≤ (n : Int) ∧ (n : Int) < fcfs_start ps i + (proc ps i).burst_time) := by
  have hv := fcfs_course_valid (loaded ps)
  have hz : (fcfs_state ps 0).processes = ps := rfl
  have hstat : ∀ m i, i < ps.length →
      (proc (fcfs_state ps m).processes i).arrival_time = (proc ps i).arrival_time := by
    intro m i hi
    have := (Course.static hv m (i := i) hi).2.2.1
    simpa only [fcfs_course_table, hz] using this
  -- the selection at a tick, from the formula at that tick
  have hsel : ∀ m, (∀ i, i < ps.length →
      (proc (fcfs_state ps m).processes i).remaining_burst =
        (proc ps i).burst_time -
          min (proc ps i).burst_time (max 0 ((m : Int) - fcfs_start ps i))) →
      ∀ i, i < ps.length → (fcfs_selected ps m = some i ↔
        fcfs_start ps i ≤ (m : Int) ∧
          (m : Int) < fcfs_start ps i + (proc ps i).burst_time) := by
    intro m hm i hi
    rw [fcfs_selected_iff]
    have hbi := hb _ (proc_mem hi)
    have hai := fcfs_start_ge_arrival ps i
    constructor
    · rintro ⟨_, ⟨he1, he2⟩, hbefore⟩
      rw [hstat m i hi] at he1
      rw [hm i hi] at he2
      refine ⟨?_, by omega⟩
      cases i with
      | zero => exact he1
      | succ i' =>
        have hi' : i' < ps.length := by omega
        have hne := hbefore i' (by omega)
        have hbi' := hb _ (proc_mem hi')
        have hord := hs i' (i' + 1) (by omega) hi
        have hr' : ¬ 0 < (proc (fcfs_state ps m).processes i').remaining_burst := by
          intro hpos
          exact hne ⟨by rw [hstat m i' hi']; omega, hpos⟩
        rw [hm i' hi'] at hr'
        show max _ _ ≤ _
        apply max_le he1
        omega
    · rintro ⟨h1, h2⟩
      refine ⟨hi, ⟨by rw [hstat m i hi]; omega, by rw [hm i hi]; omega⟩, ?_⟩
      intro j hj hej
      have hmono := fcfs_start_mono hb hj hi
      have hbj := hb _ (proc_mem (show j < ps.length by omega))
      have := hej.2
      rw [hm j (by omega)] at this
      omega
  induction n with
  | zero =>
    have h0 : ∀ i, i < ps.length →
        (proc (fcfs_state ps 0).processes i).remaining_burst =
          (proc ps i).burst_time -
            min (proc ps i).burst_time (max 0 (((0 : Nat) : Int) - fcfs_start ps i)) := by
      intro i hi
      rw [hz, (hf _ (proc_mem hi)).1]
      have := fcfs_start_ge_arrival ps i
      have hb0 := hb _ (proc_mem hi)
      have hnn := ha _ (proc_mem hi)
      push_cast
      omega
    exact fun i hi => ⟨h0 i hi, hsel 0 h0 i hi⟩
  | succ n ih =>
    have hn1 : ∀ i, i < ps.length →
        (proc (fcfs_state ps (n + 1)).processes i).remaining_burst =
          (proc ps i).burst_time -
            min (proc ps i).burst_time (max 0 (((n + 1 : Nat) : Int) - fcfs_start ps i)) := by
      intro i hi
      have hstep := (Course.step hv n (i := i) hi).remaining_eq
      simp only [fcfs_course_table, fcfs_course_sel] at hstep
      rw [hstep, (ih i hi).1]
      have hb0 := hb _ (proc_mem hi)
      by_cases hsi : fcfs_selected ps n = some i
      · rw [if_pos hsi]
        have := (ih i hi).2.mp hsi
        push_cast
        omega
      · rw [if_neg hsi]
        have : ¬ (fcfs_start ps i ≤ (n : Int) ∧
            (n : Int) < fcfs_start ps i + (proc ps i).burst_time) :=
          fun h => hsi ((ih i hi).2.mpr h)
        push_cast
        omega
    exact fun i hi => ⟨hn1 i hi, hsel (n + 1) hn1 i hi⟩

end fcfs_start

section claim_5

/-- C5: for every freshly loaded table whose arrival times are non-negative and
non-decreasing in load order, whose burst times are at least 1 and whose largest arrival
time plus sum of burst times is at most `INT_MAX` (so that the clock stays within `int`),
the loop of `fcfs` ends after some `T` ticks within `int`, and in this run the process at
index `i` is executed exactly on the `burst_time_i` consecutive ticks from `start_i` on,
all of them before `T`, where `start_0 = arrival_time_0` and
`start_i = max(arrival_time_i, start_{i-1} + burst_time_{i-1})`, so the processes run in
load order, and the loop ends with `wait_time_i = start_i - arrival_time_i`. On
`P1` (arrival 1, burst 5), `P2` (arrival 2, burst 3) this gives `P1` on ticks 1-5, `P2` on
ticks 6-8 and the wait times 0 and 4. -/
theorem fcfs_runs_in_load_order (ps : List Process) (hf : ∀ p, p ∈ ps → fresh p)
    (hin : ∀ p, p ∈ ps → 1 ≤ p.burst_time ∧ 0 ≤ p.arrival_time)
    (hs : ∀ j, j < ps.length → ∀ i, i ≤ j →
      (proc ps i).arrival_time ≤ (proc ps j).arrival_time)
    (hrange : (max_arrival ps : Int) + total_burst ps ≤ INT_MAX) :
    (∃ T, (∀ fuel, T < fuel → fcfs fuel ps = some (fcfs_state ps T)) ∧
      Algorithm.fcfs.within_int (loaded ps) T ∧
      ∀ i, i < ps.length →
        0 ≤ fcfs_start ps i ∧
        fcfs_start ps i + (proc ps i).burst_time ≤ (T : Int) ∧
        (∀ t : Nat, t < T →
          (fcfs_selected ps t = some i ↔
            fcfs_start ps i ≤ (t : Int) ∧
              (t : Int) < fcfs_start ps i + (proc ps i).burst_time)) ∧
        (proc (fcfs_state ps T).processes i).wait_time =
          fcfs_start ps i - (proc ps i).arrival_time) ∧
    (∀ i, i + 1 < ps.length →
      fcfs_start ps i + (proc ps i).burst_time ≤ fcfs_start ps (i + 1)) ∧
    schedule_of (fcfs 10 [loaded_process 1 1 5, loaded_process 2 2 3]) =
      some [(1, 1), (2, 1), (3, 1), (4, 1), (5, 1), (6, 2), (7, 2), (8, 2)] ∧
    (fcfs 10 [loaded_process 1 1 5, loaded_process 2 2 3]).map
      (fun s => s.processes.map (fun p => p.wait_time)) = some [0, 4] := by
  have hb : ∀ p, p ∈ ps → 1 ≤ p.burst_time := fun p hp => (hin p hp).1
  have hb0 : ∀ p, p ∈ ps → 0 ≤ p.burst_time := fun p hp => by
    have := hb p hp
    omega
  have ha : ∀ p, p ∈ ps → 0 ≤ p.arrival_time := fun p hp => (hin p hp).2
  have hs' : ∀ i j, i ≤ j → j < ps.length →
      (proc ps i).arrival_time ≤ (proc ps j).arrival_time := fun i j hij hj => hs j hj i hij
  have hform := fcfs_remaining_formula hf hb ha hs'
  have hv := fcfs_course_valid (loaded ps)
  have hz : (fcfs_state ps 0).processes = ps := rfl
  refine ⟨?_, fun i _ => fcfs_start_succ_ge ps i, by decide, by decide⟩
  have h0 : ∀ i, i < ((Algorithm.fcfs.course (loaded ps)).table 0).length →
      0 ≤ (proc ((Algorithm.fcfs.course (loaded ps)).table 0) i).remaining_burst := by
    intro i hi
    have hi : i < ps.length := hi
    show 0 ≤ (proc ps i).remaining_burst
    rw [(hf _ (proc_mem hi)).1]
    exact hb0 _ (proc_mem hi)
  rcases Course.first_complete hv h0 with ⟨T, hle, hT, hlt, _⟩
  have hle : T ≤ max_arrival ps + (total_remaining ps).toNat := hle
  rw [total_remaining_of_fresh hf] at hle
  have hnn := total_burst_nonneg hb0
  have hTle : (T : Int) ≤ (max_arrival ps : Int) + total_burst ps := by omega
  have hint : Algorithm.fcfs.within_int (loaded ps) T :=
    Algorithm.fcfs.within_int_of_valid hv hf hb0 hrange T hTle
  refine ⟨T, fun fuel hfu => Algorithm.fcfs.run_eq (loaded ps) T hlt hT fuel hfu, hint, ?_⟩
  intro i hi
  have hbi := hb _ (proc_mem hi)
  have hai := ha _ (proc_mem hi)
  have hsa := fcfs_start_ge_arrival ps i
  obtain ⟨f, hfeq⟩ : ∃ f : Nat, (f : Int) = fcfs_start ps i + (proc ps i).burst_time - 1 :=
    ⟨(fcfs_start ps i + (proc ps i).burst_time - 1).toNat, by omega⟩
  have h1 : 0 < (proc (fcfs_state ps f).processes i).remaining_burst := by
    rw [(hform f i hi).1]; omega
  have h2 : (proc (fcfs_state ps (f + 1)).processes i).remaining_burst = 0 := by
    rw [(hform (f + 1) i hi).1]; push_cast; omega
  have hfT : f + 1 ≤ T := by
    by_contra hcon
    have hc := Course.complete_mono hv (show T ≤ f by omega) hT
    have := (all_processes_complete_iff _).mp hc i
      (by rw [Course.length_eq hv f]; exact hi)
    rw [fcfs_course_table] at this
    omega
  have hw := (Course.wait_completed hv hfT (i := i) hi (hf _ (proc_mem hi)) hai h1 h2).2.2.2
  simp only [fcfs_course_table, hz] at hw
  refine ⟨by omega, by omega, fun t _ => (hform t i hi).2, ?_⟩
  rw [hw]
  omega

theorem fcfs_runs_in_load_order_witness :
    (∃ T, (∀ fuel, T < fuel →
        fcfs fuel [loaded_process 1 1 5, loaded_process 2 2 3] =
          some (fcfs_state [loaded_process 1 1 5, loaded_process 2 2 3] T)) ∧
      Algorithm.fcfs.within_int (loaded [loaded_process 1 1 5, loaded_process 2 2 3]) T ∧
      ∀ i, i < [loaded_process 1 1 5, loaded_process 2 2 3].length →
        0 ≤ fcfs_start [loaded_process 1 1 5, loaded_process 2 2 3] i ∧
        fcfs_start [loaded_process 1 1 5, loaded_process 2 2 3] i +
          (proc [loaded_process 1 1 5, loaded_process 2 2 3] i).burst_time ≤ (T : Int) ∧
        (∀ t : Nat, t < T →
          (fcfs_selected [loaded_process 1 1 5, loaded_process 2 2 3] t = some i ↔
            fcfs_start [loaded_process 1 1 5, loaded_process 2 2 3] i ≤ (t : Int) ∧
              (t : Int) < fcfs_start [loaded_process 1 1 5, loaded_process 2 2 3] i +
                (proc [loaded_process 1 1 5, loaded_process 2 2 3] i).burst_time)) ∧
        (proc (fcfs_state [loaded_process 1 1 5, loaded_process 2 2 3] T).processes
            i).wait_time =
          fcfs_start [loaded_process 1 1 5, loaded_process 2 2 3] i -
            (proc [loaded_process 1 1 5, loaded_process 2 2 3] i).arrival_time) ∧
    fcfs_start [loaded_process 1 1 5, loaded_process 2 2 3] 0 = 1 ∧
    fcfs_start [loaded_process 1 1 5, loaded_process 2 2 3] 1 = 6 :=
  ⟨(fcfs_runs_in_load_order [loaded_process 1 1 5, loaded_process 2 2 3]
      (by decide) (by decide) (by decide) (by decide)).1, by decide, by decide⟩

end claim_5

section claims_6_7

theorem sjf_selected_eq (tbl : List Process) (n : Nat) :
    sjf_selected tbl n = get_shortest_job (n : Int) (sjf_state tbl n).processes := by
  unfold sjf_selected
  rw [sjf_state_time]

theorem sjf_course_table (ps : List Process) (n : Nat) :
    (Algorithm.sjf.course (loaded ps)).table n = (sjf_state ps n).processes := rfl

theorem sjf_course_sel (ps : List Process) (n : Nat) :
    (Algorithm.sjf.course (loaded ps)).sel n = sjf_selected ps n := rfl

/-- The contract of `get_shortest_job`, as an equivalence for each possible result. -/
theorem get_shortest_job_iff (t : Int) (ps : List Process) :
    (get_shortest_job t ps = none ↔ ∀ j, j < ps.length → ¬ eligible t (proc ps j)) ∧
    (∀ c, get_shortest_job t ps = some c ↔
      c < ps.length ∧ eligible t (proc ps c) ∧
      (∀ j, j < ps.length → eligible t (proc ps j) →
        (proc ps c).remaining_burst ≤ (proc ps j).remaining_burst) ∧
      (∀ j, j < c → eligible t (proc ps j) →
        (proc ps c).remaining_burst < (proc ps j).remaining_burst)) := by
  rcases get_shortest_job_spec t ps with ⟨h1, h2⟩ | ⟨c, hc, h1, h2, h3, h4⟩
  · rw [h1]
    refine ⟨⟨fun _ => h2, fun _ => rfl⟩, fun c => ⟨fun h => Option.noConfusion h, ?_⟩⟩
    rintro ⟨a, b, _⟩
    exact absurd b (h2 c a)
  · rw [h1]
    refine ⟨⟨fun h => Option.noConfusion h, fun h => absurd h2 (h c hc)⟩, fun c' => ⟨?_, ?_⟩⟩
    · intro h
      have e := Option.some.inj h
      subst e
      exact ⟨hc, h2, h3, h4⟩
    · rintro ⟨a, b, d, e⟩
      congr 1
      rcases Nat.lt_trichotomy c c' with h | h | h
      · have := e c h h2
        have := h3 c' a b
        omega
      · exact h
      · have := h4 c' h b
        have := d c hc h2
        omega

/-- C6 (counterexample): on the table `P1` (arrival 0, burst 8), `P2` (arrival 3, burst 2),
`P3` (arrival 3, burst 1), the process `P1` runs at tick 2 and has remaining burst 5 at
tick 3; `P2` arrives at tick 3 with the smaller remaining burst 2, but `sjf` executes
`P3` at tick 3 and `P2` is left with remaining burst 2. -/
theorem sjf_arrival_with_shorter_burst_not_executed :
    sjf_selected [loaded_process 1 0 8, loaded_process 2 3 2, loaded_process 3 3 1] 2 = some 0 ∧
    (proc (sjf_state [loaded_process 1 0 8, loaded_process 2 3 2, loaded_process 3 3 1]
      3).processes 0).remaining_burst = 5 ∧
    (proc (sjf_state [loaded_process 1 0 8, loaded_process 2 3 2, loaded_process 3 3 1]
      3).processes 1).arrival_time = 3 ∧
    (proc (sjf_state [loaded_process 1 0 8, loaded_process 2 3 2, loaded_process 3 3 1]
      3).processes 1).remaining_burst = 2 ∧
    sjf_selected [loaded_process 1 0 8, loaded_process 2 3 2, loaded_process 3 3 1] 3 = some 2 ∧
    (proc (sjf_state [loaded_process 1 0 8, loaded_process 2 3 2, loaded_process 3 3 1]
      4).processes 1).remaining_burst = 2 := by
  decide

/-- C6 (amended): at every tick `n` of `sjf` the selected pointer is
`get_shortest_job` of the table at that tick; `get_shortest_job` returns `NULL` iff no
process is eligible, and otherwise an eligible process whose remaining burst is minimal
among the eligible processes, the earliest in load order among those of minimal remaining
burst. Consequently a process that arrives at tick `n` with a remaining burst smaller than
that of every other eligible process (the running one included) is executed at tick `n`. -/
theorem sjf_selects_shortest_remaining (tbl : List Process) (n : Nat) (ps : List Process)
    (t : Int) :
    sjf_selected tbl n = get_shortest_job (n : Int) (sjf_state tbl n).processes ∧
    (get_shortest_job t ps = none ↔ ∀ j, j < ps.length → ¬ eligible t (proc ps j)) ∧
    (∀ c, get_shortest_job t ps = some c →
      c < ps.length ∧ eligible t (proc ps c) ∧
      (∀ j, j < ps.length → eligible t (proc ps j) →
        (proc ps c).remaining_burst ≤ (proc ps j).remaining_burst) ∧
      (∀ j, j < ps.length → eligible t (proc ps j) →
        (proc ps j).remaining_burst = (proc ps c).remaining_burst → c ≤ j)) ∧
    (∀ j, j < tbl.length →
      (proc (sjf_state tbl n).processes j).arrival_time = (n : Int) →
      0 < (proc (sjf_state tbl n).processes j).remaining_burst →
      (∀ k, k < tbl.length → k ≠ j → eligible (n : Int) (proc (sjf_state tbl n).processes k) →
        (proc (sjf_state tbl n).processes j).remaining_burst <
          (proc (sjf_state tbl n).processes k).remaining_burst) →
      sjf_selected tbl n = some j ∧
      (proc (sjf_state tbl (n + 1)).processes j).remaining_burst =
        (proc (sjf_state tbl n).processes j).remaining_burst - 1) := by
  refine ⟨sjf_selected_eq tbl n, (get_shortest_job_iff t ps).1, ?_, ?_⟩
  · intro c hc
    rcases ((get_shortest_job_iff t ps).2 c).mp hc with ⟨h1, h2, h3, h4⟩
    refine ⟨h1, h2, h3, fun j _ hej heq => ?_⟩
    by_contra hlt
    have := h4 j (by omega) hej
    omega
  · intro j hj harr hrem hmin
    have hv := sjf_course_valid (loaded tbl)
    have hlen : (sjf_state tbl n).processes.length = tbl.length := Course.length_eq hv n
    have hsel : sjf_selected tbl n = some j := by
      rw [sjf_selected_eq, (get_shortest_job_iff _ _).2 j]
      refine ⟨by rw [hlen]; exact hj, ⟨by rw [harr], hrem⟩, ?_, ?_⟩
      · intro k hk hek
        by_cases hkj : k = j
        · subst hkj; exact le_refl _
        · exact le_of_lt (hmin k (by rw [← hlen]; exact hk) hkj hek)
      · intro k hk hek
        exact hmin k (lt_trans hk hj) (by omega) hek
    refine ⟨hsel, ?_⟩
    have hstep := (Course.step hv n (i := j) hj).remaining_eq
    simp only [sjf_course_table, sjf_course_sel] at hstep
    rw [hstep, if_pos hsel]

theorem sjf_selects_shortest_remaining_witness :
    sjf_selected [loaded_process 1 0 8, loaded_process 2 3 2] 3 = some 1 ∧
    (proc (sjf_state [loaded_process 1 0 8, loaded_process 2 3 2] (3 + 1)).processes
      1).remaining_burst =
      (proc (sjf_state [loaded_process 1 0 8, loaded_process 2 3 2] 3).processes
        1).remaining_burst - 1 :=
  (sjf_selects_shortest_remaining [loaded_process 1 0 8, loaded_process 2 3 2] 3 [] 0).2.2.2
    1 (by decide) (by decide) (by decide) (by decide)

/-- C7 (counterexample): on the table `P1` (arrival 0, burst 8), `P2` (arrival 3, burst 2)
the loop of `sjf` ends with the clock at 10, so no process is executed at tick 10: the
last tick of `P1` is tick 9. -/
theorem sjf_example_has_no_tick_10 :
    (sjf 20 [loaded_process 1 0 8, loaded_process 2 3 2]).map (fun s => s.current_time) =
      some 10 ∧
    sjf_selected [loaded_process 1 0 8, loaded_process 2 3 2] 10 = none ∧
    (10, 1) ∉ (schedule_of (sjf 20 [loaded_process 1 0 8, loaded_process 2 3 2])).getD [] := by
  decide

/-- C7 (amended): on the table `P1` (arrival 0, burst 8), `P2` (arrival 3, burst 2), loaded
in that order, `sjf` executes `P1` on ticks 0-2, then `P2` on ticks 3-4, then `P1` on
ticks 5-9; `P2` reaches `remaining_burst = 0` with tick 4, when `P1` still has 5 left, and
`P1` reaches 0 with tick 9. -/
theorem sjf_example_schedule :
    schedule_of (sjf 11 [loaded_process 1 0 8, loaded_process 2 3 2]) =
      some [(0, 1), (1, 1), (2, 1), (3, 2), (4, 2), (5, 1), (6, 1), (7, 1), (8, 1), (9, 1)] ∧
    (sjf_state [loaded_process 1 0 8, loaded_process 2 3 2] 4).processes.map
      (fun p => p.remaining_burst) = [5, 1] ∧
    (sjf_state [loaded_process 1 0 8, loaded_process 2 3 2] 5).processes.map
      (fun p => p.remaining_burst) = [5, 0] ∧
    (sjf_state [loaded_process 1 0 8, loaded_process 2 3 2] 9).processes.map
      (fun p => p.remaining_burst) = [1, 0] ∧
    (sjf_state [loaded_process 1 0 8, loaded_process 2 3 2] 10).processes.map
      (fun p => p.remaining_burst) = [0, 0] := by
  decide

end claims_6_7

section claims_9_10

/-- C9: `enqueue(p)` appends `p` at the tail of the ready queue, increases `size` by 1 and
sets `p.in_queue` when beforehand `p.in_queue` is 0 and `p.remaining_burst > 0` (the queue
then holds the former list followed by `p`, as long as it had room); in every other case
the queue and the table are left exactly as they were. Hence `enqueue(p)` twice yields the
same state as `enqueue(p)` once. -/
theorem enqueue_contract (g : Globals) (i : Nat) (p : Process)
    (hp : g.processes[i]? = some p) :
    (p.in_queue = 0 ∧ 0 < p.remaining_burst →
      (enqueue i g).processes = g.processes.set i { p with in_queue := 1 } ∧
      (enqueue i g).ready_queue.size = g.ready_queue.size + 1 ∧
      (enqueue i g).ready_queue.front = g.ready_queue.front ∧
      (enqueue i g).ready_queue.items.getD (enqueue i g).ready_queue.rear.toNat none =
        (if (enqueue i g).ready_queue.rear.toNat < g.ready_queue.items.length then some i
         else none) ∧
      (∀ L, Represents g.ready_queue L → L.length < MAX_PROCESSES.toNat →
        Represents (enqueue i g).ready_queue (L ++ [i]))) ∧
    (¬ (p.in_queue = 0 ∧ 0 < p.remaining_burst) → enqueue i g = g) ∧
    enqueue i (enqueue i g) = enqueue i g := by
  have hi : i < g.processes.length := (List.getElem?_eq_some.mp hp).1
  refine ⟨fun hg => ?_, fun hg => ?_, ?_⟩
  · rw [enqueue_eq hp hg.1 hg.2]
    refine ⟨rfl, rfl, rfl, ?_, fun L hL hlen => enqueue_represents hL hlen i⟩
    by_cases hlt : ((g.ready_queue.rear + 1).tmod MAX_PROCESSES).toNat <
        g.ready_queue.items.length
    · simp [List.getD_eq_getElem?_getD, List.getElem?_set, hlt]
    · simp [List.getD_eq_getElem?_getD, List.getElem?_set, hlt]
  · exact enqueue_noop (fun p' hp' => by rw [hp] at hp'; cases hp'; exact hg)
  · by_cases hg : p.in_queue = 0 ∧ 0 < p.remaining_burst
    · apply enqueue_noop
      intro p' hp'
      rw [enqueue_eq hp hg.1 hg.2] at hp'
      simp only [List.getElem?_set, hi, if_true] at hp'
      cases hp'
      simp
    · have e : enqueue i g = g :=
        @enqueue_noop g i (fun p' hp' => by rw [hp] at hp'; cases hp'; exact hg)
      rw [e, e]

theorem enqueue_contract_witness :
    (enqueue 0 (loaded_with_queue [loaded_process 0 0 1])).ready_queue.size = 1 ∧
    (enqueue 0 (loaded_with_queue [loaded_process 0 0 1])).processes.map
      (fun p => p.in_queue) = [1] ∧
    enqueue 0 (enqueue 0 (loaded_with_queue [loaded_process 0 0 1])) =
      enqueue 0 (loaded_with_queue [loaded_process 0 0 1]) :=
  ⟨by decide, by decide,
    (enqueue_contract (loaded_with_queue [loaded_process 0 0 1]) 0 (loaded_process 0 0 1)
      rfl).2.2⟩

/-- C10: `dequeue` on a queue with `size` 0 (or less) returns `NULL` and leaves the queue
and every process unchanged; on a non-empty queue it returns the head element
`items[front]`, clears that process's `in_queue` flag and changes no other process
field, advances `front` and decreases `size` by exactly 1, so that a queue holding the
list `x :: L` returns `x` and holds `L` afterwards. -/
theorem dequeue_contract (g : Globals) :
    (g.ready_queue.size ≤ 0 → dequeue g = (none, g)) ∧
    (∀ i p, 0 < g.ready_queue.size →
      g.ready_queue.items.getD g.ready_queue.front.toNat none = some i →
      g.processes[i]? = some p →
      (dequeue g).1 = some i ∧
      (dequeue g).2.processes = g.processes.set i { p with in_queue := 0 } ∧
      (dequeue g).2.ready_queue.size = g.ready_queue.size - 1 ∧
      (dequeue g).2.ready_queue.front = (g.ready_queue.front + 1).tmod MAX_PROCESSES ∧
      (dequeue g).2.ready_queue.rear = g.ready_queue.rear ∧
      (dequeue g).2.ready_queue.items = g.ready_queue.items) ∧
    (∀ x L, Represents g.ready_queue (x :: L) →
      (dequeue g).1 = some x ∧ Represents (dequeue g).2.ready_queue L) := by
  refine ⟨fun h => ?_, fun i p hs hhead hp => ?_, fun x L h => ?_⟩
  · unfold dequeue; rw [if_pos h]
  · unfold dequeue
    rw [if_neg (by omega)]
    simp only [hhead, hp]
    simp
  · rcases dequeue_cons h with ⟨h1, _, h3⟩
    exact ⟨h1, h3⟩

theorem dequeue_contract_witness :
    dequeue (loaded_with_queue [loaded_process 0 0 1]) =
      (none, loaded_with_queue [loaded_process 0 0 1]) ∧
    (dequeue (enqueue 0 (loaded_with_queue [loaded_process 0 0 1]))).1 = some 0 :=
  ⟨(dequeue_contract (loaded_with_queue [loaded_process 0 0 1])).1 (by decide),
    ((dequeue_contract (enqueue 0 (loaded_with_queue [loaded_process 0 0 1]))).2.1 0
      { loaded_process 0 0 1 with in_queue := 1 } (by decide) (by decide) (by decide)).1⟩

end claims_9_10

section rr_quantum

theorem rr_switch_iff {quantum : Int} {s : RRState} {L : List Nat}
    (h : RRArrived quantum s L) :
    rr_switch quantum s = true ↔ s.current = none ∨ s.time_in_quantum = quantum := by
  unfold rr_switch
  rw [current_finished_of_curInv h.cur]
  simp

/-- One iteration of the loop of `round_robin` on the process that is current after
the first `if`. -/
theorem rr_body_current {quantum : Int} (hq : 1 ≤ quantum) {s : RRState} {L : List Nat}
    (h : RRHead quantum s L) {p : Nat}
    (hp : (rr_dispatch quantum (rr_arrive s)).current = some p) :
    0 < (proc s.globals.processes p).remaining_burst ∧
    (rr_body quantum s).time_in_quantum =
      (rr_dispatch quantum (rr_arrive s)).time_in_quantum + 1 ∧
    (proc (rr_body quantum s).globals.processes p).remaining_burst =
      (proc s.globals.processes p).remaining_burst - 1 ∧
    (rr_body quantum s).current =
      if (proc s.globals.processes p).remaining_burst - 1 = 0 then none else some p := by
  rcases rr_arrive_inv h with ⟨A, ha, hst1⟩
  rcases rr_dispatch_inv hq ha with ⟨L', hd, hst2, _, _, _, _⟩
  have hst := hst1.trans hst2
  rcases hd.cur p hp with ⟨c1, _, c3, _⟩
  have hf := unqueued_fields (hst.2 p)
  have hrem : (proc (execute_tick (rr_dispatch quantum (rr_arrive s)).current_time p
      (rr_dispatch quantum (rr_arrive s)).globals.processes) p).remaining_burst =
      (proc s.globals.processes p).remaining_burst - 1 := by
    rw [proc_execute_tick _ _ _ _ c1, (tick_process_step _ _ _ _).remaining_eq, if_pos rfl,
      hf.2.2.1]
  unfold rr_body
  rw [rr_execute_some hp]
  refine ⟨by rw [← hf.2.2.1]; exact c3, rfl, hrem, ?_⟩
  show (if current_finished _ (some p) then none else some p) = _
  unfold current_finished
  simp only [getElem?_eq_proc (show p < (execute_tick
    (rr_dispatch quantum (rr_arrive s)).current_time p
    (rr_dispatch quantum (rr_arrive s)).globals.processes).length by
      rw [execute_tick_length]; exact c1)]
  rw [hrem]
  simp

/-- After a dequeue at tick `n` that makes `p` current with remaining burst `r`, the
state `k` ticks later, for `1 ≤ k ≤ min(quantum, r)`: `p` has run `k` ticks of its
quantum and is still current unless it has finished. -/
theorem rr_quantum_progress {quantum : Int} (hq : 1 ≤ quantum) {g : Globals}
    (hw : WellFormed g) (hflag : ∀ p, p ∈ g.processes → p.in_queue = 0)
    (harr : ∀ p, p ∈ g.processes → 0 ≤ p.arrival_time) {n p : Nat}
    (hsw : rr_switch quantum (rr_arrive (rr_state quantum g n)) = true)
    (hsel : rr_selected quantum g n = some p) (k : Nat) (hk1 : 1 ≤ k)
    (hk2 : (k : Int) ≤ min quantum (proc (rr_state quantum g n).globals.processes p).remaining_burst) :
    (rr_state quantum g (n + k)).time_in_quantum = (k : Int) ∧
    (proc (rr_state quantum g (n + k)).globals.processes p).remaining_burst =
      (proc (rr_state quantum g n).globals.processes p).remaining_burst - (k : Int) ∧
    (rr_state quantum g (n + k)).current =
      if (proc (rr_state quantum g n).globals.processes p).remaining_burst - (k : Int) = 0
      then none else some p := by
  induction k, hk1 using Nat.le_induction with
  | base =>
    rcases rr_state_inv hq hw hflag harr n with ⟨L, hL⟩
    rcases rr_arrive_inv hL with ⟨A, ha, _⟩
    rcases rr_dispatch_inv hq ha with ⟨_, _, _, _, _, _, hsw'⟩
    have h0 := (hsw' hsw).1
    rcases rr_body_current hq hL hsel with ⟨_, b1, b2, b3⟩
    rw [rr_state_succ]
    refine ⟨by rw [b1, h0]; rfl, by rw [b2]; rfl, by rw [b3]; rfl⟩
  | succ k hk1 ih =>
    rcases ih (by push_cast at hk2; omega) with ⟨i1, i2, i3⟩
    have hkq : (k : Int) < quantum := by push_cast at hk2; omega
    have hkr : (k : Int) < (proc (rr_state quantum g n).globals.processes p).remaining_burst := by
      push_cast at hk2; omega
    rw [if_neg (by omega)] at i3
    rcases rr_state_inv hq hw hflag harr (n + k) with ⟨L, hL⟩
    rcases rr_arrive_inv hL with ⟨A, ha, _⟩
    have hns : rr_switch quantum (rr_arrive (rr_state quantum g (n + k))) = false := by
      cases hc : rr_switch quantum (rr_arrive (rr_state quantum g (n + k))) with
      | false => rfl
      | true =>
        rcases (rr_switch_iff ha).mp hc with h | h
        · have h : (rr_state quantum g (n + k)).current = none := h
          rw [i3] at h; exact Option.noConfusion h
        · have h : (rr_state quantum g (n + k)).time_in_quantum = quantum := h
          omega
    have hkeep := rr_dispatch_keep hns
    have hcur : (rr_dispatch quantum (rr_arrive (rr_state quantum g (n + k)))).current =
        some p := by rw [hkeep]; exact i3
    rcases rr_body_current hq hL hcur with ⟨_, b1, b2, b3⟩
    rw [hkeep] at b1
    have b1' : (rr_body quantum (rr_state quantum g (n + k))).time_in_quantum =
        (rr_state quantum g (n + k)).time_in_quantum + 1 := b1
    rw [← Nat.add_assoc, rr_state_succ]
    refine ⟨by rw [b1', i1]; push_cast; rfl, by rw [b2, i2]; push_cast; omega, ?_⟩
    rw [b3, i2]
    push_cast
    have e : (proc (rr_state quantum g n).globals.processes p).remaining_burst - (k : Int) - 1 =
        (proc (rr_state quantum g n).globals.processes p).remaining_burst - ((k : Int) + 1) := by
      omega
    rw [e]

end rr_quantum

section claim_8

/-- C8: in `round_robin` with quantum at least 1, started on well-formed globals with no
process queued and no negative arrival time: `time_in_quantum` stays between 0 and the
quantum; when a dequeue at tick `n` makes `p` current with remaining burst `r`, then `p` is
executed on the `min(quantum, r)` ticks from `n` on, no dequeue takes place on the ticks
in between, and the next dequeue takes place at tick `n + min(quantum, r)` (if the loop
is still running); and when the current process `p` has used up its quantum it is
unfinished and is put behind everything in the queue, the arrivals of that tick included,
and the head of the resulting queue becomes current. On quantum 2 with `P1` (arrival 0,
burst 5), `P2` (arrival 1, burst 3) this gives `P1` on ticks 0-1, `P2` on 2-3, `P1` on
4-5, `P2` on 6 and `P1` on 7. -/
theorem round_robin_quantum_rotation (quantum : Int) (hq : 1 ≤ quantum) (g : Globals)
    (hw : WellFormed g) (hflag : ∀ p, p ∈ g.processes → p.in_queue = 0)
    (harr : ∀ p, p ∈ g.processes → 0 ≤ p.arrival_time) :
    (∀ n, 0 ≤ (rr_state quantum g n).time_in_quantum ∧
      (rr_state quantum g n).time_in_quantum ≤ quantum ∧
      (rr_dispatch quantum (rr_arrive (rr_state quantum g n))).time_in_quantum < quantum) ∧
    (∀ n p, rr_switch quantum (rr_arrive (rr_state quantum g n)) = true →
      rr_selected quantum g n = some p →
      0 < (proc (rr_state quantum g n).globals.processes p).remaining_burst ∧
      (∀ k : Nat,
        (k : Int) < min quantum (proc (rr_state quantum g n).globals.processes p).remaining_burst →
        rr_selected quantum g (n + k) = some p) ∧
      (∀ k : Nat, 1 ≤ k →
        (k : Int) < min quantum (proc (rr_state quantum g n).globals.processes p).remaining_burst →
        rr_switch quantum (rr_arrive (rr_state quantum g (n + k))) = false) ∧
      (∀ k : Nat,
        (k : Int) = min quantum (proc (rr_state quantum g n).globals.processes p).remaining_burst →
        rr_switch quantum (rr_arrive (rr_state quantum g (n + k))) = true)) ∧
    (∀ n p, (rr_state quantum g n).current = some p →
      (rr_state quantum g n).time_in_quantum = quantum →
      0 < (proc (rr_state quantum g n).globals.processes p).remaining_burst ∧
      queue_contents (rr_arrive (rr_state quantum g n)).globals.ready_queue ++ [some p] =
        (rr_dispatch quantum (rr_arrive (rr_state quantum g n))).current ::
          queue_contents
            (rr_dispatch quantum (rr_arrive (rr_state quantum g n))).globals.ready_queue) ∧
    schedule_of ((Algorithm.round_robin 2).run 9
        (loaded [loaded_process 1 0 5, loaded_process 2 1 3])) =
      some [(0, 1), (1, 1), (2, 2), (3, 2), (4, 1), (5, 1), (6, 2), (7, 1)] := by
  refine ⟨fun n => ?_, fun n p hsw hsel => ?_, fun n p hcur htiq => ?_, by decide⟩
  · rcases rr_state_inv hq hw hflag harr n with ⟨L, hL⟩
    rcases rr_arrive_inv hL with ⟨A, ha, _⟩
    rcases rr_dispatch_inv hq ha with ⟨_, hd, _⟩
    exact ⟨hL.quantum_lo, hL.quantum_hi, hd.quantum_hi⟩
  · rcases rr_state_inv hq hw hflag harr n with ⟨L, hL⟩
    have hpos := (rr_body_current hq hL hsel).1
    have hprog := fun k hk1 hk2 =>
      rr_quantum_progress hq hw hflag harr hsw hsel k hk1 hk2
    have hnosw : ∀ k : Nat, 1 ≤ k →
        (k : Int) < min quantum (proc (rr_state quantum g n).globals.processes p).remaining_burst →
        rr_switch quantum (rr_arrive (rr_state quantum g (n + k))) = false := by
      intro k hk1 hk2
      rcases hprog k hk1 (le_of_lt hk2) with ⟨i1, _, i3⟩
      rw [if_neg (by omega)] at i3
      rcases rr_state_inv hq hw hflag harr (n + k) with ⟨L', hL'⟩
      rcases rr_arrive_inv hL' with ⟨A, ha, _⟩
      cases hc : rr_switch quantum (rr_arrive (rr_state quantum g (n + k))) with
      | false => rfl
      | true =>
        rcases (rr_switch_iff ha).mp hc with h | h
        · have h : (rr_state quantum g (n + k)).current = none := h
          rw [i3] at h; exact Option.noConfusion h
        · have h : (rr_state quantum g (n + k)).time_in_quantum = quantum := h
          omega
    refine ⟨hpos, fun k hk => ?_, hnosw, fun k hk => ?_⟩
    · rcases Nat.eq_zero_or_pos k with h0 | h1
      · subst h0; exact hsel
      · rcases hprog k h1 (le_of_lt hk) with ⟨_, _, i3⟩
        rw [if_neg (by omega)] at i3
        unfold rr_selected
        rw [rr_dispatch_keep (hnosw k h1 hk)]
        exact i3
    · have hk1 : 1 ≤ k := by omega
      rcases hprog k hk1 (le_of_eq hk) with ⟨i1, _, i3⟩
      rcases rr_state_inv hq hw hflag harr (n + k) with ⟨L', hL'⟩
      rcases rr_arrive_inv hL' with ⟨A, ha, _⟩
      rw [rr_switch_iff ha]
      by_cases hr : (proc (rr_state quantum g n).globals.processes p).remaining_burst -
          (k : Int) = 0
      · left
        rw [if_pos hr] at i3
        exact i3
      · right
        show (rr_state quantum g (n + k)).time_in_quantum = quantum
        omega
  · rcases rr_state_inv hq hw hflag harr n with ⟨L, hL⟩
    rcases rr_arrive_inv hL with ⟨A, ha, _⟩
    rcases rr_dispatch_inv hq ha with ⟨L', hd, _, _, _, _, hsw'⟩
    have hsw : rr_switch quantum (rr_arrive (rr_state quantum g n)) = true :=
      (rr_switch_iff ha).mpr (Or.inr htiq)
    rcases hsw' hsw with ⟨_, h2, h3⟩
    have hcur' : (rr_arrive (rr_state quantum g n)).current = some p := hcur
    rw [hcur'] at h2 h3
    refine ⟨(hL.cur p hcur).2.2.1, ?_⟩
    rw [ha.queue.repr.contents, hd.queue.repr.contents, h2, h3]
    cases L ++ A with
    | nil => simp
    | cons x rest => simp

theorem round_robin_quantum_rotation_witness :
    0 < (proc (rr_state 2 (loaded [loaded_process 1 0 5, loaded_process 2 1 3])
      2).globals.processes 1).remaining_burst ∧
    (∀ k : Nat,
      (k : Int) < min 2 (proc (rr_state 2 (loaded [loaded_process 1 0 5, loaded_process 2 1 3])
        2).globals.processes 1).remaining_burst →
      rr_selected 2 (loaded [loaded_process 1 0 5, loaded_process 2 1 3]) (2 + k) = some 1) ∧
    (∀ k : Nat, 1 ≤ k →
      (k : Int) < min 2 (proc (rr_state 2 (loaded [loaded_process 1 0 5, loaded_process 2 1 3])
        2).globals.processes 1).remaining_burst →
      rr_switch 2 (rr_arrive (rr_state 2 (loaded [loaded_process 1 0 5, loaded_process 2 1 3])
        (2 + k))) = false) ∧
    (∀ k : Nat,
      (k : Int) = min 2 (proc (rr_state 2 (loaded [loaded_process 1 0 5, loaded_process 2 1 3])
        2).globals.processes 1).remaining_burst →
      rr_switch 2 (rr_arrive (rr_state 2 (loaded [loaded_process 1 0 5, loaded_process 2 1 3])
        (2 + k))) = true) :=
  (round_robin_quantum_rotation 2 (by decide)
    (loaded [loaded_process 1 0 5, loaded_process 2 1 3]) ⟨by decide, by decide⟩
    (by decide) (by decide)).2.1 2 1 (by decide) (by decide)

end claim_8

section sound_course

variable {r : Course}

theorem Course.sound_length (hs : r.Sound) (n : Nat) :
    (r.table n).length = (r.table 0).length := by
  induction n with
  | zero => rfl
  | succ n ih => rw [(hs n).length_eq, ih]

theorem Course.sound_step (hs : r.Sound) (n : Nat) {i : Nat} (hi : i < (r.table 0).length) :
    ProcStep (n : Int) (r.sel n) i (proc (r.table n) i) (proc (r.table (n + 1)) i) :=
  (hs n).procs i (by rw [Course.sound_length hs n]; exact hi)

theorem Course.sound_static (hs : r.Sound) (n : Nat) {i : Nat} (hi : i < (r.table 0).length) :
    (proc (r.table n) i).id = (proc (r.table 0) i).id ∧
    (proc (r.table n) i).burst_time = (proc (r.table 0) i).burst_time ∧
    (proc (r.table n) i).arrival_time = (proc (r.table 0) i).arrival_time ∧
    (proc (r.table n) i).completion_time = (proc (r.table 0) i).completion_time := by
  induction n with
  | zero => exact ⟨rfl, rfl, rfl, rfl⟩
  | succ n ih =>
    have h := Course.sound_step hs n hi
    exact ⟨h.id_eq.trans ih.1, h.burst_eq.trans ih.2.1, h.arrival_eq.trans ih.2.2.1,
      h.completion_eq.trans ih.2.2.2⟩

end sound_course

section sound_steps

theorem tick_process_untouched (t : Int) {c i : Nat} (p : Process) (hic : i ≠ c)
    (h0 : p.remaining_burst ≤ 0) : tick_process t c i p = p := by
  unfold tick_process update_wait_times_at
  rw [if_neg hic, if_neg (by rintro ⟨_, h⟩; omega)]

theorem stepSound_of_selection (t : Int) (sel : Option Nat) (ps : List Process)
    (hsel : ∀ c, sel = some c → c < ps.length ∧ eligible t (proc ps c)) :
    StepSound t sel ps (table_step t sel ps) := by
  cases sel with
  | none => exact ⟨rfl, fun i _ => procStep_idle t i _, hsel, fun _ _ _ => rfl⟩
  | some c =>
    refine ⟨execute_tick_length t c ps, fun i hi => ?_, hsel, fun i hi h0 => ?_⟩
    · show ProcStep t (some c) i (proc ps i) (proc (execute_tick t c ps) i)
      rw [proc_execute_tick t c ps i hi]
      exact tick_process_step t c i _
    · show proc (execute_tick t c ps) i = proc ps i
      rw [proc_execute_tick t c ps i hi]
      apply tick_process_untouched
      · intro e
        subst e
        have := (hsel i rfl).2.2
        omega
      · exact h0

theorem StepOK.sound {t : Int} {sel : Option Nat} {pre : List Process}
    (h : StepOK t sel pre (table_step t sel pre)) : StepSound t sel pre (table_step t sel pre) :=
  stepSound_of_selection t sel pre h.selected

theorem fcfs_course_sound (g : Globals) : (Algorithm.fcfs.course g).Sound := by
  intro n
  have h := fcfs_course_valid g n
  have e : (fcfs_state g.processes (n + 1)).processes =
      table_step (n : Int) (fcfs_selected g.processes n) (fcfs_state g.processes n).processes := by
    have e1 : (fcfs_state g.processes (n + 1)).processes =
        (run_selected (fcfs_state g.processes n) (fcfs_selected g.processes n)).processes := by
      rw [fcfs_state, Function.iterate_succ_apply']; rfl
    rw [e1, run_selected_processes, fcfs_state_time]
  show StepSound (n : Int) (fcfs_selected g.processes n) (fcfs_state g.processes n).processes
    (fcfs_state g.processes (n + 1)).processes
  rw [e]
  exact stepSound_of_selection _ _ _ h.selected

theorem sjf_course_sound (g : Globals) : (Algorithm.sjf.course g).Sound := by
  intro n
  have h := sjf_course_valid g n
  have e : (sjf_state g.processes (n + 1)).processes =
      table_step (n : Int) (sjf_selected g.processes n) (sjf_state g.processes n).processes := by
    have e1 : (sjf_state g.processes (n + 1)).processes =
        (run_selected (sjf_state g.processes n) (sjf_selected g.processes n)).processes := by
      rw [sjf_state, Function.iterate_succ_apply']; rfl
    rw [e1, run_selected_processes, sjf_state_time]
  show StepSound (n : Int) (sjf_selected g.processes n) (sjf_state g.processes n).processes
    (sjf_state g.processes (n + 1)).processes
  rw [e]
  exact stepSound_of_selection _ _ _ h.selected

theorem FlagsOnly.same (ps : List Process) : FlagsOnly ps ps :=
  ⟨rfl, fun _ => ⟨rfl, fun _ => rfl⟩⟩

theorem FlagsOnly.chain {ps ps' ps'' : List Process} (h1 : FlagsOnly ps ps')
    (h2 : FlagsOnly ps' ps'') : FlagsOnly ps ps'' := by
  refine ⟨h2.1.trans h1.1, fun i => ⟨((h2.2 i).1).trans (h1.2 i).1, fun h0 => ?_⟩⟩
  have e1 := (h1.2 i).2 h0
  have e2 := (h2.2 i).2 (by rw [e1]; exact h0)
  rw [e2, e1]

theorem FlagsOnly.sameTiming {ps ps' : List Process} (h : FlagsOnly ps ps') :
    SameTiming ps ps' := ⟨h.1, fun i => (h.2 i).1⟩

theorem flagsOnly_set_flag (ps : List Process) (i : Nat) (v : Int) (hi : i < ps.length)
    (hr : 0 < (proc ps i).remaining_burst) :
    FlagsOnly ps (ps.set i { proc ps i with in_queue := v }) := by
  refine ⟨List.length_set _ _ _, fun j => ?_⟩
  rw [proc_set ps i j _ hi]
  by_cases h : i = j
  · subst h
    simp only [if_true]
    exact ⟨by simp [unqueued], fun h0 => by omega⟩
  · simp [h]

end sound_steps

section rr_core

/-- The loop of `check_arrivals` after the indices below `k`, under the part of the
invariant that needs no assumption on the arrival times. -/
theorem check_arrivals_core_fold {g : Globals} {L : List Nat} {t : Int} {current : Option Nat}
    (hq : QueueInv g L t) (hc : CurInv g current L t) (k : Nat)
    (hk : k ≤ g.processes.length) :
    ∃ A, QueueInv ((List.range k).foldl (check_arrivals_step t) g) (L ++ A) (t + 1) ∧
      CurInv ((List.range k).foldl (check_arrivals_step t) g) current (L ++ A) t ∧
      FlagsOnly g.processes ((List.range k).foldl (check_arrivals_step t) g).processes := by
  induction k with
  | zero =>
    refine ⟨[], ?_, ?_, FlagsOnly.same _⟩
    · rw [List.append_nil]; exact hq.mono (by omega)
    · rw [List.append_nil]; exact hc
  | succ k ih =>
    rcases ih (by omega) with ⟨A, iq, ic, ist⟩
    rw [List.range_succ, List.foldl_append]
    simp only [List.foldl_cons, List.foldl_nil]
    generalize (List.range k).foldl (check_arrivals_step t) g = gk at iq ic ist
    have hlen : gk.processes.length = g.processes.length := ist.1
    have hkk : k < gk.processes.length := by omega
    rw [check_arrivals_step_eq t gk k hkk]
    by_cases ha : (proc gk.processes k).arrival_time = t
    · rw [if_pos ha]
      by_cases hg : (proc gk.processes k).in_queue = 0 ∧ 0 < (proc gk.processes k).remaining_burst
      · rcases iq.after_enqueue hkk hg.1 hg.2 (by omega) with ⟨eq1, est, eproc⟩
        have efl : FlagsOnly gk.processes (enqueue k gk).processes := by
          rw [eproc]; exact flagsOnly_set_flag _ _ _ hkk hg.2
        refine ⟨A ++ [k], ?_, ?_, ist.chain efl⟩
        · rw [← List.append_assoc]; exact eq1
        · intro c hcur
          rcases ic c hcur with ⟨c1, c2, c3, c4⟩
          have hf := unqueued_fields (est.2 c)
          refine ⟨by rw [est.1]; exact c1, ?_, by rw [hf.2.2.1]; exact c3,
            by rw [hf.2.2.2.1]; exact c4⟩
          rw [← List.append_assoc, List.mem_append, List.mem_singleton]
          rintro (h | h)
          · exact c2 h
          · subst h; omega
      · rw [enqueue_noop (fun p hp => by rw [← proc_of_getElem? hp]; exact hg)]
        exact ⟨A, iq, ic, ist⟩
    · rw [if_neg ha]
      exact ⟨A, iq, ic, ist⟩

theorem rr_dispatch_eq (quantum : Int) (s : RRState) :
    rr_dispatch quantum s =
      if rr_switch quantum s then
        { s with globals := (dequeue (rr_requeue s)).2, current := (dequeue (rr_requeue s)).1,
                 time_in_quantum := 0 }
      else s := rfl

/-- The globals after the re-enqueue of the current process, under the invariant. -/
theorem rr_requeue_core {s : RRState} {L : List Nat}
    (hq : QueueInv s.globals L (s.current_time + 1))
    (hc : CurInv s.globals s.current L s.current_time) :
    QueueInv (rr_requeue s) (L ++ s.current.toList) (s.current_time + 1) ∧
    FlagsOnly s.globals.processes (rr_requeue s).processes := by
  unfold rr_requeue
  cases hcur : s.current with
  | none =>
    simp only [Option.toList_none, List.append_nil]
    exact ⟨hq, FlagsOnly.same _⟩
  | some c =>
    rw [hcur] at hc
    have hu := current_unfinished_of_curInv hc
    simp only [hu, if_true, Option.toList_some]
    rcases hc c rfl with ⟨c1, c2, c3, c4⟩
    have hflag : (proc s.globals.processes c).in_queue = 0 := by
      by_contra hne
      exact c2 ((hq.flag c c1).mp hne)
    rcases hq.after_enqueue c1 hflag c3 (by omega) with ⟨e1, _, e3⟩
    refine ⟨e1, ?_⟩
    rw [e3]
    exact flagsOnly_set_flag _ _ _ c1 c3

/-- What `dequeue` does under the queue invariant, for an empty and a non-empty queue. -/
theorem dequeue_core {g : Globals} {L : List Nat} {b : Int} (hq : QueueInv g L b) :
    (dequeue g).1 = L.head? ∧ QueueInv (dequeue g).2 L.tail b ∧
    FlagsOnly g.processes (dequeue g).2.processes := by
  cases L with
  | nil =>
    rw [dequeue_nil hq.repr]
    exact ⟨rfl, hq, FlagsOnly.same _⟩
  | cons x L =>
    rcases hq.after_dequeue with ⟨d1, d2, _, d4⟩
    refine ⟨d1, d2, ?_⟩
    rw [d4]
    exact flagsOnly_set_flag _ _ _ (hq.mem_lt x (List.mem_cons_self x L))
      (hq.queued x (List.mem_cons_self x L)).1

/-- The first `if` of the body of `round_robin` under the part of the invariant that
needs no assumption on the quantum or the arrival times. -/
theorem rr_dispatch_core (quantum : Int) {s : RRState} {L : List Nat}
    (hq : QueueInv s.globals L (s.current_time + 1))
    (hc : CurInv s.globals s.current L s.current_time) :
    ∃ L', QueueInv (rr_dispatch quantum s).globals L' (s.current_time + 1) ∧
      CurInv (rr_dispatch quantum s).globals (rr_dispatch quantum s).current L'
        (s.current_time + 1) ∧
      FlagsOnly s.globals.processes (rr_dispatch quantum s).globals.processes ∧
      (rr_dispatch quantum s).current_time = s.current_time ∧
      (rr_dispatch quantum s).output = s.output := by
  have hc1 : CurInv s.globals s.current L (s.current_time + 1) := by
    intro c hcur
    rcases hc c hcur with ⟨a, b, c', d⟩
    exact ⟨a, b, c', by omega⟩
  rw [rr_dispatch_eq]
  cases hsw : rr_switch quantum s with
  | false =>
    rw [if_neg Bool.false_ne_true]
    exact ⟨L, hq, hc1, FlagsOnly.same _, rfl, rfl⟩
  | true =>
    rw [if_pos rfl]
    rcases rr_requeue_core hq hc with ⟨r1, r2⟩
    rcases dequeue_core r1 with ⟨d1, d2, d3⟩
    refine ⟨(L ++ s.current.toList).tail, d2, ?_, r2.chain d3, rfl, rfl⟩
    intro c hcur
    have hcur : (dequeue (rr_requeue s)).1 = some c := hcur
    rw [d1] at hcur
    have hfl := r2.chain d3
    have hf := unqueued_fields ((hfl.2 c).1)
    have hnd := r1.nodup
    have hmem : c ∈ L ++ s.current.toList := List.mem_of_mem_head? hcur
    have hsplit : L ++ s.current.toList = c :: (L ++ s.current.toList).tail := by
      cases hl : L ++ s.current.toList with
      | nil => rw [hl] at hcur; exact Option.noConfusion hcur
      | cons x rest =>
        rw [hl] at hcur
        simp only [List.head?_cons, Option.some.injEq] at hcur
        rw [hcur]; rfl
    rw [hsplit] at hnd
    have hlt : c < s.globals.processes.length := by
      have := r1.mem_lt c hmem
      rw [r2.1] at this
      exact this
    have hprops : 0 < (proc s.globals.processes c).remaining_burst ∧
        (proc s.globals.processes c).arrival_time < s.current_time + 1 := by
      rcases List.mem_append.mp hmem with h | h
      · exact hq.queued c h
      · have hsc : s.current = some c := by
          cases hs : s.current with
          | none => rw [hs] at h; simp at h
          | some c' =>
            rw [hs] at h
            simp only [Option.toList_some, List.mem_singleton] at h
            rw [h]
        rcases hc1 c hsc with ⟨_, _, h3, h4⟩
        exact ⟨h3, h4⟩
    refine ⟨?_, (List.nodup_cons.mp hnd).1, ?_, ?_⟩
    · show c < (dequeue (rr_requeue s)).2.processes.length
      rw [hfl.1]; exact hlt
    · show 0 < (proc (dequeue (rr_requeue s)).2.processes c).remaining_burst
      rw [hf.2.2.1]; exact hprops.1
    · show (proc (dequeue (rr_requeue s)).2.processes c).arrival_time < s.current_time + 1
      rw [hf.2.2.2.1]; exact hprops.2

end rr_core

section rr_core_course

/-- The second `if` of the body of `round_robin` keeps the part of the invariant that
needs no assumption on the quantum or the arrival times. -/
theorem rr_execute_core {s : RRState} {L : List Nat}
    (hq : QueueInv s.globals L (s.current_time + 1))
    (hcur : CurInv s.globals s.current L (s.current_time + 1)) :
    RRCore (rr_execute s) L := by
  cases hc : s.current with
  | none =>
    rw [rr_execute_none hc]
    refine ⟨hq, ?_⟩
    intro c hc'
    have hc' : s.current = some c := hc'
    rw [hc] at hc'; exact Option.noConfusion hc'
  | some c =>
    rw [rr_execute_some hc]
    rcases hcur c hc with ⟨c1, c2, c3, c4⟩
    have hlen := execute_tick_length s.current_time c s.globals.processes
    have hstep : ∀ i, i < s.globals.processes.length →
        ProcStep s.current_time (some c) i (proc s.globals.processes i)
          (proc (execute_tick s.current_time c s.globals.processes) i) := by
      intro i hi
      rw [proc_execute_tick _ _ _ _ hi]
      exact tick_process_step _ _ _ _
    have hrem : ∀ i, i < s.globals.processes.length → i ≠ c →
        (proc (execute_tick s.current_time c s.globals.processes) i).remaining_burst =
          (proc s.globals.processes i).remaining_burst := by
      intro i hi hic
      rw [(hstep i hi).remaining_eq, if_neg (fun e => hic (Option.some.inj e).symm)]
    have hremc : (proc (execute_tick s.current_time c s.globals.processes) c).remaining_burst =
        (proc s.globals.processes c).remaining_burst - 1 := by
      rw [(hstep c c1).remaining_eq, if_pos rfl]
    have hfin : current_finished (execute_tick s.current_time c s.globals.processes) (some c) =
        decide ((proc (execute_tick s.current_time c s.globals.processes) c).remaining_burst
          = 0) := by
      unfold current_finished
      simp only [getElem?_eq_proc (show c < (execute_tick s.current_time c
        s.globals.processes).length by rw [hlen]; exact c1)]
    refine ⟨⟨hq.repr, ?_, hq.nodup, ?_, ?_, ?_⟩, ?_⟩
    · show (execute_tick s.current_time c s.globals.processes).length ≤ _
      rw [hlen]; exact hq.table_le
    · intro i hi
      show i < (execute_tick s.current_time c s.globals.processes).length
      rw [hlen]; exact hq.mem_lt i hi
    · intro i hi
      have hi : i < (execute_tick s.current_time c s.globals.processes).length := hi
      rw [hlen] at hi
      show (proc (execute_tick s.current_time c s.globals.processes) i).in_queue ≠ 0 ↔ i ∈ L
      rw [proc_execute_tick _ _ _ _ hi, tick_process_in_queue]
      exact hq.flag i hi
    · intro i hi
      have hil := hq.mem_lt i hi
      have hic : i ≠ c := fun e => c2 (e ▸ hi)
      show 0 < (proc (execute_tick s.current_time c s.globals.processes) i).remaining_burst ∧
        (proc (execute_tick s.current_time c s.globals.processes) i).arrival_time <
          s.current_time + 1
      rw [hrem i hil hic, (hstep i hil).arrival_eq]
      exact hq.queued i hi
    · intro c' hc'
      have hc' : (if current_finished (execute_tick s.current_time c s.globals.processes)
          (some c) then none else some c) = some c' := hc'
      rw [hfin] at hc'
      by_cases h0 : (proc (execute_tick s.current_time c s.globals.processes) c).remaining_burst
          = 0
      · simp only [h0, decide_True, if_true] at hc'
        exact Option.noConfusion hc'
      · simp only [h0, decide_False, Bool.false_eq_true, if_false] at hc'
        have e := Option.some.inj hc'
        subst e
        refine ⟨?_, c2, ?_, ?_⟩
        · show c < (execute_tick s.current_time c s.globals.processes).length
          rw [hlen]; exact c1
        · show 0 < (proc (execute_tick s.current_time c s.globals.processes) c).remaining_burst
          omega
        · show (proc (execute_tick s.current_time c s.globals.processes) c).arrival_time <
            s.current_time + 1
          rw [(hstep c c1).arrival_eq]; exact c4

theorem StepSound.of_flagsOnly {t : Int} {sel : Option Nat} {ps0 ps post : List Process}
    (h : StepSound t sel ps post) (e : FlagsOnly ps0 ps) : StepSound t sel ps0 post := by
  have hel : ∀ i, eligible t (proc ps i) ↔ eligible t (proc ps0 i) := by
    intro i
    have hf := unqueued_fields (e.2 i).1
    unfold eligible; rw [hf.2.2.1, hf.2.2.2.1]
  refine ⟨h.length_eq.trans e.1, fun i hi => ?_, fun c hc => ?_, fun i hi h0 => ?_⟩
  · exact (h.procs i (by rw [e.1]; exact hi)).of_unqueued (e.2 i).1
  · rcases h.selected c hc with ⟨h1, h2⟩
    exact ⟨by rw [← e.1]; exact h1, (hel c).mp h2⟩
  · have e1 := (e.2 i).2 h0
    rw [h.untouched i (by rw [e.1]; exact hi) (by rw [e1]; exact h0), e1]

/-- One iteration of the loop of `round_robin`, for any quantum and any arrival times:
the invariant is kept, only flags of processes with burst left change before the
execution, and the table changes as a tick of a scheduling loop does. -/
theorem rr_body_core (quantum : Int) {s : RRState} {L : List Nat} (h : RRCore s L) :
    ∃ L', RRCore (rr_body quantum s) L' ∧
      StepSound s.current_time (rr_dispatch quantum (rr_arrive s)).current
        s.globals.processes (rr_body quantum s).globals.processes ∧
      FlagsOnly s.globals.processes (rr_dispatch quantum (rr_arrive s)).globals.processes ∧
      ∀ c, (rr_dispatch quantum (rr_arrive s)).current = some c →
        c < s.globals.processes.length := by
  rcases check_arrivals_core_fold h.queue h.cur s.globals.processes.length (le_refl _) with
    ⟨A, a1, a2, a3⟩
  have a1 : QueueInv (rr_arrive s).globals (L ++ A) ((rr_arrive s).current_time + 1) := a1
  have a2 : CurInv (rr_arrive s).globals (rr_arrive s).current (L ++ A)
      (rr_arrive s).current_time := a2
  have a3 : FlagsOnly s.globals.processes (rr_arrive s).globals.processes := a3
  rcases rr_dispatch_core quantum a1 a2 with ⟨L', d1, d2, d3, d4, _⟩
  have d4 : (rr_dispatch quantum (rr_arrive s)).current_time = s.current_time := d4
  have hfl := a3.chain d3
  have d1' : QueueInv (rr_dispatch quantum (rr_arrive s)).globals L'
      ((rr_dispatch quantum (rr_arrive s)).current_time + 1) := by rw [d4]; exact d1
  have d2' : CurInv (rr_dispatch quantum (rr_arrive s)).globals
      (rr_dispatch quantum (rr_arrive s)).current L'
      ((rr_dispatch quantum (rr_arrive s)).current_time + 1) := by rw [d4]; exact d2
  refine ⟨L', rr_execute_core d1' d2', ?_, hfl, fun c hc => ?_⟩
  · show StepSound s.current_time (rr_dispatch quantum (rr_arrive s)).current
      s.globals.processes (rr_execute (rr_dispatch quantum (rr_arrive s))).globals.processes
    rw [rr_execute_processes, d4]
    apply StepSound.of_flagsOnly _ hfl
    apply stepSound_of_selection
    intro c hc
    rcases d2 c hc with ⟨c1, _, c3, c4⟩
    have c4 : (proc (rr_dispatch quantum (rr_arrive s)).globals.processes c).arrival_time <
        s.current_time + 1 := c4
    exact ⟨c1, by omega, c3⟩
  · rw [← hfl.1]; exact (d2 c hc).1

theorem rr_start_core {g : Globals} (hw : WellFormed g)
    (hflag : ∀ p, p ∈ g.processes → p.in_queue = 0) : RRCore (rr_start g) [] := by
  refine ⟨⟨init_queue_represents _ hw.items_length, hw.table_le, List.nodup_nil, ?_, ?_, ?_⟩, ?_⟩
  · intro i hi; exact absurd hi (List.not_mem_nil _)
  · intro i hi
    have hi : i < g.processes.length := hi
    show (proc g.processes i).in_queue ≠ 0 ↔ i ∈ []
    have := hflag _ (proc_mem hi)
    simp [this]
  · intro i hi; exact absurd hi (List.not_mem_nil _)
  · intro c hc; exact Option.noConfusion hc

/-- The invariant holds at the head of every iteration of the loop of `round_robin`, for
any quantum and any arrival times. -/
theorem rr_state_core (quantum : Int) {g : Globals} (hw : WellFormed g)
    (hflag : ∀ p, p ∈ g.processes → p.in_queue = 0) (n : Nat) :
    ∃ L, RRCore (rr_state quantum g n) L := by
  induction n with
  | zero => exact ⟨[], rr_start_core hw hflag⟩
  | succ n ih =>
    rcases ih with ⟨L, hL⟩
    rcases rr_body_core quantum hL with ⟨L', h1, _⟩
    rw [rr_state_succ]
    exact ⟨L', h1⟩

theorem rr_course_sound (quantum : Int) {g : Globals} (hw : WellFormed g)
    (hflag : ∀ p, p ∈ g.processes → p.in_queue = 0) :
    ((Algorithm.round_robin quantum).course g).Sound := by
  intro n
  rcases rr_state_core quantum hw hflag n with ⟨L, hL⟩
  rcases rr_body_core quantum hL with ⟨_, _, h2, _⟩
  rw [rr_state_time] at h2
  show StepSound (n : Int) (rr_selected quantum g n) (rr_state quantum g n).globals.processes
    (rr_state quantum g (n + 1)).globals.processes
  rw [rr_state_succ]
  exact h2

/-- Every algorithm, started on well-formed globals with no process queued, runs a sound
course, whatever the quantum and the arrival times. -/
theorem Algorithm.course_sound (a : Algorithm) {g : Globals} (hw : WellFormed g)
    (hflag : ∀ p, p ∈ g.processes → p.in_queue = 0) : (a.course g).Sound := by
  cases a with
  | fcfs => exact fcfs_course_sound g
  | sjf => exact sjf_course_sound g
  | round_robin quantum => exact rr_course_sound quantum hw hflag

end rr_core_course

section claims_18_20

end claims_18_20

section claim_12

theorem QueueInv.exact {g : Globals} {L : List Nat} {b : Int} (h : QueueInv g L b) :
    QueueExact g := by
  have hc := h.repr.contents
  have hlen := nodup_length_le h.nodup h.mem_lt
  have htl := h.table_le
  rw [MAX_PROCESSES_toNat] at htl
  refine ⟨?_, ?_, ?_, ?_, ?_, ?_, ?_⟩
  · rw [hc]; exact h.nodup.map (Option.some_injective _)
  · intro x hx
    rw [hc] at hx
    rcases List.mem_map.mp hx with ⟨i, hi, e⟩
    exact ⟨i, h.mem_lt i hi, e.symm⟩
  · intro i hi
    rw [hc, h.flag i hi]
    constructor
    · intro hm; exact List.mem_map.mpr ⟨i, hm, rfl⟩
    · intro hm
      rcases List.mem_map.mp hm with ⟨j, hj, e⟩
      rw [← Option.some.inj e]; exact hj
  · rw [hc, h.repr.size_eq, List.length_map]
  · rw [h.repr.size_eq]; exact_mod_cast hlen
  · simp only [MAX_PROCESSES]; exact_mod_cast htl
  · intro i hi h1 h2
    have hni : i ∉ L := fun hm => ((h.flag i hi).mpr hm) h1
    have hnd : (L ++ [i]).Nodup := by
      rw [List.nodup_append]
      refine ⟨h.nodup, List.nodup_singleton i, ?_⟩
      intro a ha hb
      rw [List.mem_singleton] at hb
      subst hb
      exact hni ha
    have hlt : ∀ j, j ∈ L ++ [i] → j < g.processes.length := by
      intro j hj
      rcases List.mem_append.mp hj with hj | hj
      · exact h.mem_lt j hj
      · rw [List.mem_singleton] at hj; subst hj; exact hi
    have hl := nodup_length_le hnd hlt
    simp only [List.length_append, List.length_singleton] at hl
    have hroom : L.length < MAX_PROCESSES.toNat := by rw [MAX_PROCESSES_toNat]; omega
    rw [enqueue_eq (getElem?_eq_proc hi) h1 h2]
    rw [(enqueue_represents h.repr hroom i).contents, hc]
    simp

/-- C12: at every point of a run of `round_robin` (any quantum) started on well-formed
globals on which no process is flagged as queued, as after loading or `reset_processes`:
at the head of every iteration, after every step of the loop of `check_arrivals`, after
the re-enqueue of the current process, and after the `dequeue`, each process occurs at
most once in the live region of the ready queue and occurs there exactly when its
`in_queue` flag is set; the queue size is at most `num_processes`, which is at most
`MAX_PROCESSES`, and an `enqueue` that passes its guard leaves the live entries as they
are. -/
theorem ready_queue_holds_each_process_once (quantum : Int) (g : Globals) (hw : WellFormed g)
    (hflag : ∀ p, p ∈ g.processes → p.in_queue = 0) (n : Nat) :
    QueueExact (rr_state quantum g n).globals ∧
    (∀ k, k ≤ g.processes.length →
      QueueExact ((List.range k).foldl
        (check_arrivals_step (rr_state quantum g n).current_time)
        (rr_state quantum g n).globals)) ∧
    QueueExact (rr_arrive (rr_state quantum g n)).globals ∧
    (rr_switch quantum (rr_arrive (rr_state quantum g n)) = true →
      QueueExact (rr_requeue (rr_arrive (rr_state quantum g n)))) ∧
    QueueExact (rr_dispatch quantum (rr_arrive (rr_state quantum g n))).globals ∧
    QueueExact (rr_execute (rr_dispatch quantum (rr_arrive (rr_state quantum g n)))).globals := by
  rcases rr_state_core quantum hw hflag n with ⟨L, hL⟩
  have hlen : (rr_state quantum g n).globals.processes.length = g.processes.length := by
    have := Course.sound_length (rr_course_sound quantum hw hflag) n
    exact this
  rcases check_arrivals_core_fold hL.queue hL.cur (rr_state quantum g n).globals.processes.length
    (le_refl _) with ⟨A, a1, a2, _⟩
  have a1 : QueueInv (rr_arrive (rr_state quantum g n)).globals (L ++ A)
      ((rr_arrive (rr_state quantum g n)).current_time + 1) := a1
  have a2 : CurInv (rr_arrive (rr_state quantum g n)).globals
      (rr_arrive (rr_state quantum g n)).current (L ++ A)
      (rr_arrive (rr_state quantum g n)).current_time := a2
  rcases rr_dispatch_core quantum a1 a2 with ⟨L', d1, _, _, _, _⟩
  rcases rr_body_core quantum hL with ⟨L'', b1, _⟩
  refine ⟨hL.queue.exact, fun k hk => ?_, a1.exact, fun _ => (rr_requeue_core a1 a2).1.exact,
    d1.exact, b1.queue.exact⟩
  rcases check_arrivals_core_fold hL.queue hL.cur k (by rw [hlen]; exact hk) with ⟨B, b, _⟩
  exact b.exact

theorem ready_queue_holds_each_process_once_witness :
    QueueExact (rr_state 2 (loaded [loaded_process 1 0 5, loaded_process 2 1 3]) 3).globals ∧
    (∀ k, k ≤ (loaded [loaded_process 1 0 5, loaded_process 2 1 3]).processes.length →
      QueueExact ((List.range k).foldl
        (check_arrivals_step
          (rr_state 2 (loaded [loaded_process 1 0 5, loaded_process 2 1 3]) 3).current_time)
        (rr_state 2 (loaded [loaded_process 1 0 5, loaded_process 2 1 3]) 3).globals)) ∧
    QueueExact (rr_arrive
      (rr_state 2 (loaded [loaded_process 1 0 5, loaded_process 2 1 3]) 3)).globals ∧
    (rr_switch 2 (rr_arrive
        (rr_state 2 (loaded [loaded_process 1 0 5, loaded_process 2 1 3]) 3)) = true →
      QueueExact (rr_requeue (rr_arrive
        (rr_state 2 (loaded [loaded_process 1 0 5, loaded_process 2 1 3]) 3)))) ∧
    QueueExact (rr_dispatch 2 (rr_arrive
      (rr_state 2 (loaded [loaded_process 1 0 5, loaded_process 2 1 3]) 3))).globals ∧
    QueueExact (rr_execute (rr_dispatch 2 (rr_arrive
      (rr_state 2 (loaded [loaded_process 1 0 5, loaded_process 2 1 3]) 3)))).globals :=
  ready_queue_holds_each_process_once 2
    (loaded [loaded_process 1 0 5, loaded_process 2 1 3]) ⟨by decide, by decide⟩
    (by decide) 3

end claim_12

section output

theorem print_event_eq (t : Int) {c : Nat} {ps : List Process} (hc : c < ps.length) :
    print_event t c ps = [tick_event t (proc ps c)] := by
  unfold print_event
  rw [getElem?_eq_proc hc]
  rfl

theorem tick_event_unqueued (t : Int) {p p' : Process} (h : unqueued p' = unqueued p) :
    tick_event t p' = tick_event t p := by
  have hf := unqueued_fields h
  unfold tick_event
  rw [hf.1, hf.2.2.1, hf.2.2.2.2.1, hf.2.2.2.2.2.1]

theorem run_selected_output (s : SimState) (sel : Option Nat)
    (hsel : ∀ c, sel = some c → c < s.processes.length) :
    (run_selected s sel).output = s.output ++ tick_output s.current_time sel s.processes := by
  cases sel with
  | none => simp [run_selected, tick_output]
  | some c =>
    show s.output ++ print_event s.current_time c s.processes = _
    rw [print_event_eq _ (hsel c rfl)]
    rfl

theorem fcfs_output_succ (ps : List Process) (n : Nat) :
    (fcfs_state ps (n + 1)).output =
      (fcfs_state ps n).output ++
        tick_output (n : Int) (fcfs_selected ps n) (fcfs_state ps n).processes := by
  have e1 : (fcfs_state ps (n + 1)).output =
      (run_selected (fcfs_state ps n) (fcfs_selected ps n)).output := by
    rw [fcfs_state, Function.iterate_succ_apply']; rfl
  rw [e1, run_selected_output, fcfs_state_time]
  intro c hc
  exact ((fcfs_course_valid (loaded ps) n).selected c hc).1

theorem sjf_output_succ (ps : List Process) (n : Nat) :
    (sjf_state ps (n + 1)).output =
      (sjf_state ps n).output ++
        tick_output (n : Int) (sjf_selected ps n) (sjf_state ps n).processes := by
  have e1 : (sjf_state ps (n + 1)).output =
      (run_selected (sjf_state ps n) (sjf_selected ps n)).output := by
    rw [sjf_state, Function.iterate_succ_apply']; rfl
  rw [e1, run_selected_output, sjf_state_time]
  intro c hc
  exact ((sjf_course_valid (loaded ps) n).selected c hc).1

theorem rr_execute_output (s : RRState)
    (hc : ∀ c, s.current = some c → c < s.globals.processes.length) :
    (rr_execute s).output =
      s.output ++ tick_output s.current_time s.current s.globals.processes := by
  cases h : s.current with
  | none => rw [rr_execute_none h]; simp [tick_output]
  | some c =>
    rw [rr_execute_some h]
    show s.output ++ print_event s.current_time c s.globals.processes = _
    rw [print_event_eq _ (hc c h)]
    rfl

theorem rr_output_succ (quantum : Int) {g : Globals} (hw : WellFormed g)
    (hflag : ∀ p, p ∈ g.processes → p.in_queue = 0) (n : Nat) :
    (rr_state quantum g (n + 1)).output =
      (rr_state quantum g n).output ++
        tick_output (n : Int) (rr_selected quantum g n)
          (rr_state quantum g n).globals.processes := by
  rcases rr_state_core quantum hw hflag n with ⟨L, hL⟩
  rcases rr_body_core quantum hL with ⟨_, _, _, hfl, hlt⟩
  rcases check_arrivals_core_fold hL.queue hL.cur (rr_state quantum g n).globals.processes.length
    (le_refl _) with ⟨A, a1, a2, _⟩
  have a1 : QueueInv (rr_arrive (rr_state quantum g n)).globals (L ++ A)
      ((rr_arrive (rr_state quantum g n)).current_time + 1) := a1
  have a2 : CurInv (rr_arrive (rr_state quantum g n)).globals
      (rr_arrive (rr_state quantum g n)).current (L ++ A)
      (rr_arrive (rr_state quantum g n)).current_time := a2
  rcases rr_dispatch_core quantum a1 a2 with ⟨_, _, _, _, d4, d5⟩
  have d4 : (rr_dispatch quantum (rr_arrive (rr_state quantum g n))).current_time =
      (rr_state quantum g n).current_time := d4
  have d5 : (rr_dispatch quantum (rr_arrive (rr_state quantum g n))).output =
      (rr_state quantum g n).output := d5
  rw [rr_state_succ]
  show (rr_execute (rr_dispatch quantum (rr_arrive (rr_state quantum g n)))).output = _
  rw [rr_execute_output _ (fun c hc => by rw [hfl.1]; exact hlt c hc), d4, d5, rr_state_time]
  congr 1
  unfold rr_selected
  cases hcur : (rr_dispatch quantum (rr_arrive (rr_state quantum g n))).current with
  | none => rfl
  | some c =>
    show [tick_event _ _] = [tick_event _ _]
    rw [tick_event_unqueued _ (hfl.2 c).1]

/-- The output of every algorithm grows at each tick by the line of the selected
process, if there is one. -/
theorem Algorithm.output_succ (a : Algorithm) {g : Globals} (hw : WellFormed g)
    (hflag : ∀ p, p ∈ g.processes → p.in_queue = 0) (n : Nat) :
    (a.state g (n + 1)).output =
      (a.state g n).output ++ tick_output (n : Int) ((a.course g).sel n) ((a.course g).table n) := by
  cases a with
  | fcfs => exact fcfs_output_succ g.processes n
  | sjf => exact sjf_output_succ g.processes n
  | round_robin quantum => exact rr_output_succ quantum hw hflag n

end output

section claim_14

end claim_14

section claims_15_17

theorem all_processes_complete_iff_mem (ps : List Process) :
    all_processes_complete ps = true ↔ ∀ p, p ∈ ps → p.remaining_burst ≤ 0 := by
  rw [all_processes_complete_iff]
  constructor
  · intro h p hp
    rcases exists_proc_of_mem hp with ⟨i, hi, e⟩
    rw [← e]; exact h i hi
  · intro h i hi
    exact h _ (proc_mem hi)

/-- The loop of an algorithm ends at once, with the start state, when every process of
the table is complete. -/
theorem Algorithm.run_complete (a : Algorithm) (g : Globals) (fuel : Nat)
    (h : all_processes_complete g.processes = true) :
    a.run (fuel + 1) g = some { processes := g.processes, current_time := 0, output := [] } := by
  have h2 : all_processes_complete ((a.course g).table 0) = true := by
    rw [a.table_zero]; exact h
  rw [a.run_eq g 0 (fun n hn => absurd hn (Nat.not_lt_zero n)) h2 (fuel + 1) (Nat.succ_pos fuel)]
  cases a <;> rfl

/-- C15 (counterexample): a table whose only process has `remaining_burst = -1` (as loaded
from the line `P0,-1`) is reported complete although its remaining burst is not 0. -/
theorem complete_with_negative_remaining_burst :
    all_processes_complete [loaded_process 0 0 (-1)] = true ∧
    ¬ (∀ p, p ∈ [loaded_process 0 0 (-1)] → p.remaining_burst = 0) := by
  decide

/-- C15 (amended): `all_processes_complete` returns true iff no process in the table has
`remaining_burst > 0`; on a table without negative remaining bursts this is the case iff
every process has `remaining_burst == 0`. In particular it returns true on the empty
table, so the loop of every algorithm performs zero ticks on empty input: it ends with
the clock at 0 and no output. -/
theorem all_processes_complete_contract (ps : List Process) (a : Algorithm) (q : Queue)
    (fuel : Nat) :
    (all_processes_complete ps = true ↔ ∀ p, p ∈ ps → ¬ p.remaining_burst > 0) ∧
    ((∀ p, p ∈ ps → 0 ≤ p.remaining_burst) →
      (all_processes_complete ps = true ↔ ∀ p, p ∈ ps → p.remaining_burst = 0)) ∧
    all_processes_complete [] = true ∧
    a.run (fuel + 1) { processes := [], ready_queue := q } =
      some { processes := [], current_time := 0, output := [] } := by
  refine ⟨?_, fun hnn => ?_, rfl, a.run_complete _ fuel rfl⟩
  · rw [all_processes_complete_iff_mem]
    constructor
    · intro h p hp; have := h p hp; omega
    · intro h p hp; have := h p hp; omega
  · rw [all_processes_complete_iff_mem]
    constructor
    · intro h p hp; have := h p hp; have := hnn p hp; omega
    · intro h p hp; have := h p hp; omega

/-- C16: for a table of a single freshly loaded process with `burst_time = 0`, whatever
its id and arrival time, each of `fcfs`, `sjf` and `round_robin` (with any quantum)
executes zero ticks: the loop ends with the clock at 0, no output and the process as it
was loaded, with `wait_time = 0` and `turnaround_time = 0`, so that the reported
turnaround `wait_time + burst_time` is 0. -/
theorem zero_burst_process_runs_no_tick (a : Algorithm) (id arrival : Int) (q : Queue)
    (fuel : Nat) :
    a.run (fuel + 1) { processes := [loaded_process id arrival 0], ready_queue := q } =
      some { processes := [loaded_process id arrival 0], current_time := 0, output := [] } ∧
    (loaded_process id arrival 0).wait_time = 0 ∧
    (loaded_process id arrival 0).turnaround_time = 0 ∧
    reported_turnaround (loaded_process id arrival 0) = 0 := by
  refine ⟨a.run_complete _ fuel ?_, rfl, rfl, ?_⟩
  · simp [all_processes_complete, loaded_process]
  · simp [reported_turnaround, loaded_process]

/-- C17 (the code departs from the claim): on the one-process table `P0` with arrival 0 and
burst 1, each of `fcfs`, `sjf` and `round_robin` (quantum 1) selects the process at tick
0 and decrements its remaining burst from 1 to 0, but its `turnaround_time` is 0 before
and after the tick: `update_wait_times` runs after the decrement and skips the process
that has just completed. -/
theorem selected_process_not_charged_on_completing_tick :
    ((Algorithm.fcfs.course (loaded [loaded_process 0 0 1])).sel 0 = some 0 ∧
      (Algorithm.fcfs.state (loaded [loaded_process 0 0 1]) 0).processes.map
        (fun p => (p.remaining_burst, p.wait_time, p.turnaround_time)) = [(1, 0, 0)] ∧
      (Algorithm.fcfs.state (loaded [loaded_process 0 0 1]) 1).processes.map
        (fun p => (p.remaining_burst, p.wait_time, p.turnaround_time)) = [(0, 0, 0)]) ∧
    ((Algorithm.sjf.course (loaded [loaded_process 0 0 1])).sel 0 = some 0 ∧
      (Algorithm.sjf.state (loaded [loaded_process 0 0 1]) 0).processes.map
        (fun p => (p.remaining_burst, p.wait_time, p.turnaround_time)) = [(1, 0, 0)] ∧
      (Algorithm.sjf.state (loaded [loaded_process 0 0 1]) 1).processes.map
        (fun p => (p.remaining_burst, p.wait_time, p.turnaround_time)) = [(0, 0, 0)]) ∧
    (((Algorithm.round_robin 1).course (loaded [loaded_process 0 0 1])).sel 0 = some 0 ∧
      ((Algorithm.round_robin 1).state (loaded [loaded_process 0 0 1]) 0).processes.map
        (fun p => (p.remaining_burst, p.wait_time, p.turnaround_time)) = [(1, 0, 0)] ∧
      ((Algorithm.round_robin 1).state (loaded [loaded_process 0 0 1]) 1).processes.map
        (fun p => (p.remaining_burst, p.wait_time, p.turnaround_time)) = [(0, 0, 0)]) := by
  decide

end claims_15_17

section idle_ticks

theorem check_arrivals_idle_fold (t : Int) (g : Globals)
    (h : ∀ i, i < g.processes.length → ¬ eligible t (proc g.processes i)) (k : Nat)
    (hk : k ≤ g.processes.length) :
    (List.range k).foldl (check_arrivals_step t) g = g := by
  induction k with
  | zero => rfl
  | succ k ih =>
    rw [List.range_succ, List.foldl_append, ih (by omega)]
    simp only [List.foldl_cons, List.foldl_nil]
    rw [check_arrivals_step_eq t g k (by omega)]
    by_cases ha : (proc g.processes k).arrival_time = t
    · rw [if_pos ha]
      apply enqueue_noop
      intro p hp
      rw [← proc_of_getElem? hp]
      rintro ⟨_, hr⟩
      exact h k (by omega) ⟨by rw [ha], hr⟩
    · rw [if_neg ha]

/-- On a tick with no eligible process `check_arrivals` changes nothing. -/
theorem check_arrivals_idle (t : Int) (g : Globals)
    (h : ∀ i, i < g.processes.length → ¬ eligible t (proc g.processes i)) :
    check_arrivals t g = g :=
  check_arrivals_idle_fold t g h g.processes.length (le_refl _)

/-- On a tick with no eligible process the body of the loop of `round_robin` leaves the
globals and the output as they are: there is no current process, the queue is empty,
and only the clock advances (`time_in_quantum` is set to 0 by the failed dequeue). -/
theorem rr_body_idle (quantum : Int) {s : RRState} {L : List Nat} (hc : RRCore s L)
    (h : ∀ i, i < s.globals.processes.length →
      ¬ eligible s.current_time (proc s.globals.processes i)) :
    s.current = none ∧ L = [] ∧
    rr_body quantum s =
      { globals := s.globals, current_time := s.current_time + 1, current := none,
        time_in_quantum := 0, output := s.output } := by
  have hcur : s.current = none := by
    cases hs : s.current with
    | none => rfl
    | some c =>
      rcases hc.cur c hs with ⟨c1, _, c3, c4⟩
      exact absurd ⟨by omega, c3⟩ (h c c1)
  have hL : L = [] := by
    cases L with
    | nil => rfl
    | cons x L =>
      have hx := hc.queue.queued x (List.mem_cons_self x L)
      exact absurd ⟨by omega, hx.1⟩ (h x (hc.queue.mem_lt x (List.mem_cons_self x L)))
  refine ⟨hcur, hL, ?_⟩
  have ha : rr_arrive s = s := by
    unfold rr_arrive
    rw [check_arrivals_idle _ _ h]
  have hsw : rr_switch quantum s = true := by
    unfold rr_switch
    simp [hcur]
  have hq := hc.queue.repr
  rw [hL] at hq
  unfold rr_body
  rw [ha, rr_dispatch_none hsw hcur, dequeue_nil hq]
  rfl

end idle_ticks

section claim_19

/-- C19: for each algorithm (quantum at least 1), started on well-formed globals with no
process queued and no negative arrival time, at every tick `n` below `INT_MAX` a process
is executed iff at least one process is eligible at that tick, where a process is executed
when its remaining burst is decremented by 1 and its line is printed; the executed process
is the selected one, it is eligible, no other remaining burst changes, and the clock
advances to `n + 1`, within `int`. On a tick with no eligible process the table and the
output are unchanged and only the clock advances. For `round_robin` (the second quantum
of the statement), every process that is eligible at tick `n` is in the ready queue or is
the current process once `check_arrivals` has run, and on a tick with no eligible process
the globals, ready queue included, are unchanged and there is no current process. -/
theorem executes_iff_some_process_eligible (a : Algorithm) (ha : a.admissible)
    (quantum : Int) (hq : 1 ≤ quantum) (g : Globals) (hw : WellFormed g)
    (hflag : ∀ p, p ∈ g.processes → p.in_queue = 0)
    (harr : ∀ p, p ∈ g.processes → 0 ≤ p.arrival_time) (n : Nat)
    (hn : (n : Int) < INT_MAX) :
    ((∃ c, c < g.processes.length ∧
        (proc (a.state g (n + 1)).processes c).remaining_burst =
          (proc (a.state g n).processes c).remaining_burst - 1 ∧
        (a.state g (n + 1)).output =
          (a.state g n).output ++ [tick_event (n : Int) (proc (a.state g n).processes c)]) ↔
      ∃ i, i < g.processes.length ∧ eligible (n : Int) (proc (a.state g n).processes i)) ∧
    (∀ c, (a.course g).sel n = some c →
      c < g.processes.length ∧
      eligible (n : Int) (proc (a.state g n).processes c) ∧
      (proc (a.state g (n + 1)).processes c).remaining_burst =
        (proc (a.state g n).processes c).remaining_burst - 1 ∧
      (∀ j, j < g.processes.length → j ≠ c →
        (proc (a.state g (n + 1)).processes j).remaining_burst =
          (proc (a.state g n).processes j).remaining_burst) ∧
      (a.state g (n + 1)).output =
        (a.state g n).output ++ [tick_event (n : Int) (proc (a.state g n).processes c)]) ∧
    ((a.state g n).current_time = (n : Int) ∧
      (a.state g (n + 1)).current_time = (a.state g n).current_time + 1 ∧
      (a.state g (n + 1)).current_time ≤ INT_MAX) ∧
    ((a.course g).sel n ≠ none ↔
      ∃ i, i < g.processes.length ∧ eligible (n : Int) (proc (a.state g n).processes i)) ∧
    ((∀ i, i < g.processes.length → ¬ eligible (n : Int) (proc (a.state g n).processes i)) →
      a.state g (n + 1) =
        { processes := (a.state g n).processes,
          current_time := (a.state g n).current_time + 1,
          output := (a.state g n).output }) ∧
    (∀ i, i < g.processes.length →
      eligible (n : Int) (proc (rr_state quantum g n).globals.processes i) →
      some i ∈ queue_contents (rr_arrive (rr_state quantum g n)).globals.ready_queue ∨
        (rr_state quantum g n).current = some i) ∧
    ((∀ i, i < g.processes.length →
        ¬ eligible (n : Int) (proc (rr_state quantum g n).globals.processes i)) →
      (rr_state quantum g (n + 1)).globals = (rr_state quantum g n).globals ∧
      (rr_state quantum g n).current = none ∧
      (rr_state quantum g (n + 1)).current = none) := by
  have hv := a.course_valid ha hw hflag harr
  have hlen : ((a.course g).table n).length = g.processes.length := by
    rw [Course.length_eq hv n, a.table_zero]
  have hrlen : (rr_state quantum g n).globals.processes.length = g.processes.length := by
    have := Course.sound_length (rr_course_sound quantum hw hflag) n
    exact this
  have hidle : ∀ (q' : Int) (g' : Globals), WellFormed g' →
      (∀ p, p ∈ g'.processes → p.in_queue = 0) →
      (∀ i, i < (rr_state q' g' n).globals.processes.length →
        ¬ eligible (n : Int) (proc (rr_state q' g' n).globals.processes i)) →
      rr_state q' g' (n + 1) =
        { globals := (rr_state q' g' n).globals,
          current_time := (rr_state q' g' n).current_time + 1, current := none,
          time_in_quantum := 0, output := (rr_state q' g' n).output } ∧
      (rr_state q' g' n).current = none := by
    intro q' g' hw' hflag' hno
    rcases rr_state_core q' hw' hflag' n with ⟨L, hL⟩
    rcases rr_body_idle q' hL (by rw [rr_state_time]; exact hno) with ⟨h1, _, h3⟩
    rw [rr_state_succ]
    exact ⟨h3, h1⟩
  have hB : ∀ c, (a.course g).sel n = some c →
      c < g.processes.length ∧
      eligible (n : Int) (proc (a.state g n).processes c) ∧
      (proc (a.state g (n + 1)).processes c).remaining_burst =
        (proc (a.state g n).processes c).remaining_burst - 1 ∧
      (∀ j, j < g.processes.length → j ≠ c →
        (proc (a.state g (n + 1)).processes j).remaining_burst =
          (proc (a.state g n).processes j).remaining_burst) ∧
      (a.state g (n + 1)).output =
        (a.state g n).output ++
          [tick_event (n : Int) (proc (a.state g n).processes c)] := by
    intro c hsel
    rcases (hv n).selected c hsel with ⟨h1, h2⟩
    have hc : c < g.processes.length := by rw [← hlen]; exact h1
    have hout := a.output_succ hw hflag n
    rw [hsel] at hout
    simp only [a.state_processes]
    refine ⟨hc, h2, ?_, fun j hj hne => ?_, hout⟩
    · have hr := (Course.step hv n (i := c) (by rw [a.table_zero]; exact hc)).remaining_eq
      rw [if_pos hsel] at hr
      exact hr
    · have hr := (Course.step hv n (i := j) (by rw [a.table_zero]; exact hj)).remaining_eq
      have hne' : ¬ (a.course g).sel n = some j := by
        rw [hsel]
        intro h
        exact hne (Option.some.inj h).symm
      rw [if_neg hne'] at hr
      exact hr
  have hA : (∃ c, c < g.processes.length ∧
        (proc (a.state g (n + 1)).processes c).remaining_burst =
          (proc (a.state g n).processes c).remaining_burst - 1 ∧
        (a.state g (n + 1)).output =
          (a.state g n).output ++ [tick_event (n : Int) (proc (a.state g n).processes c)]) ↔
      ∃ i, i < g.processes.length ∧
        eligible (n : Int) (proc (a.state g n).processes i) := by
    constructor
    · rintro ⟨c, hc, hrem, _⟩
      cases hsel : (a.course g).sel n with
      | none =>
        have hr := (Course.step hv n (i := c) (by rw [a.table_zero]; exact hc)).remaining_eq
        rw [hsel, if_neg (fun h => Option.noConfusion h)] at hr
        simp only [a.state_processes] at hrem
        omega
      | some c' =>
        rcases hB c' hsel with ⟨b1, b2, _⟩
        exact ⟨c', b1, b2⟩
    · rintro ⟨i, hi, he⟩
      cases hsel : (a.course g).sel n with
      | none =>
        simp only [a.state_processes] at he
        exact absurd he ((hv n).conserve hsel i (by rw [hlen]; exact hi))
      | some c =>
        rcases hB c hsel with ⟨b1, _, b3, _, b5⟩
        exact ⟨c, b1, b3, b5⟩
  have hC : (a.state g n).current_time = (n : Int) ∧
      (a.state g (n + 1)).current_time = (a.state g n).current_time + 1 ∧
      (a.state g (n + 1)).current_time ≤ INT_MAX := by
    rw [a.state_time g n, a.state_time g (n + 1)]
    push_cast
    refine ⟨rfl, rfl, ?_⟩
    omega
  refine ⟨hA, hB, hC, ?_, fun hno => ?_, fun i hi he => ?_, fun hno => ?_⟩
  · simp only [a.state_processes]
    constructor
    · intro hne
      cases hsel : (a.course g).sel n with
      | none => exact absurd hsel hne
      | some c =>
        rcases (hv n).selected c hsel with ⟨h1, h2⟩
        exact ⟨c, by rw [← hlen]; exact h1, h2⟩
    · rintro ⟨i, hi, he⟩ hnone
      exact (hv n).conserve hnone i (by rw [hlen]; exact hi) he
  · cases a with
    | fcfs =>
      have hsel : fcfs_selected g.processes n = none := by
        cases hs : fcfs_selected g.processes n with
        | none => rfl
        | some c =>
          rcases (hv n).selected c hs with ⟨h1, h2⟩
          exact absurd h2 (hno c (by rw [← hlen]; exact h1))
      show fcfs_state g.processes (n + 1) = _
      rw [fcfs_state, Function.iterate_succ_apply', ← fcfs_state]
      show run_selected (fcfs_state g.processes n) (fcfs_selected g.processes n) = _
      rw [hsel]
      rfl
    | sjf =>
      have hsel : sjf_selected g.processes n = none := by
        cases hs : sjf_selected g.processes n with
        | none => rfl
        | some c =>
          rcases (hv n).selected c hs with ⟨h1, h2⟩
          exact absurd h2 (hno c (by rw [← hlen]; exact h1))
      show sjf_state g.processes (n + 1) = _
      rw [sjf_state, Function.iterate_succ_apply', ← sjf_state]
      show run_selected (sjf_state g.processes n) (sjf_selected g.processes n) = _
      rw [hsel]
      rfl
    | round_robin q' =>
      have hl : (rr_state q' g n).globals.processes.length = g.processes.length := hlen
      rcases hidle q' g hw hflag (fun i hi => hno i (by rw [← hl]; exact hi)) with ⟨h1, _⟩
      show (rr_state q' g (n + 1)).toSim = _
      rw [h1]
      rfl
  · rcases rr_state_inv hq hw hflag harr n with ⟨L, hL⟩
    rcases rr_arrive_inv hL with ⟨A, hA, hst⟩
    have hf := unqueued_fields (hst.2 i)
    have hi' : i < (rr_arrive (rr_state quantum g n)).globals.processes.length := by
      rw [hst.1, hrlen]; exact hi
    have htime : (rr_arrive (rr_state quantum g n)).current_time = (n : Int) :=
      rr_state_time quantum g n
    rcases hA.ready i hi' (by rw [hf.2.2.1]; exact he.2)
      (Or.inl (by rw [hf.2.2.2.1, htime]; have := he.1; omega)) with h | h
    · left
      rw [hA.queue.repr.contents]
      exact List.mem_map.mpr ⟨i, h, rfl⟩
    · right; exact h
  · rcases hidle quantum g hw hflag (fun i hi => hno i (by rw [← hrlen]; exact hi)) with
      ⟨h1, h2⟩
    rw [h1]
    exact ⟨rfl, h2, rfl⟩

theorem executes_iff_some_process_eligible_witness :
    ((∃ c, c < (loaded [loaded_process 1 0 1, loaded_process 2 3 1]).processes.length ∧
        (proc ((Algorithm.round_robin 2).state (loaded [loaded_process 1 0 1, loaded_process 2 3 1]) 4).processes c).remaining_burst =
          (proc ((Algorithm.round_robin 2).state (loaded [loaded_process 1 0 1, loaded_process 2 3 1]) 3).processes c).remaining_burst - 1 ∧
        ((Algorithm.round_robin 2).state (loaded [loaded_process 1 0 1, loaded_process 2 3 1]) 4).output =
          ((Algorithm.round_robin 2).state (loaded [loaded_process 1 0 1, loaded_process 2 3 1]) 3).output ++
            [tick_event ((3 : Nat) : Int) (proc ((Algorithm.round_robin 2).state (loaded [loaded_process 1 0 1, loaded_process 2 3 1]) 3).processes c)]) ↔
      ∃ i, i < (loaded [loaded_process 1 0 1, loaded_process 2 3 1]).processes.length ∧
        eligible ((3 : Nat) : Int) (proc ((Algorithm.round_robin 2).state (loaded [loaded_process 1 0 1, loaded_process 2 3 1]) 3).processes i)) ∧
    (∃ i, i < (loaded [loaded_process 1 0 1, loaded_process 2 3 1]).processes.length ∧
      eligible ((3 : Nat) : Int) (proc ((Algorithm.round_robin 2).state (loaded [loaded_process 1 0 1, loaded_process 2 3 1]) 3).processes i)) ∧
    ((Algorithm.round_robin 2).course (loaded [loaded_process 1 0 1, loaded_process 2 3 1])).sel 3 = some 1 ∧
    (proc ((Algorithm.round_robin 2).state (loaded [loaded_process 1 0 1, loaded_process 2 3 1]) 3).processes 1).remaining_burst = 1 ∧
    (proc ((Algorithm.round_robin 2).state (loaded [loaded_process 1 0 1, loaded_process 2 3 1]) 4).processes 1).remaining_burst = 0 ∧
    (((Algorithm.round_robin 2).state (loaded [loaded_process 1 0 1, loaded_process 2 3 1]) 4).output.map (fun e => (e.tick, e.process_id, e.burst_left))) =
      [(0, 1, 1), (3, 2, 1)] ∧
    (((Algorithm.round_robin 2).course (loaded [loaded_process 1 0 1, loaded_process 2 3 1])).sel 1 ≠ none ↔
      ∃ i, i < (loaded [loaded_process 1 0 1, loaded_process 2 3 1]).processes.length ∧
        eligible ((1 : Nat) : Int) (proc ((Algorithm.round_robin 2).state (loaded [loaded_process 1 0 1, loaded_process 2 3 1]) 1).processes i)) ∧
    ((Algorithm.round_robin 2).course (loaded [loaded_process 1 0 1, loaded_process 2 3 1])).sel 1 = none :=
  ⟨(executes_iff_some_process_eligible (Algorithm.round_robin 2)
      (by show (1 : Int) ≤ 2; decide) 2 (by decide)
      (loaded [loaded_process 1 0 1, loaded_process 2 3 1]) ⟨by decide, by decide⟩
      (by decide) (by decide) 3 (by decide)).1,
    ⟨1, by decide, by decide⟩, by decide, by decide, by decide, by decide,
    (executes_iff_some_process_eligible (Algorithm.round_robin 2)
      (by show (1 : Int) ≤ 2; decide) 2 (by decide)
      (loaded [loaded_process 1 0 1, loaded_process 2 3 1]) ⟨by decide, by decide⟩
      (by decide) (by decide) 1 (by decide)).2.2.2.1, by decide⟩

end claim_19

section fifo

/-- What `enqueue` does to a sound queue: it appends the process when the guard holds. -/
theorem QueueSound.after_guarded_enqueue {g : Globals} {L : List Nat} (h : QueueSound g L)
    {i : Nat} (hi : i < g.processes.length) (h1 : (proc g.processes i).in_queue = 0)
    (h2 : 0 < (proc g.processes i).remaining_burst) :
    QueueSound (enqueue i g) (L ++ [i]) ∧
    (enqueue i g).processes = g.processes.set i { proc g.processes i with in_queue := 1 } ∧
    (enqueue i g).ready_queue.size = g.ready_queue.size + 1 := by
  have hni : i ∉ L := fun hm => (h.flagged i hm) h1
  have hnd : (L ++ [i]).Nodup := by
    rw [List.nodup_append]
    refine ⟨h.nodup, List.nodup_singleton i, ?_⟩
    intro a ha hb
    rw [List.mem_singleton] at hb
    subst hb
    exact hni ha
  have hlt : ∀ j, j ∈ L ++ [i] → j < g.processes.length := by
    intro j hj
    rcases List.mem_append.mp hj with hj | hj
    · exact h.mem_lt j hj
    · rw [List.mem_singleton] at hj; subst hj; exact hi
  have hl := nodup_length_le hnd hlt
  simp only [List.length_append, List.length_singleton] at hl
  have hroom : L.length < MAX_PROCESSES.toNat := by
    have := h.table_le
    omega
  rw [enqueue_eq (getElem?_eq_proc hi) h1 h2]
  refine ⟨⟨enqueue_represents h.repr hroom i, ?_, hnd, ?_, ?_⟩, rfl, rfl⟩
  · show (g.processes.set i _).length ≤ _
    rw [List.length_set]; exact h.table_le
  · intro j hj
    show j < (g.processes.set i _).length
    rw [List.length_set]; exact hlt j hj
  · intro j hj
    show (proc (g.processes.set i _) j).in_queue ≠ 0
    rw [proc_set _ _ _ _ hi]
    by_cases hij : i = j
    · simp [hij]
    · simp only [hij, if_false]
      rcases List.mem_append.mp hj with hj | hj
      · exact h.flagged j hj
      · rw [List.mem_singleton] at hj; exact absurd hj.symm hij

/-- What `dequeue` does to a sound queue: it returns the head and keeps the rest. -/
theorem QueueSound.after_dequeue_head {g : Globals} {x : Nat} {L : List Nat}
    (h : QueueSound g (x :: L)) :
    (dequeue g).1 = some x ∧ QueueSound (dequeue g).2 L ∧
    (dequeue g).2.processes = g.processes.set x { proc g.processes x with in_queue := 0 } := by
  have hx : x < g.processes.length := h.mem_lt x (List.mem_cons_self x L)
  rcases dequeue_cons h.repr with ⟨d1, d2, d3⟩
  rw [getElem?_eq_proc hx] at d2
  simp only at d2
  have hnd := List.nodup_cons.mp h.nodup
  refine ⟨d1, ⟨d3, ?_, hnd.2, ?_, ?_⟩, d2⟩
  · rw [d2, List.length_set]; exact h.table_le
  · intro j hj
    rw [d2, List.length_set]; exact h.mem_lt j (List.mem_cons_of_mem x hj)
  · intro j hj
    rw [d2, proc_set _ _ _ _ hx]
    have hxj : x ≠ j := fun e => hnd.1 (e ▸ hj)
    simp only [hxj, if_false]
    exact h.flagged j (List.mem_cons_of_mem x hj)

theorem Refines.after_op {r : QueueRun} {f : Fifo} (h : Refines r f) (op : QueueOp)
    (hop : op.inTable r.globals.processes.length) : Refines (r.step op) (f.step op) := by
  cases op with
  | enqueue i =>
    have hi : i < r.globals.processes.length := hop
    have hpf : f.processes[i]? = some (proc r.globals.processes i) := by
      rw [← h.processes_eq]; exact getElem?_eq_proc hi
    show Refines (QueueRun.step r (QueueOp.enqueue i)) (f.enqueue i)
    unfold QueueRun.step Fifo.enqueue
    rw [hpf]
    by_cases hg : (proc r.globals.processes i).in_queue = 0 ∧
        (proc r.globals.processes i).remaining_burst > 0
    · rcases h.sound.after_guarded_enqueue hi hg.1 hg.2 with ⟨e1, e2, e3⟩
      simp only [hg, and_self, if_true, e3]
      refine ⟨?_, e1, by rw [h.enqueued_eq], h.dequeued_eq, ?_⟩
      · show (enqueue i r.globals).processes = _
        rw [e2, h.processes_eq]
      · show f.enqueued ++ [i] = f.dequeued ++ (f.queue ++ [i])
        rw [h.fifo, List.append_assoc]
    · have e : enqueue i r.globals = r.globals :=
        @enqueue_noop r.globals i (fun p hp => by rw [← proc_of_getElem? hp]; exact hg)
      have hne : ¬ (r.globals.ready_queue.size = r.globals.ready_queue.size + 1) := by omega
      simp only [e, hg, hne, if_false]
      exact h
  | dequeue =>
    show Refines (QueueRun.step r QueueOp.dequeue) f.dequeue
    unfold QueueRun.step Fifo.dequeue
    cases hq : f.queue with
    | nil =>
      have hs := h.sound
      rw [hq] at hs
      rw [dequeue_nil hs.repr]
      simp only [Option.toList_none, List.append_nil]
      refine ⟨h.processes_eq, ?_, h.enqueued_eq, h.dequeued_eq, h.fifo⟩
      rw [hq]; exact hs
    | cons x rest =>
      have hs := h.sound
      rw [hq] at hs
      rcases hs.after_dequeue_head with ⟨d1, d2, d3⟩
      have hx : x < r.globals.processes.length := hs.mem_lt x (List.mem_cons_self x rest)
      have hpf : f.processes[x]? = some (proc r.globals.processes x) := by
        rw [← h.processes_eq]; exact getElem?_eq_proc hx
      rw [d1]
      simp only [Option.toList_some, hpf]
      refine ⟨?_, d2, h.enqueued_eq, by rw [h.dequeued_eq], ?_⟩
      · show (dequeue r.globals).2.processes = _
        rw [d3, h.processes_eq]
      · show f.enqueued = f.dequeued ++ [x] ++ rest
        rw [h.fifo, hq, List.append_assoc]
        rfl

theorem enqueue_length (i : Nat) (g : Globals) :
    (enqueue i g).processes.length = g.processes.length := by
  unfold enqueue
  cases h : g.processes[i]? with
  | none => rfl
  | some p =>
    by_cases hg : p.in_queue = 0 ∧ p.remaining_burst > 0
    · simp [hg]
    · simp [hg]

theorem dequeue_length (g : Globals) :
    (dequeue g).2.processes.length = g.processes.length := by
  unfold dequeue
  by_cases h : g.ready_queue.size ≤ 0
  · rw [if_pos h]
  · rw [if_neg h]
    cases h1 : g.ready_queue.items.getD g.ready_queue.front.toNat none with
    | none => simp [h1]
    | some i => cases h2 : g.processes[i]? <;> simp [h1, h2]

theorem QueueRun.step_length (r : QueueRun) (op : QueueOp) :
    (r.step op).globals.processes.length = r.globals.processes.length := by
  cases op with
  | enqueue i => exact enqueue_length i r.globals
  | dequeue => exact dequeue_length r.globals

theorem refines_fold (ops : List QueueOp) {r : QueueRun} {f : Fifo} (h : Refines r f)
    (hops : ∀ op, op ∈ ops → op.inTable r.globals.processes.length) :
    Refines (ops.foldl QueueRun.step r) (ops.foldl Fifo.step f) := by
  induction ops generalizing r f with
  | nil => exact h
  | cons op ops ih =>
    simp only [List.foldl_cons]
    apply ih (h.after_op op (hops op (List.mem_cons_self op ops)))
    intro op' hop'
    rw [QueueRun.step_length]
    exact hops op' (List.mem_cons_of_mem op hop')

end fifo

section claim_11

/-- C11: the circular ready queue refines the FIFO list of the specification. Starting
from `init_queue()`, for every sequence of `enqueue` and `dequeue` calls on processes of a
table with at most `MAX_PROCESSES` entries, the C queue and the FIFO list end with the
same table and the same logs, the live region of the circular queue reads the FIFO
list, and the processes inserted by the successful enqueues are, in order, the processes
returned by the successful dequeues followed by the queue contents: the `k`-th successful
dequeue returns the process inserted by the `k`-th successful enqueue, however many
enqueues there are and however often `front` and `rear` wrap around. -/
theorem circular_queue_refines_fifo (g : Globals) (hw : WellFormed g) (ops : List QueueOp)
    (hops : ∀ op, op ∈ ops → op.inTable g.processes.length) :
    (run_queue_ops g ops).globals.processes = (run_fifo_ops g.processes ops).processes ∧
    queue_contents (run_queue_ops g ops).globals.ready_queue =
      (run_fifo_ops g.processes ops).queue.map some ∧
    (run_queue_ops g ops).globals.ready_queue.size =
      ((run_fifo_ops g.processes ops).queue.length : Int) ∧
    (run_queue_ops g ops).enqueued = (run_fifo_ops g.processes ops).enqueued ∧
    (run_queue_ops g ops).dequeued = (run_fifo_ops g.processes ops).dequeued ∧
    (run_queue_ops g ops).enqueued =
      (run_queue_ops g ops).dequeued ++ (run_fifo_ops g.processes ops).queue ∧
    (∀ (k x : Nat), (run_queue_ops g ops).dequeued[k]? = some x →
      (run_queue_ops g ops).enqueued[k]? = some x) := by
  have h0 : Refines
      { globals := { processes := g.processes, ready_queue := init_queue g.ready_queue },
        enqueued := [], dequeued := [] }
      { processes := g.processes, queue := [], enqueued := [], dequeued := [] } := by
    refine ⟨rfl, ⟨init_queue_represents _ hw.items_length, hw.table_le, List.nodup_nil, ?_, ?_⟩,
      rfl, rfl, rfl⟩
    · intro i hi; exact absurd hi (List.not_mem_nil _)
    · intro i hi; exact absurd hi (List.not_mem_nil _)
  have h := refines_fold ops h0 hops
  have h : Refines (run_queue_ops g ops) (run_fifo_ops g.processes ops) := h
  have hf : (run_queue_ops g ops).enqueued =
      (run_queue_ops g ops).dequeued ++ (run_fifo_ops g.processes ops).queue := by
    rw [h.enqueued_eq, h.dequeued_eq]; exact h.fifo
  refine ⟨h.processes_eq, h.sound.repr.contents, h.sound.repr.size_eq, h.enqueued_eq,
    h.dequeued_eq, hf, ?_⟩
  intro k x hk
  have hlt : k < (run_queue_ops g ops).dequeued.length :=
    (List.getElem?_eq_some.mp hk).1
  rw [hf, List.getElem?_append_left hlt]
  exact hk

set_option maxRecDepth 100000 in
theorem circular_queue_refines_fifo_witness :
    ((run_queue_ops (loaded [loaded_process 0 0 1]) wrap_around_ops).enqueued.length = 101 ∧
      (run_queue_ops (loaded [loaded_process 0 0 1]) wrap_around_ops).globals.ready_queue.rear
        = 0 ∧
      (run_queue_ops (loaded [loaded_process 0 0 1]) wrap_around_ops).globals.ready_queue.front
        = 1) ∧
    (run_queue_ops (loaded [loaded_process 0 0 1]) wrap_around_ops).enqueued =
      (run_queue_ops (loaded [loaded_process 0 0 1]) wrap_around_ops).dequeued ++
      (run_fifo_ops (loaded [loaded_process 0 0 1]).processes wrap_around_ops).queue :=
  ⟨by decide,
    (circular_queue_refines_fifo (loaded [loaded_process 0 0 1]) ⟨by decide, by decide⟩
      wrap_around_ops (by decide)).2.2.2.2.2.1⟩

end claim_11

section twins

theorem sameQueue_enqueue (i : Nat) {g1 g2 : Globals} (h : SameQueue g1 g2) :
    SameQueue (enqueue i g1) (enqueue i g2) := by
  rcases h with ⟨hp, L, h1, h2⟩
  by_cases hi : i < g1.processes.length
  · have hi2 : i < g2.processes.length := by rw [← hp]; exact hi
    by_cases hg : (proc g1.processes i).in_queue = 0 ∧ 0 < (proc g1.processes i).remaining_burst
    · have hg2 : (proc g2.processes i).in_queue = 0 ∧ 0 < (proc g2.processes i).remaining_burst := by
        rw [← hp]; exact hg
      rcases h1.after_guarded_enqueue hi hg.1 hg.2 with ⟨a1, a2, _⟩
      rcases h2.after_guarded_enqueue hi2 hg2.1 hg2.2 with ⟨b1, b2, _⟩
      exact ⟨by rw [a2, b2, hp], L ++ [i], a1, b1⟩
    · have hg2 : ¬ ((proc g2.processes i).in_queue = 0 ∧
          0 < (proc g2.processes i).remaining_burst) := by rw [← hp]; exact hg
      rw [@enqueue_noop g1 i (fun p hp' => by rw [← proc_of_getElem? hp']; exact hg),
        @enqueue_noop g2 i (fun p hp' => by rw [← proc_of_getElem? hp']; exact hg2)]
      exact ⟨hp, L, h1, h2⟩
  · have hn1 : g1.processes[i]? = none := List.getElem?_eq_none (by omega)
    have hn2 : g2.processes[i]? = none := by rw [← hp]; exact hn1
    rw [@enqueue_noop g1 i (fun p hp' => by rw [hn1] at hp'; exact Option.noConfusion hp'),
      @enqueue_noop g2 i (fun p hp' => by rw [hn2] at hp'; exact Option.noConfusion hp')]
    exact ⟨hp, L, h1, h2⟩

theorem sameQueue_dequeue {g1 g2 : Globals} (h : SameQueue g1 g2) :
    (dequeue g1).1 = (dequeue g2).1 ∧ SameQueue (dequeue g1).2 (dequeue g2).2 := by
  rcases h with ⟨hp, L, h1, h2⟩
  cases L with
  | nil =>
    rw [dequeue_nil h1.repr, dequeue_nil h2.repr]
    exact ⟨rfl, hp, [], h1, h2⟩
  | cons x L =>
    rcases h1.after_dequeue_head with ⟨a1, a2, a3⟩
    rcases h2.after_dequeue_head with ⟨b1, b2, b3⟩
    exact ⟨by rw [a1, b1], by rw [a3, b3, hp], L, a2, b2⟩

theorem sameQueue_length {g1 g2 : Globals} (h : SameQueue g1 g2) :
    g1.processes.length = g2.processes.length := by rw [h.1]

theorem sameQueue_check_arrivals_step (t : Int) (i : Nat) {g1 g2 : Globals}
    (h : SameQueue g1 g2) :
    SameQueue (check_arrivals_step t g1 i) (check_arrivals_step t g2 i) := by
  unfold check_arrivals_step
  rw [← h.1]
  cases hp : g1.processes[i]? with
  | none => exact h
  | some p =>
    simp only
    by_cases ha : p.arrival_time = t
    · rw [if_pos ha, if_pos ha]; exact sameQueue_enqueue i h
    · rw [if_neg ha, if_neg ha]; exact h

theorem sameQueue_fold (t : Int) (l : List Nat) {g1 g2 : Globals} (h : SameQueue g1 g2) :
    SameQueue (l.foldl (check_arrivals_step t) g1) (l.foldl (check_arrivals_step t) g2) := by
  induction l generalizing g1 g2 with
  | nil => exact h
  | cons i l ih =>
    simp only [List.foldl_cons]
    exact ih (sameQueue_check_arrivals_step t i h)

theorem sameQueue_check_arrivals (t : Int) {g1 g2 : Globals} (h : SameQueue g1 g2) :
    SameQueue (check_arrivals t g1) (check_arrivals t g2) := by
  unfold check_arrivals
  rw [← sameQueue_length h]
  exact sameQueue_fold t _ h

theorem QueueSound.after_execute {g : Globals} {L : List Nat} (h : QueueSound g L) (t : Int)
    (c : Nat) :
    QueueSound { processes := execute_tick t c g.processes, ready_queue := g.ready_queue } L := by
  have hlen := execute_tick_length t c g.processes
  refine ⟨h.repr, ?_, h.nodup, ?_, ?_⟩
  · show (execute_tick t c g.processes).length ≤ _
    rw [hlen]; exact h.table_le
  · intro i hi
    show i < (execute_tick t c g.processes).length
    rw [hlen]; exact h.mem_lt i hi
  · intro i hi
    show (proc (execute_tick t c g.processes) i).in_queue ≠ 0
    rw [proc_execute_tick _ _ _ _ (h.mem_lt i hi), tick_process_in_queue]
    exact h.flagged i hi

theorem rrTwin_body (quantum : Int) {s1 s2 : RRState} (h : RRTwin s1 s2) :
    RRTwin (rr_body quantum s1) (rr_body quantum s2) := by
  -- after `check_arrivals`
  have ha : RRTwin (rr_arrive s1) (rr_arrive s2) := by
    refine ⟨?_, h.time_eq, h.current_eq, h.quantum_eq, h.output_eq⟩
    show SameQueue (check_arrivals s1.current_time s1.globals)
      (check_arrivals s2.current_time s2.globals)
    rw [← h.time_eq]
    exact sameQueue_check_arrivals _ h.queue
  -- after the first `if`
  have hd : RRTwin (rr_dispatch quantum (rr_arrive s1)) (rr_dispatch quantum (rr_arrive s2)) := by
    generalize rr_arrive s1 = u1 at ha
    generalize rr_arrive s2 = u2 at ha
    have hsw : rr_switch quantum u1 = rr_switch quantum u2 := by
      unfold rr_switch
      rw [ha.current_eq, ha.quantum_eq, ha.queue.1]
    have hrq : SameQueue (rr_requeue u1) (rr_requeue u2) := by
      unfold rr_requeue
      rw [← ha.current_eq, ← ha.queue.1]
      cases hc : u1.current with
      | none => exact ha.queue
      | some c =>
        simp only
        by_cases hu : current_unfinished u1.globals.processes (some c) = true
        · rw [if_pos hu, if_pos hu]; exact sameQueue_enqueue c ha.queue
        · rw [if_neg hu, if_neg hu]; exact ha.queue
    rw [rr_dispatch_eq, rr_dispatch_eq, ← hsw]
    by_cases hs : rr_switch quantum u1 = true
    · rw [if_pos hs, if_pos hs]
      rcases sameQueue_dequeue hrq with ⟨d1, d2⟩
      exact ⟨d2, ha.time_eq, d1, rfl, ha.output_eq⟩
    · rw [if_neg hs, if_neg hs]; exact ha
  -- after the second `if`
  unfold rr_body
  generalize rr_dispatch quantum (rr_arrive s1) = v1 at hd
  generalize rr_dispatch quantum (rr_arrive s2) = v2 at hd
  cases hc : v1.current with
  | none =>
    have hc2 : v2.current = none := by rw [← hd.current_eq]; exact hc
    rw [rr_execute_none hc, rr_execute_none hc2]
    exact ⟨hd.queue, by show v1.current_time + 1 = v2.current_time + 1; rw [hd.time_eq],
      hd.current_eq, hd.quantum_eq, hd.output_eq⟩
  | some c =>
    have hc2 : v2.current = some c := by rw [← hd.current_eq]; exact hc
    rw [rr_execute_some hc, rr_execute_some hc2]
    rcases hd.queue with ⟨hp, L, q1, q2⟩
    refine ⟨⟨?_, L, q1.after_execute _ c, q2.after_execute _ c⟩, ?_, ?_, ?_, ?_⟩
    · show execute_tick v1.current_time c v1.globals.processes =
        execute_tick v2.current_time c v2.globals.processes
      rw [hd.time_eq, hp]
    · show v1.current_time + 1 = v2.current_time + 1
      rw [hd.time_eq]
    · show (if current_finished (execute_tick v1.current_time c v1.globals.processes) (some c)
        then none else some c) =
        (if current_finished (execute_tick v2.current_time c v2.globals.processes) (some c)
        then none else some c)
      rw [hd.time_eq, hp]
    · show v1.time_in_quantum + 1 = v2.time_in_quantum + 1
      rw [hd.quantum_eq]
    · show v1.output ++ print_event v1.current_time c v1.globals.processes =
        v2.output ++ print_event v2.current_time c v2.globals.processes
      rw [hd.output_eq, hd.time_eq, hp]

theorem while_loop_twin {σ τ : Type} (cond : σ → Bool) (body : σ → σ) (f : σ → τ)
    (R : σ → σ → Prop) (hc : ∀ s1 s2, R s1 s2 → cond s1 = cond s2)
    (hb : ∀ s1 s2, R s1 s2 → R (body s1) (body s2)) (hf : ∀ s1 s2, R s1 s2 → f s1 = f s2)
    (fuel : Nat) (s1 s2 : σ) (h : R s1 s2) :
    (while_loop cond body fuel s1).map f = (while_loop cond body fuel s2).map f := by
  induction fuel generalizing s1 s2 with
  | zero => rfl
  | succ fuel ih =>
    unfold while_loop
    rw [← hc s1 s2 h]
    by_cases hcs : cond s1 = true
    · rw [if_pos hcs, if_pos hcs]; exact ih _ _ (hb s1 s2 h)
    · rw [if_neg hcs, if_neg hcs]
      show some (f s1) = some (f s2)
      rw [hf s1 s2 h]

/-- The run of `round_robin` does not depend on what the `items` array and the indices
of the ready queue hold when the function is called. -/
theorem round_robin_ignores_stale_queue (quantum : Int) (fuel : Nat) {g1 g2 : Globals}
    (hp : g1.processes = g2.processes) (h1 : WellFormed g1) (h2 : WellFormed g2) :
    (round_robin quantum fuel g1).map RRState.toSim =
      (round_robin quantum fuel g2).map RRState.toSim := by
  apply while_loop_twin rr_running (rr_body quantum) RRState.toSim RRTwin
  · intro s1 s2 h
    unfold rr_running
    rw [h.queue.1]
  · intro s1 s2 h
    exact rrTwin_body quantum h
  · intro s1 s2 h
    unfold RRState.toSim
    rw [h.queue.1, h.time_eq, h.output_eq]
  · refine ⟨⟨hp, [], ?_, ?_⟩, rfl, rfl, rfl, rfl⟩
    · refine ⟨init_queue_represents _ h1.items_length, h1.table_le, List.nodup_nil, ?_, ?_⟩
      · intro i hi; exact absurd hi (List.not_mem_nil _)
      · intro i hi; exact absurd hi (List.not_mem_nil _)
    · refine ⟨init_queue_represents _ h2.items_length, h2.table_le, List.nodup_nil, ?_, ?_⟩
      · intro i hi; exact absurd hi (List.not_mem_nil _)
      · intro i hi; exact absurd hi (List.not_mem_nil _)

end twins

section claim_13

theorem list_eq_of_proc {l1 l2 : List Process} (hlen : l1.length = l2.length)
    (h : ∀ i, i < l1.length → proc l1 i = proc l2 i) : l1 = l2 := by
  apply List.ext_getElem? 
  intro i
  by_cases hi : i < l1.length
  · rw [getElem?_eq_proc hi, getElem?_eq_proc (by rw [← hlen]; exact hi), h i hi]
  · rw [List.getElem?_eq_none (by omega), List.getElem?_eq_none (by omega)]

theorem proc_reset_processes (ps : List Process) {i : Nat} (hi : i < ps.length) :
    proc (reset_processes ps) i =
      { proc ps i with remaining_burst := (proc ps i).burst_time, wait_time := 0,
                       turnaround_time := 0, completion_time := 0, in_queue := 0 } := by
  apply proc_of_getElem?
  unfold reset_processes
  rw [List.getElem?_map, getElem?_eq_proc hi]
  rfl

/-- Resetting the table reached on a sound course from a freshly loaded table gives the
loaded table back. -/
theorem reset_of_course {r : Course} (hs : r.Sound)
    (hfresh : ∀ p, p ∈ r.table 0 → fresh p) (n : Nat) :
    reset_processes (r.table n) = r.table 0 := by
  have hlen := Course.sound_length hs n
  apply list_eq_of_proc
  · unfold reset_processes; rw [List.length_map, hlen]
  · intro i hi
    have hi : i < (r.table n).length := by
      unfold reset_processes at hi; rw [List.length_map] at hi; exact hi
    have hi0 : i < (r.table 0).length := by rw [← hlen]; exact hi
    have hst := Course.sound_static hs n hi0
    rcases hfresh _ (proc_mem hi0) with ⟨f1, f2, f3, f4, f5⟩
    rw [proc_reset_processes _ hi]
    cases h0 : proc (r.table 0) i with
    | mk id0 b0 r0 a0 w0 t0 c0 q0 =>
      cases hn : proc (r.table n) i with
      | mk idn bn rn an wn tn cn qn =>
        rw [h0, hn] at hst
        rw [h0] at f1 f2 f3 f4 f5
        simp only at hst f1 f2 f3 f4 f5
        rcases hst with ⟨s1, s2, s3, s4⟩
        subst s1 s2 s3 s4 f2 f3 f4 f5
        simp only [Process.mk.injEq, true_and, and_true]
        exact f1.symm

theorem round_robin_eq (quantum : Int) (g : Globals) (T : Nat)
    (h1 : ∀ n, n < T →
      all_processes_complete (rr_state quantum g n).globals.processes = false)
    (h2 : all_processes_complete (rr_state quantum g T).globals.processes = true)
    (fuel : Nat) (hf : T < fuel) :
    round_robin quantum fuel g = some (rr_state quantum g T) := by
  apply while_loop_eq rr_running (rr_body quantum) T (rr_start g) _ _ fuel hf
  · intro n hn
    have := h1 n hn
    show (!all_processes_complete (rr_state quantum g n).globals.processes) = true
    simpa using this
  · show (!all_processes_complete (rr_state quantum g T).globals.processes) = false
    simpa using h2

/-- The globals with which the loop of an algorithm ends: the table reached at the first
tick at which every process is complete, with a ready queue of `MAX_PROCESSES` slots. -/
theorem Algorithm.run_globals_eq (a : Algorithm) {g : Globals} (hw : WellFormed g)
    (hflag : ∀ p, p ∈ g.processes → p.in_queue = 0) (T : Nat)
    (h1 : ∀ n, n < T → all_processes_complete ((a.course g).table n) = false)
    (h2 : all_processes_complete ((a.course g).table T) = true) (fuel : Nat) (hf : T < fuel) :
    ∃ g', a.run_globals fuel g = some g' ∧ g'.processes = (a.course g).table T ∧
      g'.ready_queue.items.length = MAX_PROCESSES.toNat := by
  have hr := a.run_eq g T h1 h2 fuel hf
  cases a with
  | fcfs =>
    have hr : CpuScheduler.fcfs fuel g.processes = some (fcfs_state g.processes T) := hr
    refine ⟨{ processes := (fcfs_state g.processes T).processes, ready_queue := g.ready_queue },
      ?_, rfl, hw.items_length⟩
    show (CpuScheduler.fcfs fuel g.processes).map _ = _
    rw [hr]; rfl
  | sjf =>
    have hr : CpuScheduler.sjf fuel g.processes = some (sjf_state g.processes T) := hr
    refine ⟨{ processes := (sjf_state g.processes T).processes, ready_queue := g.ready_queue },
      ?_, rfl, hw.items_length⟩
    show (CpuScheduler.sjf fuel g.processes).map _ = _
    rw [hr]; rfl
  | round_robin quantum =>
    rcases rr_state_core quantum hw hflag T with ⟨L, hL⟩
    refine ⟨(rr_state quantum g T).globals, ?_, rfl, hL.queue.repr.items_length⟩
    show (CpuScheduler.round_robin quantum fuel g).map _ = _
    rw [round_robin_eq quantum g T h1 h2 fuel hf]; rfl

/-- The run of an algorithm depends on the table only, not on the ready queue that it
finds. -/
theorem Algorithm.run_ignores_queue (b : Algorithm) (fuel : Nat) {g1 g2 : Globals}
    (hp : g1.processes = g2.processes) (h1 : WellFormed g1) (h2 : WellFormed g2) :
    b.run fuel g1 = b.run fuel g2 := by
  cases b with
  | fcfs => show CpuScheduler.fcfs fuel g1.processes = CpuScheduler.fcfs fuel g2.processes; rw [hp]
  | sjf => show CpuScheduler.sjf fuel g1.processes = CpuScheduler.sjf fuel g2.processes; rw [hp]
  | round_robin quantum => exact round_robin_ignores_stale_queue quantum fuel hp h1 h2

theorem while_loop_some {σ : Type} (cond : σ → Bool) (body : σ → σ) (fuel : Nat) (s s' : σ)
    (h : while_loop cond body fuel s = some s') : ∃ n, s' = body^[n] s := by
  induction fuel generalizing s with
  | zero => exact Option.noConfusion h
  | succ fuel ih =>
    rw [while_loop] at h
    by_cases hc : cond s = true
    · rw [if_pos hc] at h
      rcases ih (body s) h with ⟨n, hn⟩
      exact ⟨n + 1, by rw [Function.iterate_succ_apply]; exact hn⟩
    · rw [if_neg hc] at h
      exact ⟨0, (Option.some.inj h).symm⟩

/-- Whatever the fuel, the globals with which a loop returns are those of some tick of the
course, with a ready queue of `MAX_PROCESSES` slots. -/
theorem Algorithm.run_globals_some (a : Algorithm) {g : Globals} (hw : WellFormed g)
    (hflag : ∀ p, p ∈ g.processes → p.in_queue = 0) (fuel : Nat) (g' : Globals)
    (h : a.run_globals fuel g = some g') :
    ∃ n, g'.processes = (a.course g).table n ∧
      g'.ready_queue.items.length = MAX_PROCESSES.toNat := by
  cases a with
  | fcfs =>
    have h : (CpuScheduler.fcfs fuel g.processes).map
        (fun s => ({ processes := s.processes, ready_queue := g.ready_queue } : Globals)) =
          some g' := h
    cases hr : CpuScheduler.fcfs fuel g.processes with
    | none => rw [hr] at h; exact Option.noConfusion h
    | some s =>
      rw [hr] at h
      have e : g' = { processes := s.processes, ready_queue := g.ready_queue } :=
        (Option.some.inj h).symm
      rcases while_loop_some sim_running fcfs_body fuel (sim_start g.processes) s hr with ⟨n, hn⟩
      refine ⟨n, ?_, ?_⟩
      · rw [e, hn]; rfl
      · rw [e]; exact hw.items_length
  | sjf =>
    have h : (CpuScheduler.sjf fuel g.processes).map
        (fun s => ({ processes := s.processes, ready_queue := g.ready_queue } : Globals)) =
          some g' := h
    cases hr : CpuScheduler.sjf fuel g.processes with
    | none => rw [hr] at h; exact Option.noConfusion h
    | some s =>
      rw [hr] at h
      have e : g' = { processes := s.processes, ready_queue := g.ready_queue } :=
        (Option.some.inj h).symm
      rcases while_loop_some sim_running sjf_body fuel (sim_start g.processes) s hr with ⟨n, hn⟩
      refine ⟨n, ?_, ?_⟩
      · rw [e, hn]; rfl
      · rw [e]; exact hw.items_length
  | round_robin quantum =>
    have h : (CpuScheduler.round_robin quantum fuel g).map (fun s => s.globals) = some g' := h
    cases hr : CpuScheduler.round_robin quantum fuel g with
    | none => rw [hr] at h; exact Option.noConfusion h
    | some s =>
      rw [hr] at h
      have e : g' = s.globals := (Option.some.inj h).symm
      rcases while_loop_some rr_running (rr_body quantum) fuel (rr_start g) s hr with ⟨n, hn⟩
      have hs : s = rr_state quantum g n := hn
      rcases rr_state_core quantum hw hflag n with ⟨L, hL⟩
      refine ⟨n, ?_, ?_⟩
      · rw [e, hs]; rfl
      · rw [e, hs]; exact hL.queue.repr.items_length

/-- C13: for every freshly loaded table and all algorithms `a` and `b` (any quantum):
whenever the loop of `a` returns, `reset_processes` applied to the table that it leaves
gives the loaded table back, `id`, `arrival_time` and `burst_time` having never changed,
and `b` run after the reset, on the ready queue that `a` left, gives exactly the same
result (final table, clock and output lines) as `b` run on the loaded table; and the loop
of `a` does return, with every fuel above some bound, when its quantum is at least 1 and no
burst or arrival time is negative. -/
theorem reset_restores_loaded_table (a b : Algorithm) (g : Globals)
    (hw : WellFormed g) (hfresh : ∀ p, p ∈ g.processes → fresh p) :
    (∀ fuel g', a.run_globals fuel g = some g' →
      reset_processes g'.processes = g.processes ∧
      g'.processes.map (fun p => (p.id, p.arrival_time, p.burst_time)) =
        g.processes.map (fun p => (p.id, p.arrival_time, p.burst_time)) ∧
      ∀ fuel', b.run fuel' (reset_globals g') = b.run fuel' g) ∧
    (a.admissible →
      (∀ p, p ∈ g.processes → 0 ≤ p.burst_time ∧ 0 ≤ p.arrival_time) →
      ∃ T, ∀ fuel, T < fuel → ∃ g', a.run_globals fuel g = some g') := by
  have hflag : ∀ p, p ∈ g.processes → p.in_queue = 0 := fun p hp => (hfresh p hp).2.2.2.2
  have hs := a.course_sound hw hflag
  refine ⟨fun fuel g' hrun => ?_, fun ha hin => ?_⟩
  · rcases a.run_globals_some hw hflag fuel g' hrun with ⟨n, e2, e3⟩
    have hreset : reset_processes g'.processes = g.processes := by
      rw [e2, reset_of_course hs (by rw [a.table_zero]; exact hfresh) n, a.table_zero]
    refine ⟨hreset, ?_, fun fuel' => ?_⟩
    · rw [← hreset]
      unfold reset_processes
      rw [List.map_map]
      rfl
    · apply b.run_ignores_queue fuel' hreset
      · refine ⟨e3, ?_⟩
        show (reset_processes g'.processes).length ≤ _
        rw [hreset]; exact hw.table_le
      · exact hw
  · have hv := a.course_valid ha hw hflag (fun p hp => (hin p hp).2)
    have h0 : ∀ i, i < ((a.course g).table 0).length →
        0 ≤ (proc ((a.course g).table 0) i).remaining_burst := by
      intro i hi
      rw [a.table_zero] at hi ⊢
      have hp := proc_mem hi
      rw [(hfresh _ hp).1]
      exact (hin _ hp).1
    rcases Course.first_complete hv h0 with ⟨T, _, hT, hlt, _⟩
    refine ⟨T, fun fuel hf => ?_⟩
    rcases a.run_globals_eq hw hflag T hlt hT fuel hf with ⟨g', e1, _, _⟩
    exact ⟨g', e1⟩

theorem reset_restores_loaded_table_witness :
    (∃ g', (Algorithm.round_robin 2).run_globals 20
        (loaded [loaded_process 1 0 5, loaded_process 2 1 3]) = some g' ∧
      reset_processes g'.processes =
        (loaded [loaded_process 1 0 5, loaded_process 2 1 3]).processes ∧
      ∀ fuel', (Algorithm.round_robin 3).run fuel' (reset_globals g') =
        (Algorithm.round_robin 3).run fuel'
          (loaded [loaded_process 1 0 5, loaded_process 2 1 3])) ∧
    ∃ T, ∀ fuel, T < fuel → ∃ g', (Algorithm.round_robin 2).run_globals fuel
        (loaded [loaded_process 1 0 5, loaded_process 2 1 3]) = some g' :=
  have h := reset_restores_loaded_table (Algorithm.round_robin 2) (Algorithm.round_robin 3)
    (loaded [loaded_process 1 0 5, loaded_process 2 1 3]) ⟨by decide, by decide⟩ (by decide)
  have hsome : ((Algorithm.round_robin 2).run_globals 20
      (loaded [loaded_process 1 0 5, loaded_process 2 1 3])).isSome = true := by decide
  have ⟨g', hg⟩ := Option.isSome_iff_exists.mp hsome
  ⟨⟨g', hg, (h.1 20 g' hg).1, (h.1 20 g' hg).2.2⟩,
    h.2 (by show (1 : Int) ≤ 2; decide) (by decide)⟩

end claim_13

end CpuScheduler
